import Mathlib

/-!
# Goby bytecode decoder (`vm/bytecode_parser.go`)

A shallow embedding of the decoder that turns a bytecode listing, given either
as structured records or as text, into instruction sequences, together with
the label table, the block table and the program-root pointer it fills.

Go values are modelled as follows.

* A Go `string` is a Lean `String`; the library functions that look inside a
  string work on its list of characters.
* `*instructionSet` is a `Ptr`, an index into the store `bytecodeParser.heap`
  of allocated instruction sets, so that two references can be compared.
* A Go map is a partial function from keys to values.
* A function that can panic returns an `Outcome` next to the decoder state it
  leaves behind; a panic stops the caller unless the caller recovers.
* `int` and `int64` are 64 bits wide and are held as `Int`, `uint64` as `Nat`
  reduced modulo `2 ^ 64` where the source can wrap around.
-/

namespace vm

/-! ## Go runtime: panics and outcomes -/

/-- The values this decoder can panic with.  `unknownCommand act line` is the
string built by `fmt.Sprintf("Unknown command: %s. line: %d", act, line)`,
`message` is the string of `panic(err.Error())`; the other two are run-time
errors raised by the Go runtime itself. -/
inductive PanicValue where
  | unknownCommand (act : String) (line : Int)
  | message (msg : String)
  | indexOutOfRange
  | nilMapAssignment
  deriving DecidableEq, Repr

/-- How a call ends: it returns a value, or it panics. -/
inductive Outcome (α : Type) where
  | returned (a : α)
  | panicked (v : PanicValue)
  deriving DecidableEq, Repr

/-- The statement `for _, x := range xs { body(x) }` over a state `σ`: the body
runs on each element in order and the first panic ends the loop. -/
def forRange {σ α : Type} (body : σ → α → Outcome Unit × σ) : σ → List α → Outcome Unit × σ
  | s, [] => (.returned (), s)
  | s, x :: xs =>
    match body s x with
    | (.panicked v, s1) => (.panicked v, s1)
    | (.returned _, s1) => forRange body s1 xs

/-- A Go map write `m[k] = v`. -/
def mapSet {β : Type} (m : String → β) (k : String) (v : β) : String → β :=
  fun k1 => if k1 = k then v else m k1

/-- Apply `f` to the element at index `i` of a list, when there is one. -/
def modifyAt {α : Type} (f : α → α) : List α → Nat → List α
  | [], _ => []
  | x :: xs, 0 => f x :: xs
  | x :: xs, i + 1 => x :: modifyAt f xs i

/-! ## Go standard library: `strings` -/

namespace strings

/-- The fields of `cs` around each occurrence of `sep`, as the first field and
the list of the later ones. -/
def fields (sep : Char) : List Char → List Char × List (List Char)
  | [] => ([], [])
  | c :: cs =>
    let r := fields sep cs
    if c = sep then ([], r.1 :: r.2) else (c :: r.1, r.2)

/-- The function `strings.Split(s, sep)` for a separator of one character, which
is what every call in the decoder passes.  The result is never empty. -/
def Split (s : String) (sep : Char) : List String :=
  let r := fields sep s.data
  (r.1 :: r.2).map String.mk

/-- The predicate `unicode.IsSpace`. -/
def isSpace (c : Char) : Bool :=
  let n := c.toNat
  (9 ≤ n && n ≤ 13) || n = 0x20 || n = 0x85 || n = 0xA0 || n = 0x1680 ||
    (0x2000 ≤ n && n ≤ 0x200A) || n = 0x2028 || n = 0x2029 || n = 0x202F ||
    n = 0x205F || n = 0x3000

/-- Drop the characters satisfying `f` from both ends of a list. -/
def trimChars (f : Char → Bool) (cs : List Char) : List Char :=
  ((cs.dropWhile f).reverse.dropWhile f).reverse

/-- The function `strings.TrimSpace`. -/
def TrimSpace (s : String) : String :=
  String.mk (trimChars isSpace s.data)

/-- The function `strings.Trim(s, cutset)` for a cutset of one character. -/
def Trim (s : String) (cutset : Char) : String :=
  String.mk (trimChars (fun c => c == cutset) s.data)

/-- The function `strings.HasPrefix`. -/
def HasPrefix (s pre : String) : Bool :=
  pre.data.isPrefixOf s.data

end strings

/-! ## Go standard library: `strconv.ParseInt(s, 0, 64)` -/

namespace strconv

/-- The two errors of `strconv`: `ErrSyntax` and `ErrRange`. -/
inductive NumError where
  | ErrSyntax
  | ErrRange
  deriving DecidableEq, Repr

/-- The helper `lower(c)`, which is `c | ('x' - 'X')`. -/
def lower (c : Char) : Nat := c.toNat ||| 0x20

/-- The digit value the loop of `ParseUint` gives a character, if it has one.
A character outside ASCII is encoded in bytes of `0x80` and above, none of
which is a digit or a letter. -/
def digit (c : Char) : Option Nat :=
  if 48 ≤ c.toNat ∧ c.toNat ≤ 57 then some (c.toNat - 48)
  else if 97 ≤ lower c ∧ lower c ≤ 122 then some (lower c - 97 + 10)
  else none

/-- The largest `uint64`. -/
def maxUint64 : Nat := 2 ^ 64 - 1

/-- The digit loop of `ParseUint` for bit size 64 when the base was given as 0:
`n` is the value so far and the flag records whether an underscore was seen.
An error carries the value returned with it. -/
def ParseUint.loop (base : Nat) : List Char → Nat → Bool → Except (Nat × NumError) (Nat × Bool)
  | [], n, underscores => .ok (n, underscores)
  | c :: cs, n, underscores =>
    if c = '_' then ParseUint.loop base cs n true
    else
      match digit c with
      | none => .error (0, .ErrSyntax)
      | some d =>
        if d ≥ base then .error (0, .ErrSyntax)
        else if n ≥ maxUint64 / base + 1 then .error (maxUint64, .ErrRange)
        else
          let n0 := n * base % 2 ^ 64
          let n1 := (n0 + d) % 2 ^ 64
          if n1 < n0 ∨ n1 > maxUint64 then .error (maxUint64, .ErrRange)
          else ParseUint.loop base cs n1 underscores

/-- The loop of `underscoreOK` over the number proper; `saw` is the kind of
the last character seen. -/
def underscoreOK.scan (hex : Bool) : List Char → Char → Bool
  | [], saw => saw != '_'
  | c :: cs, saw =>
    if (48 ≤ c.toNat && c.toNat ≤ 57) || (hex && 97 ≤ lower c && lower c ≤ 102) then
      underscoreOK.scan hex cs '0'
    else if c = '_' then
      if saw != '0' then false else underscoreOK.scan hex cs '_'
    else if saw = '_' then false
    else underscoreOK.scan hex cs '!'

/-- The function `underscoreOK`: underscores may only separate digits, or a
base marker from a digit. -/
def underscoreOK (s : List Char) : Bool :=
  let s1 := match s with
    | c :: t => if c = '-' ∨ c = '+' then t else s
    | [] => s
  match s1 with
  | c0 :: c1 :: t =>
    if c0 = '0' ∧ (lower c1 = 98 ∨ lower c1 = 111 ∨ lower c1 = 120) then
      underscoreOK.scan (lower c1 = 120) t '0'
    else underscoreOK.scan false s1 '^'
  | _ => underscoreOK.scan false s1 '^'

/-- The function `strconv.ParseUint(s, 0, 64)`: the value and the error. -/
def ParseUint (s : String) : Nat × Option NumError :=
  match s.data with
  | [] => (0, some .ErrSyntax)
  | c0 :: rest =>
    let bd : Nat × List Char :=
      if c0 = '0' then
        match rest with
        | c1 :: _ :: _ =>
          if lower c1 = 98 then (2, rest.tail)
          else if lower c1 = 111 then (8, rest.tail)
          else if lower c1 = 120 then (16, rest.tail)
          else (8, rest)
        | _ => (8, rest)
      else (10, c0 :: rest)
    match ParseUint.loop bd.1 bd.2 0 false with
    | .error e => (e.1, some e.2)
    | .ok (n, underscores) =>
      if underscores && !underscoreOK s.data then (0, some .ErrSyntax) else (n, none)

/-- Conversion of an integer to `int64`, keeping the low 64 bits. -/
def toInt64 (z : Int) : Int := (z + 2 ^ 63) % 2 ^ 64 - 2 ^ 63

/-- The function `strconv.ParseInt(s, 0, 64)`: the value and the error. -/
def ParseInt (s : String) : Int × Option NumError :=
  match s.data with
  | [] => (0, some .ErrSyntax)
  | c0 :: rest =>
    let neg : Bool := c0 = '-'
    let body := if c0 = '+' ∨ c0 = '-' then rest else c0 :: rest
    let r := ParseUint (String.mk body)
    if r.2 = some .ErrSyntax then (0, r.2)
    else if !neg ∧ r.1 ≥ 2 ^ 63 then (2 ^ 63 - 1, some .ErrRange)
    else if neg ∧ r.1 > 2 ^ 63 then (-(2 ^ 63), some .ErrRange)
    else
      let n := toInt64 r.1
      (if neg then toInt64 (-n) else n, none)

end strconv

/-! ## The constants of package `compiler/bytecode` -/

namespace bytecode

/-- Modelled from the spec: the reserved program marker `bytecode.Program`,
declared outside this file; the spec's sample input spells the program section
`<Program>`. -/
def Program : String := "Program"

/-- Modelled from the spec: the label kind `bytecode.Block`, declared outside
this file. -/
def Block : String := "Block"

/-- Modelled from the spec: the label kind `bytecode.LabelDef` of a method
definition, declared outside this file; the spec writes its sections
`<Def:foo>`. -/
def LabelDef : String := "Def"

/-- Modelled from the spec: the label kind `bytecode.LabelDefClass` of a class
definition, declared outside this file. -/
def LabelDefClass : String := "DefClass"

/-- Modelled from the spec: the name `bytecode.PutString` of the string-literal
operation, declared outside this file. -/
def PutString : String := "putstring"

/-- Modelled from the spec: the name `bytecode.BranchUnless`, declared outside
this file. -/
def BranchUnless : String := "branchunless"

/-- Modelled from the spec: the name `bytecode.BranchIf`, declared outside this
file. -/
def BranchIf : String := "branchif"

/-- Modelled from the spec: the name `bytecode.Jump`, declared outside this
file. -/
def Jump : String := "jump"

/-- Modelled from the spec: the structured instruction record
`bytecode.Instruction`, declared outside this file.  It exposes the operation
name, the raw operand strings, the line number returned by `Line()` and, for a
jump, the result of `AnchorLine()`: the anchor line, or the error text. -/
structure Instruction where
  Action : String
  Params : List String
  line : Int
  anchorLine : Except String Int

/-- Modelled from the spec: the structured record `bytecode.InstructionSet`,
declared outside this file: the label token returned by `LabelName()` and the
instruction records. -/
structure InstructionSet where
  labelName : String
  Instructions : List Instruction

end bytecode

/-! ## Data model -/

/-- Reference to an allocated instruction set. -/
abbrev Ptr := Nat

/-- Modelled from the spec: an entry of the action table `builtInActions`,
declared outside this file.  The handle is identified by the name it was
registered under. -/
structure action where
  name : String
  deriving DecidableEq, Repr

/-- A resolved parameter, an `interface{}` holding an `int` or a `string`. -/
inductive Param where
  | int (i : Int)
  | str (s : String)
  deriving DecidableEq, Repr

/-- Modelled from the spec: a decoded instruction, declared outside this file:
source line, action handle (`none` is the nil handle) and parameters. -/
structure instruction where
  Line : Int
  action : Option action
  Params : List Param
  deriving DecidableEq, Repr

/-- The struct `label`; its Go field `Type` is spelled `type` here. -/
structure label where
  name : String
  type : String
  deriving DecidableEq, Repr

/-- Modelled from the spec: the struct `instructionSet`, declared outside this
file: file name, optional label and the instructions in order. -/
structure instructionSet where
  filename : String
  label : Option label
  instructions : List instruction
  deriving DecidableEq, Repr

/-- The struct `bytecodeParser` with the store of the instruction sets it has
allocated.  The fields `line` and `vm` are never read or written by the
decoder and are left out. -/
structure bytecodeParser where
  labelTable : String → Option (String → List Ptr)
  filename : String
  blockTable : String → Option Ptr
  program : Option Ptr
  heap : List instructionSet

/-- The expression `&instructionSet{filename: p.filename}`: a new instruction
set at the next free address. -/
def bytecodeParser.alloc (p : bytecodeParser) : Ptr × bytecodeParser :=
  (p.heap.length,
    { p with heap := p.heap ++ [{ filename := p.filename, label := none, instructions := [] }] })

/-- The entry `p.labelTable[lt][ln]` as Go reads it: a missing key at either
level gives the nil slice. -/
def bytecodeParser.labelEntry (p : bytecodeParser) (lt ln : String) : List Ptr :=
  match p.labelTable lt with
  | none => []
  | some m => m ln

/-- Modelled from the spec: the method `is.define(line, action, params...)`,
declared outside this file, which appends one instruction to the sequence. -/
def define (p : bytecodeParser) (is : Ptr) (line : Int) (a : Option action)
    (params : List Param) : Outcome Unit × bytecodeParser :=
  let i : instruction := { Line := line, action := a, Params := params }
  (.returned (),
    { p with heap := modifyAt (fun s => { s with instructions := s.instructions ++ [i] }) p.heap is })

/-! ## The decoder -/

/-- The method `setLabel`. -/
def setLabel (p : bytecodeParser) (is : Ptr) (name : String) : Outcome Unit × bytecodeParser :=
  if name = bytecode.Program then
    (.returned (), { p with program := some is })
  else
    match strings.Split name ':' with
    | lt :: ln :: _ =>
      let l : label := { name := name, type := lt }
      let p1 := { p with heap := modifyAt (fun s => { s with label := some l }) p.heap is }
      if lt = bytecode.Block then
        (.returned (), { p1 with blockTable := mapSet p1.blockTable ln (some is) })
      else
        match p1.labelTable lt with
        | none => (.panicked .nilMapAssignment, p1)
        | some m =>
          (.returned (),
            { p1 with labelTable := mapSet p1.labelTable lt (some (mapSet m ln (m ln ++ [is]))) })
    | _ => (.panicked .indexOutOfRange, p)

/-- The function `newBytecodeParser`. -/
def newBytecodeParser (file : String) : bytecodeParser :=
  { labelTable := mapSet (mapSet (fun _ => none) bytecode.LabelDef (some fun _ => []))
      bytecode.LabelDefClass (some fun _ => [])
    filename := file
    blockTable := fun _ => none
    program := none
    heap := [] }

/-- The method `parseParam`. -/
def parseParam (param : String) : Param :=
  let r := strconv.ParseInt param
  if r.2 ≠ none then .str param else .int r.1

/-- The method `convertInstruction`; `builtInActions` is the action table. -/
def convertInstruction (builtInActions : String → Option action) (p : bytecodeParser)
    (is : Ptr) (i : bytecode.Instruction) : Outcome Unit × bytecodeParser :=
  let act := i.Action
  let action := builtInActions act
  if action = none then
    (.panicked (.unknownCommand act i.line), p)
  else if act = bytecode.PutString then
    match i.Params with
    | [] => (.panicked .indexOutOfRange, p)
    | param0 :: _ =>
      match strings.Split param0 '"' with
      | _ :: text :: _ => define p is i.line action [.str text]
      | _ => (.panicked .indexOutOfRange, p)
  else if act = bytecode.BranchUnless ∨ act = bytecode.BranchIf ∨ act = bytecode.Jump then
    match i.anchorLine with
    | .error err => (.panicked (.message err), p)
    | .ok line => define p is i.line action [.int line]
  else
    define p is i.line action (i.Params.map parseParam)

/-- The method `parseInstructionSet`.  The slice `iss` is received by value, so
the final `iss = append(iss, is)` changes only the local copy. -/
def parseInstructionSet (builtInActions : String → Option action) (p : bytecodeParser)
    (iss : List Ptr) (set : bytecode.InstructionSet) : Outcome Unit × bytecodeParser :=
  let a := p.alloc
  match setLabel a.2 a.1 set.labelName with
  | (.panicked v, p1) => (.panicked v, p1)
  | (.returned _, p1) =>
    match forRange (fun q i => convertInstruction builtInActions q a.1 i) p1 set.Instructions with
    | (.panicked v, p2) => (.panicked v, p2)
    | (.returned _, p2) =>
      let _iss := iss ++ [a.1]
      (.returned (), p2)

/-- The method `parseInstructionSets`: it returns its own slice `iss`. -/
def parseInstructionSets (builtInActions : String → Option action) (p : bytecodeParser)
    (sets : List bytecode.InstructionSet) : Outcome (List Ptr) × bytecodeParser :=
  let iss : List Ptr := []
  match forRange (fun q set => parseInstructionSet builtInActions q iss set) p sets with
  | (.panicked v, p1) => (.panicked v, p1)
  | (.returned _, p1) => (.returned iss, p1)

/-- The method `parseInstruction`. -/
def parseInstruction (builtInActions : String → Option action) (p : bytecodeParser)
    (is : Ptr) (line : String) : Outcome Unit × bytecodeParser :=
  let tokens := strings.Split line ' '
  match tokens with
  | lineNum :: act :: rawParams =>
    let ln := (strconv.ParseInt lineNum).1
    let action := builtInActions act
    if act = bytecode.PutString then
      match strings.Split line '"' with
      | _ :: text :: _ => define p is ln action [.str text]
      | _ => (.panicked .indexOutOfRange, p)
    else if tokens.length > 2 then
      define p is ln action (rawParams.map parseParam)
    else if action = none then
      (.panicked (.unknownCommand act ln), p)
    else
      define p is ln action []
  | _ => (.panicked .indexOutOfRange, p)

/-- The method `parseBytecodeLabel`. -/
def parseBytecodeLabel (p : bytecodeParser) (is : Ptr) (line : String) :
    Outcome Unit × bytecodeParser :=
  setLabel p is (strings.Trim (strings.Trim line '<') '>')

/-- The loop of `parseBytecodeSection` over `bytecodesByLine[1:]`, for the
sequence `is` of the current section.  On a line whose trimmed text starts
with `<` the source calls `parseBytecodeSection(iss, bytecodesByLine[count:])`
and breaks; that call allocates the next sequence, reads its label from the
marker line and runs this loop on the lines after it, which is what is written
here so that the recursion goes down the list of lines. -/
def parseBytecodeSection.loop (builtInActions : String → Option action) :
    bytecodeParser → Ptr → List String → Outcome Unit × bytecodeParser
  | p, _, [] => (.returned (), p)
  | p, is, text :: more =>
    let l := strings.TrimSpace text
    if strings.HasPrefix l "<" then
      let a := p.alloc
      match parseBytecodeLabel a.2 a.1 text with
      | (.panicked v, p1) => (.panicked v, p1)
      | (.returned _, p1) => parseBytecodeSection.loop builtInActions p1 a.1 more
    else
      match parseInstruction builtInActions p is l with
      | (.panicked v, p1) => (.panicked v, p1)
      | (.returned _, p1) => parseBytecodeSection.loop builtInActions p1 is more

/-- The method `parseBytecodeSection`.  The slice `iss` is received by value,
so the final `iss = append(iss, is)` changes only the local copy. -/
def parseBytecodeSection (builtInActions : String → Option action) (p : bytecodeParser)
    (iss : List Ptr) (bytecodesByLine : List String) : Outcome Unit × bytecodeParser :=
  let a := p.alloc
  match bytecodesByLine with
  | [] => (.panicked .indexOutOfRange, a.2)
  | first :: rest =>
    match parseBytecodeLabel a.2 a.1 first with
    | (.panicked v, p1) => (.panicked v, p1)
    | (.returned _, p1) =>
      match parseBytecodeSection.loop builtInActions p1 a.1 rest with
      | (.panicked v, p2) => (.panicked v, p2)
      | (.returned _, p2) =>
        let _iss := iss ++ [a.1]
        (.returned (), p2)

/-- The method `parseBytecode`.  The type `errorMessage` is declared outside
this file; `isErrorMessage v` says whether the type switch of the deferred
function selects `case errorMessage` for the panic value `v`.  A recovered
panic makes the method return the zero value of its result, the nil slice
`none`; a normal return gives its own slice `iss`. -/
def parseBytecode (builtInActions : String → Option action) (isErrorMessage : PanicValue → Bool)
    (p : bytecodeParser) (bytecodes : String) : Outcome (Option (List Ptr)) × bytecodeParser :=
  let iss : List Ptr := []
  let bytecodesByLine := strings.Split (strings.TrimSpace bytecodes) '\n'
  match parseBytecodeSection builtInActions p iss bytecodesByLine with
  | (.panicked v, p1) => if isErrorMessage v then (.returned none, p1) else (.panicked v, p1)
  | (.returned _, p1) => (.returned (some iss), p1)

/-! ## Sample action table for the concrete runs -/

/-- Modelled from the spec: an instance of the action table, declared outside
this file, holding the operations the spec names: the string-literal
operation, `leave` and the three control transfers. -/
def sampleActions (op : String) : Option action :=
  if op = "putstring" ∨ op = "leave" ∨ op = "branchif" ∨ op = "branchunless" ∨ op = "jump" then
    some ⟨op⟩
  else none

/-! ## Reading the input as sections -/

/-- The line list `parseBytecode` hands to `parseBytecodeSection`. -/
def inputLines (bytecodes : String) : List String :=
  strings.Split (strings.TrimSpace bytecodes) '\n'

/-- A line is a section marker when its whitespace-trimmed text starts with
`<`. -/
def isMarker (text : String) : Bool :=
  strings.HasPrefix (strings.TrimSpace text) "<"

/-- The label token `parseBytecodeLabel` reads from a marker line. -/
def labelToken (line : String) : String :=
  strings.Trim (strings.Trim line '<') '>'

/-- The lines before the first marker, and the sections the later markers open:
each marker line with the lines up to the next marker. -/
def laterSections : List String → List String × List (String × List String)
  | [] => ([], [])
  | text :: more =>
    let r := laterSections more
    if isMarker text then ([], (text, r.1) :: r.2) else (text :: r.1, r.2)

/-- The sections of a line list: the first line, and every later marker line,
each with the lines strictly between it and the next marker. -/
def sections : List String → List (String × List String)
  | [] => []
  | first :: rest => (first, (laterSections rest).1) :: (laterSections rest).2

/-- The instruction `parseInstruction` appends for a line, when it does not
panic. -/
def instructionOfLine (builtInActions : String → Option action) (line : String) :
    Option instruction :=
  match strings.Split line ' ' with
  | lineNum :: act :: rawParams =>
    let ln := (strconv.ParseInt lineNum).1
    if act = bytecode.PutString then
      match strings.Split line '"' with
      | _ :: text :: _ => some ⟨ln, builtInActions act, [.str text]⟩
      | _ => none
    else if (lineNum :: act :: rawParams).length > 2 then
      some ⟨ln, builtInActions act, rawParams.map parseParam⟩
    else if builtInActions act = none then none
    else some ⟨ln, builtInActions act, []⟩
  | _ => none

/-- The kind and name a label token is filed under: the first two fields of
the token split at `:`, for a token that is not the program marker. -/
def labelKey (name : String) : Option (String × String) :=
  if name = bytecode.Program then none
  else
    match strings.Split name ':' with
    | lt :: ln :: _ => some (lt, ln)
    | _ => none

/-- The label `setLabel` stores in a sequence registered under a token. -/
def labelOf (name : String) : Option label :=
  (labelKey name).map fun k => { name := name, type := k.1 }

/-- The references of the sections whose label token satisfies `P`, in the
order of the sections, when the first section has reference `base` and each
later one the next address. -/
def sectionPtrs (P : String → Bool) (base : Nat) (secs : List (String × List String)) :
    List Ptr :=
  ((secs.enumFrom base).filter fun e => P (labelToken e.2.1)).map Prod.fst

/-- What the decoder reads off a stored sequence: file name, label and the
instructions. -/
def view (s : instructionSet) : String × Option label × List (Option instruction) :=
  (s.filename, s.label, s.instructions.map some)

/-- The sequence a section is decoded to. -/
def sectionView (builtInActions : String → Option action) (file : String)
    (sec : String × List String) : String × Option label × List (Option instruction) :=
  (file, labelOf (labelToken sec.1),
    sec.2.map fun l => instructionOfLine builtInActions (strings.TrimSpace l))

/-- The operands of a structured record are well formed for its operation: the
string-literal operation has a first operand with a text between two double
quotes, and a control transfer has an anchor that resolves. -/
def operandsWellFormed (i : bytecode.Instruction) : Bool :=
  if i.Action = bytecode.PutString then
    match i.Params with
    | [] => false
    | param0 :: _ => 2 ≤ (strings.Split param0 '"').length
  else if i.Action = bytecode.BranchUnless ∨ i.Action = bytecode.BranchIf ∨
      i.Action = bytecode.Jump then
    match i.anchorLine with
    | .ok _ => true
    | .error _ => false
  else true

/-- A decimal integer literal of Go written without underscores: `0`, or a
digit from 1 to 9 followed by decimal digits. -/
def isDecimalLiteral (k : String) : Bool :=
  match k.data with
  | [] => false
  | c :: cs =>
    (if cs = [] then 48 ≤ c.toNat else 49 ≤ c.toNat) && c.toNat ≤ 57 &&
      cs.all fun d => 48 ≤ d.toNat && d.toNat ≤ 57

/-- The number a string of decimal digits denotes. -/
def decimalValue (k : String) : Nat :=
  k.data.foldl (fun a c => 10 * a + (c.toNat - 48)) 0

/-! ## Integer literals in base-flexible notation -/

/-- The value of a digit character in a base: `0` to `9` below the base, and in
base 16 also `a` to `f` in either case. -/
def literalDigit (base : Nat) (c : Char) : Option Nat :=
  if 48 ≤ c.toNat ∧ c.toNat ≤ 57 then
    if c.toNat - 48 < base then some (c.toNat - 48) else none
  else if base = 16 ∧ 97 ≤ c.toNat ∧ c.toNat ≤ 102 then some (c.toNat - 87)
  else if base = 16 ∧ 65 ≤ c.toNat ∧ c.toNat ≤ 70 then some (c.toNat - 55)
  else none

/-- The number the digits of a literal denote in a base, starting from `n`; the
separator `_` adds nothing.  None when a character is no digit of the base. -/
def digitsValue (base : Nat) : List Char → Nat → Option Nat
  | [], n => some n
  | c :: cs, n =>
    if c = '_' then digitsValue base cs n
    else
      match literalDigit base c with
      | none => none
      | some d => digitsValue base cs (n * base + d)

/-- The base of an unsigned literal, whether a base marker or a leading zero
comes before its digits, and the digits: `0x`, `0o`, `0b` (the letter in either
case) mark hexadecimal, octal and binary and need at least one character after
them, any other leading `0` marks octal, and everything else is decimal. -/
def literalParts (body : List Char) : Option (Nat × Bool × List Char) :=
  match body with
  | [] => none
  | c0 :: rest =>
    if c0 = '0' then
      match rest with
      | [] => some (8, true, [])
      | c1 :: r =>
        if c1 = 'x' ∨ c1 = 'X' then (if r = [] then none else some (16, true, r))
        else if c1 = 'o' ∨ c1 = 'O' then (if r = [] then none else some (8, true, r))
        else if c1 = 'b' ∨ c1 = 'B' then (if r = [] then none else some (2, true, r))
        else some (8, true, rest)
    else some (10, false, body)

/-- The digits are well grouped: without separators (`sep` false) there is no
`_` at all; with separators every `_` stands between two digits or between the
base marker (or leading zero) and a digit.  A literal without marker or leading
zero starts with a digit. -/
def groupsOk (sep lead : Bool) (ds : List Char) : Bool :=
  (lead || !(strings.fields '_' ds).1.isEmpty) &&
    (if sep then (strings.fields '_' ds).2.all (fun g => !g.isEmpty)
     else (strings.fields '_' ds).2.isEmpty)

/-- The number an unsigned integer literal denotes, if the text is one. -/
def unsignedLiteral (sep : Bool) (body : List Char) : Option Nat :=
  match literalParts body with
  | none => none
  | some (base, lead, ds) => if groupsOk sep lead ds then digitsValue base ds 0 else none

/-- The integer a token denotes when it is an integer literal in base-flexible
notation whose value fits a signed 64-bit integer: an optional sign, then a
decimal, `0x` hexadecimal, `0o` or leading-zero octal, or `0b` binary literal.
With `sep` the digits may be separated by single underscores as in Go source
text; without it the notation is the one the spec words spell out. -/
def integerLiteral (sep : Bool) (s : String) : Option Int :=
  let neg : Bool := s.data.head? = some '-'
  let body := if s.data.head? = some '-' ∨ s.data.head? = some '+' then s.data.tail else s.data
  match unsignedLiteral sep body with
  | none => none
  | some v =>
    if neg then (if v ≤ 2 ^ 63 then some (-(v : Int)) else none)
    else if v < 2 ^ 63 then some (v : Int) else none

/-- The kind of a label token: the text before its first `:`. -/
def kindOf (name : String) : String :=
  String.mk (strings.fields ':' name.data).1

/-! ## The recursion of `parseBytecodeSection` as the source writes it -/

/-- The `for` loop of `parseBytecodeSection` as the source writes it, over the
lines left of `bytecodesByLine[1:]`: `count` is the counter before its
increment, `bytecodesByLine` the whole list the method received and `recur`
the recursive call of the method.  On a marker line the loop calls `recur` on
`bytecodesByLine[count:]` and breaks. -/
def sectionLoop (builtInActions : String → Option action)
    (recur : bytecodeParser → List String → Option (Outcome Unit × bytecodeParser))
    (bytecodesByLine : List String) (is : Ptr) :
    bytecodeParser → Nat → List String → Option (Outcome Unit × bytecodeParser)
  | p, _, [] => some (.returned (), p)
  | p, count, text :: more =>
    let l := strings.TrimSpace text
    if strings.HasPrefix l "<" then
      match recur p (bytecodesByLine.drop (count + 1)) with
      | none => none
      | some (.panicked v, p1) => some (.panicked v, p1)
      | some (.returned _, p1) => some (.returned (), p1)
    else
      match parseInstruction builtInActions p is l with
      | (.panicked v, p1) => some (.panicked v, p1)
      | (.returned _, p1) => sectionLoop builtInActions recur bytecodesByLine is p1 (count + 1) more

/-- The method `parseBytecodeSection` with its recursive call written as in
the source, run with a bound on the depth of the recursion; `none` means that
the bound was reached before the method ended. -/
def parseBytecodeSectionFuel (builtInActions : String → Option action) :
    Nat → bytecodeParser → List Ptr → List String → Option (Outcome Unit × bytecodeParser)
  | 0, _, _, _ => none
  | fuel + 1, p, iss, bytecodesByLine =>
    let a := p.alloc
    match bytecodesByLine with
    | [] => some (.panicked .indexOutOfRange, a.2)
    | first :: rest =>
      match parseBytecodeLabel a.2 a.1 first with
      | (.panicked v, p1) => some (.panicked v, p1)
      | (.returned _, p1) =>
        match sectionLoop builtInActions
            (fun q ls => parseBytecodeSectionFuel builtInActions fuel q iss ls)
            bytecodesByLine a.1 p1 0 rest with
        | none => none
        | some (.panicked v, p2) => some (.panicked v, p2)
        | some (.returned _, p2) =>
          let _iss := iss ++ [a.1]
          some (.returned (), p2)

/-! ## Lines built from tokens -/

/-- The texts of a list joined by one separator character between
neighbours. -/
def joinWith (sep : Char) : List String → String
  | [] => ""
  | [t] => t
  | t :: u :: ts => t ++ String.mk [sep] ++ joinWith sep (u :: ts)

/-! ## Well-formed textual input -/

/-- A line has no whitespace at its start and none at its end. -/
def noOuterSpace (l : String) : Bool :=
  (match l.data.head? with
    | some c => !strings.isSpace c
    | none => true) &&
  (match l.data.getLast? with
    | some c => !strings.isSpace c
    | none => true)

/-- A well-formed marker line: the bracketed program marker, or `<kind:name>`
with one of the kinds `Def`, `DefClass` and `Block`. -/
def wellFormedMarker (l : String) : Prop :=
  l = "<" ++ bytecode.Program ++ ">" ∨
  ∃ kind name : String,
    (kind = bytecode.LabelDef ∨ kind = bytecode.LabelDefClass ∨ kind = bytecode.Block) ∧
    l = "<" ++ kind ++ ":" ++ name ++ ">"

/-- A well-formed instruction line: at least two space-separated tokens, an
operation of the action table, and a double quote when the operation is the
string-literal operation. -/
def wellFormedInstruction (builtInActions : String → Option action) (l : String) : Prop :=
  ∃ lineNum act rest, strings.Split l ' ' = lineNum :: act :: rest ∧
    builtInActions act ≠ none ∧ (act = bytecode.PutString → '"' ∈ l.data)

/-! ## Marker lines written as `<label>` -/

/-- The label a marker line spells out, following the spec's words: the text
between the opening `<` and the closing `>` of a line written `<label>`, with
nothing before the `<`, nothing after the `>` and no angle bracket inside the
label; `none` for every other line. -/
def markerLabel (line : String) : Option String :=
  match line.data with
  | [] => none
  | c :: rest =>
    if c = '<' ∧ rest.getLast? = some '>' ∧ '<' ∉ rest.dropLast ∧ '>' ∉ rest.dropLast then
      some (String.mk rest.dropLast)
    else none

/-- The references of the sections whose marker line spells out a label
satisfying `P`, in the order of the sections, when the first section has
reference `base` and each later one the next address. -/
def labelledPtrs (P : String → Bool) (base : Nat) (secs : List (String × List String)) :
    List Ptr :=
  ((secs.enumFrom base).filter fun e =>
    match markerLabel e.2.1 with
    | some tok => P tok
    | none => false).map Prod.fst

/-- The sequence a section is decoded to, with the label its marker line spells
out. -/
def markerView (builtInActions : String → Option action) (file : String)
    (sec : String × List String) : String × Option label × List (Option instruction) :=
  (file, (markerLabel sec.1).bind labelOf,
    sec.2.map fun l => instructionOfLine builtInActions (strings.TrimSpace l))

/-! ## Sequences and their label tokens -/

/-- The decoder state agrees with the label tokens `toks` of the sequences it
has created, in the order of creation: every sequence carries the label of its
token, the label table and the block table hold only references filed under
the kind and name of the token of the sequence, and every token is the program
marker or has a kind and a name. -/
def Registered (p : bytecodeParser) (toks : List String) : Prop :=
  p.heap.map (fun s => s.label) = toks.map labelOf ∧
  (∀ k n i, i ∈ p.labelEntry k n →
    k ≠ bytecode.Block ∧ ∃ t, toks[i]? = some t ∧ labelKey t = some (k, n)) ∧
  (∀ n i, p.blockTable n = some i → ∃ t, toks[i]? = some t ∧ labelKey t = some (bytecode.Block, n)) ∧
  (∀ t ∈ toks, t = bytecode.Program ∨ labelKey t ≠ none)

/-- The labels a decoder state carries, read against the label tokens
`toks` of the sequences in the order of their creation: every reference in the
label table is a sequence whose label has the name of its token and the kind
it is filed under, which is the kind of the token; every reference in the
block table is a sequence whose label has the block kind; and a sequence has
no label exactly when its token is the program marker. -/
def Labelled (p : bytecodeParser) (toks : List String) : Prop :=
  (∀ k n i, i ∈ p.labelEntry k n → ∃ s t, p.heap[i]? = some s ∧ toks[i]? = some t ∧
    s.label = some { name := t, type := k } ∧ labelKey t = some (k, n)) ∧
  (∀ n i, p.blockTable n = some i → ∃ s t, p.heap[i]? = some s ∧ toks[i]? = some t ∧
    s.label = some { name := t, type := bytecode.Block } ∧
    labelKey t = some (bytecode.Block, n)) ∧
  (∀ (i : Nat) s, p.heap[i]? = some s → (s.label = none ↔ toks[i]? = some bytecode.Program))

/-! ## Parts of `strconv` named for the proofs -/

/-- The test `scan` of `underscoreOK` makes for a digit. -/
def scanDigit (hex : Bool) (c : Char) : Bool :=
  (48 ≤ c.toNat && c.toNat ≤ 57) || (hex && 97 ≤ strconv.lower c && strconv.lower c ≤ 102)

/-- The part of `ParseUint` that follows the choice of the base: the digit loop
and the check of the underscores. -/
def parseUintTail (body : List Char) (base : Nat) (ds : List Char) :
    Nat × Option strconv.NumError :=
  match strconv.ParseUint.loop base ds 0 false with
  | .error e => (e.1, some e.2)
  | .ok (n, underscores) =>
    if underscores && !strconv.underscoreOK body then (0, some .ErrSyntax) else (n, none)

/-- The part of `ParseInt` that follows the call of `ParseUint`: the range
check and the sign. -/
def parseIntPost (neg : Bool) (r : Nat × Option strconv.NumError) :
    Int × Option strconv.NumError :=
  if r.2 = some .ErrSyntax then (0, r.2)
  else if !neg ∧ r.1 ≥ 2 ^ 63 then (2 ^ 63 - 1, some .ErrRange)
  else if neg ∧ r.1 > 2 ^ 63 then (-(2 ^ 63), some .ErrRange)
  else (if neg then strconv.toInt64 (-(strconv.toInt64 r.1)) else strconv.toInt64 r.1, none)

/-- The digit the loop of `ParseUint` accepts for a character in a base: the
value `digit` gives it, unless that is not below the base. -/
def loopDigit (base : Nat) (c : Char) : Option Nat :=
  match strconv.digit c with
  | none => none
  | some d => if d ≥ base then none else some d

/-! ## Lemmas on the store -/

theorem length_modifyAt {α : Type} (f : α → α) (l : List α) (i : Nat) :
    (modifyAt f l i).length = l.length := by
  induction l generalizing i with
  | nil => rfl
  | cons x xs ih => cases i <;> simp [modifyAt, ih]

theorem modifyAt_append_length {α : Type} (f : α → α) (l : List α) (x : α) :
    modifyAt f (l ++ [x]) l.length = l ++ [f x] := by
  induction l with
  | nil => rfl
  | cons y ys ih => simp [modifyAt, ih]

theorem map_modifyAt {α β : Type} (g : α → β) (f : α → α) (h : β → β)
    (hc : ∀ x, g (f x) = h (g x)) (l : List α) (i : Nat) :
    (modifyAt f l i).map g = modifyAt h (l.map g) i := by
  induction l generalizing i with
  | nil => rfl
  | cons x xs ih => cases i <;> simp [modifyAt, ih, hc]

theorem modifyAt_modifyAt {α : Type} (f g : α → α) (l : List α) (i : Nat) :
    modifyAt f (modifyAt g l i) i = modifyAt (fun x => f (g x)) l i := by
  induction l generalizing i with
  | nil => rfl
  | cons x xs ih => cases i <;> simp [modifyAt, ih]

theorem modifyAt_eq_self {α : Type} (f : α → α) (hf : ∀ x, f x = x) (l : List α) (i : Nat) :
    modifyAt f l i = l := by
  induction l generalizing i with
  | nil => rfl
  | cons x xs ih => cases i <;> simp [modifyAt, ih, hf]

theorem modifyAt_congr {α : Type} (f g : α → α) (hfg : ∀ x, f x = g x) (l : List α) (i : Nat) :
    modifyAt f l i = modifyAt g l i := by
  induction l generalizing i with
  | nil => rfl
  | cons x xs ih => cases i <;> simp [modifyAt, ih, hfg]

/-! ## Effect of one step of the decoder -/

/-- A returning `parseInstruction` appends the instruction of the line to the
sequence and leaves the rest of the state alone. -/
theorem parseInstruction_returned (T : String → Option action) (p p1 : bytecodeParser)
    (is : Ptr) (line : String) (u : Unit)
    (h : parseInstruction T p is line = (.returned u, p1)) :
    ∃ ins, instructionOfLine T line = some ins ∧ p1.labelTable = p.labelTable ∧
      p1.filename = p.filename ∧ p1.blockTable = p.blockTable ∧ p1.program = p.program ∧
      p1.heap = modifyAt (fun s => { s with instructions := s.instructions ++ [ins] }) p.heap is := by
  unfold parseInstruction at h
  unfold instructionOfLine
  rcases hs : strings.Split line ' ' with _ | ⟨lineNum, _ | ⟨act, rawParams⟩⟩
  · simp [hs] at h
  · simp [hs] at h
  · simp only [hs] at h ⊢
    by_cases hact : act = bytecode.PutString
    · simp only [hact, if_true] at h ⊢
      rcases hq : strings.Split line '"' with _ | ⟨q0, _ | ⟨text, qs⟩⟩
      · simp [hq] at h
      · simp [hq] at h
      · simp only [hq, define, Prod.mk.injEq] at h ⊢
        exact ⟨_, rfl, by simp [← h.2]⟩
    · simp only [hact, if_false] at h ⊢
      by_cases hlen : (lineNum :: act :: rawParams).length > 2
      · simp only [hlen, if_true, define, Prod.mk.injEq] at h ⊢
        exact ⟨_, rfl, by simp [← h.2]⟩
      · simp only [hlen, if_false] at h ⊢
        by_cases hnone : T act = none
        · simp [hnone] at h
        · simp only [hnone, if_false, define, Prod.mk.injEq] at h ⊢
          exact ⟨_, rfl, by simp [← h.2]⟩

/-- A returning `setLabel` sets the program root for the program marker and
otherwise stores the label in the sequence and files the sequence under the
kind and name of the token. -/
theorem setLabel_returned (p p1 : bytecodeParser) (is : Ptr) (name : String) (u : Unit)
    (h : setLabel p is name = (.returned u, p1)) :
    p1.filename = p.filename ∧
    p1.program = (if name = bytecode.Program then some is else p.program) ∧
    p1.heap = (match labelOf name with
      | none => p.heap
      | some l => modifyAt (fun s => { s with label := some l }) p.heap is) ∧
    (∀ k n, k ≠ bytecode.Block → p1.labelEntry k n =
      if labelKey name = some (k, n) then p.labelEntry k n ++ [is] else p.labelEntry k n) := by
  unfold setLabel at h
  by_cases hP : name = bytecode.Program
  · simp only [hP, if_true, Prod.mk.injEq] at h
    obtain ⟨-, rfl⟩ := h
    simp [hP, labelOf, labelKey, bytecodeParser.labelEntry]
  · simp only [hP, if_false] at h
    rcases hs : strings.Split name ':' with _ | ⟨lt, _ | ⟨ln, more⟩⟩
    · simp [hs] at h
    · simp [hs] at h
    · simp only [hs] at h
      have hk : labelKey name = some (lt, ln) := by simp [labelKey, hP, hs]
      by_cases hB : lt = bytecode.Block
      · simp only [hB, if_true, Prod.mk.injEq] at h
        obtain ⟨-, rfl⟩ := h
        refine ⟨rfl, by simp [hP], by simp [labelOf, hk, hB], ?_⟩
        intro k n hkB
        have : ¬ (bytecode.Block = k) := fun e => hkB e.symm
        simp [hk, hB, this, bytecodeParser.labelEntry]
      · simp only [hB, if_false] at h
        rcases hm : p.labelTable lt with _ | m
        · simp [hm] at h
        · simp only [hm, Prod.mk.injEq] at h
          obtain ⟨-, rfl⟩ := h
          refine ⟨rfl, by simp [hP], by simp [labelOf, hk], ?_⟩
          intro k n _
          simp only [hk, bytecodeParser.labelEntry, mapSet, Option.some.injEq, Prod.mk.injEq]
          by_cases h1 : k = lt
          · subst h1
            by_cases h2 : n = ln
            · subst h2
              simp [hm, mapSet]
            · have : ¬ (ln = n) := fun e => h2 e.symm
              simp [hm, h2, this, mapSet]
          · have : ¬ (lt = k) := fun e => h1 e.symm
            simp [h1, this]

/-! ## The recursive call of `parseBytecodeSection` -/

/-- On a marker line the loop does what the source writes there: it calls
`parseBytecodeSection` on the lines from the marker line on, a list one line
shorter than the one the caller received, and stops. -/
theorem loop_marker (T : String → Option action) (p : bytecodeParser) (is : Ptr)
    (iss : List Ptr) (text : String) (more : List String) (hm : isMarker text = true) :
    parseBytecodeSection.loop T p is (text :: more) =
      parseBytecodeSection T p iss (text :: more) := by
  have hm1 : strings.HasPrefix (strings.TrimSpace text) "<" = true := hm
  unfold parseBytecodeSection
  rw [parseBytecodeSection.loop]
  simp only [hm1, if_true]
  rcases parseBytecodeLabel p.alloc.2 p.alloc.1 text with ⟨_ | v, p1⟩
  · simp only
    rcases parseBytecodeSection.loop T p1 p.alloc.1 more with ⟨_ | w, p2⟩ <;> rfl
  · rfl

/-- On any other line the loop decodes the trimmed line into the current
sequence and goes on with the next line. -/
theorem loop_plain (T : String → Option action) (p : bytecodeParser) (is : Ptr)
    (text : String) (more : List String) (hm : isMarker text = false) :
    parseBytecodeSection.loop T p is (text :: more) =
      match parseInstruction T p is (strings.TrimSpace text) with
      | (.panicked v, p1) => (.panicked v, p1)
      | (.returned _, p1) => parseBytecodeSection.loop T p1 is more := by
  have hm1 : strings.HasPrefix (strings.TrimSpace text) "<" = false := hm
  rw [parseBytecodeSection.loop]
  simp [hm1]

/-! ## The section loop -/

/-- The last reference of a list, or a default when the list is empty. -/
theorem getLast?_cons_or (b : Ptr) (l : List Ptr) (d : Option Ptr) :
    ((b :: l).getLast?).or d = (l.getLast?).or (some b) := by
  cases l with
  | nil => rfl
  | cons c cs =>
    rw [List.getLast?_cons_cons, List.getLast?_eq_getLast _ (List.cons_ne_nil c cs)]
    rfl

theorem sectionPtrs_nil (P : String → Bool) (base : Nat) : sectionPtrs P base [] = [] := rfl

theorem sectionPtrs_cons (P : String → Bool) (base : Nat) (sec : String × List String)
    (secs : List (String × List String)) :
    sectionPtrs P base (sec :: secs) =
      if P (labelToken sec.1) then base :: sectionPtrs P (base + 1) secs
      else sectionPtrs P (base + 1) secs := by
  by_cases h : P (labelToken sec.1) <;> simp [sectionPtrs, List.enumFrom_cons, List.filter_cons, h]

/-- Allocating a sequence and registering its label adds one entry to the
store: the empty sequence with the label of the token. -/
theorem alloc_setLabel_view (p p1 : bytecodeParser) (name : String) (u : Unit)
    (h : setLabel p.alloc.2 p.alloc.1 name = (.returned u, p1)) :
    p1.heap.map view = p.heap.map view ++ [(p.filename, labelOf name, [])] := by
  obtain ⟨-, -, hheap, -⟩ := setLabel_returned _ _ _ _ _ h
  rw [hheap]
  cases hl : labelOf name with
  | none => simp [bytecodeParser.alloc, view]
  | some l =>
    simp only [bytecodeParser.alloc]
    rw [modifyAt_append_length]
    simp [view]

/-- The state a returning run of the section loop leaves: the lines before the
first marker are appended to the current sequence, every later section adds
one sequence, the label table gains the references of the sections filed
under each key and the program root is the last program section, if any. -/
theorem loop_returned (T : String → Option action) (rest : List String) :
    ∀ (p p1 : bytecodeParser) (is : Ptr) (u : Unit),
      parseBytecodeSection.loop T p is rest = (.returned u, p1) →
      p1.filename = p.filename ∧
      p1.heap.map view =
        modifyAt (fun v => (v.1, v.2.1, v.2.2 ++
            (laterSections rest).1.map fun l => instructionOfLine T (strings.TrimSpace l)))
          (p.heap.map view) is ++ (laterSections rest).2.map (sectionView T p.filename) ∧
      p1.program = ((sectionPtrs (fun t => t = bytecode.Program) p.heap.length
        (laterSections rest).2).getLast?).or p.program ∧
      ∀ k n, k ≠ bytecode.Block → p1.labelEntry k n = p.labelEntry k n ++
        sectionPtrs (fun t => labelKey t = some (k, n)) p.heap.length (laterSections rest).2 := by
  induction rest with
  | nil =>
    intro p p1 is u h
    simp only [parseBytecodeSection.loop, Prod.mk.injEq] at h
    obtain ⟨-, rfl⟩ := h
    refine ⟨rfl, ?_, by simp [laterSections, sectionPtrs_nil], ?_⟩
    · simp only [laterSections, List.map_nil, List.append_nil]
      exact (modifyAt_eq_self _ (fun _ => rfl) _ _).symm
    · intro k n _
      simp [laterSections, sectionPtrs_nil]
  | cons text more ih =>
    intro p p1 is u h
    unfold parseBytecodeSection.loop at h
    by_cases hm : isMarker text = true
    · have hm1 : strings.HasPrefix (strings.TrimSpace text) "<" = true := hm
      simp only [hm1, if_true] at h
      rcases hl : parseBytecodeLabel p.alloc.2 p.alloc.1 text with ⟨_ | v, p2⟩
      · simp only [hl] at h
        have hl1 : setLabel p.alloc.2 p.alloc.1 (labelToken text) = (.returned (), p2) := hl
        obtain ⟨hf, hprog, -, hlab⟩ := setLabel_returned _ _ _ _ _ hl1
        have hview := alloc_setLabel_view _ _ _ _ hl1
        obtain ⟨ihf, ihheap, ihprog, ihlab⟩ := ih _ _ _ _ h
        have hlen : p2.heap.length = p.heap.length + 1 := by
          have := congrArg List.length hview
          simpa using this
        have hls : laterSections (text :: more) =
            ([], (text, (laterSections more).1) :: (laterSections more).2) := by
          simp [laterSections, hm]
        refine ⟨ihf.trans hf, ?_, ?_, ?_⟩
        · rw [ihheap, hview, hls]
          have h1 := modifyAt_append_length
            (fun v : String × Option label × List (Option instruction) => (v.1, v.2.1, v.2.2 ++
              (laterSections more).1.map fun l => instructionOfLine T (strings.TrimSpace l)))
            (p.heap.map view) (p.filename, labelOf (labelToken text), [])
          rw [List.length_map] at h1
          simp only [bytecodeParser.alloc] at h1 ⊢
          rw [h1, modifyAt_eq_self _ (fun _ => by simp)]
          simp [sectionView, hf, bytecodeParser.alloc]
        · rw [ihprog, hprog, hls, hlen, sectionPtrs_cons]
          by_cases hP : labelToken text = bytecode.Program
          · simp only [hP, decide_True, if_true]
            rw [getLast?_cons_or]
            simp [bytecodeParser.alloc]
          · simp [hP, bytecodeParser.alloc]
        · intro k n hk
          rw [ihlab k n hk, hlab k n hk, hls, hlen, sectionPtrs_cons]
          by_cases hK : labelKey (labelToken text) = some (k, n)
          · simp [hK, bytecodeParser.alloc, bytecodeParser.labelEntry]
          · simp [hK, bytecodeParser.alloc, bytecodeParser.labelEntry]
      · simp [hl] at h
    · have hm1 : strings.HasPrefix (strings.TrimSpace text) "<" = false := by
        simpa [isMarker] using hm
      simp only [hm1] at h
      rcases hl : parseInstruction T p is (strings.TrimSpace text) with ⟨_ | v, p2⟩
      · simp only [hl] at h
        obtain ⟨ins, hins, hlt, hf, -, hprog, hheap⟩ := parseInstruction_returned _ _ _ _ _ _ hl
        obtain ⟨ihf, ihheap, ihprog, ihlab⟩ := ih _ _ _ _ h
        have hlen : p2.heap.length = p.heap.length := by rw [hheap, length_modifyAt]
        have hls : laterSections (text :: more) =
            (text :: (laterSections more).1, (laterSections more).2) := by
          simp [laterSections, hm]
        refine ⟨ihf.trans hf, ?_, ?_, ?_⟩
        · rw [ihheap, hheap, hls, hf]
          rw [map_modifyAt view _ (fun v => (v.1, v.2.1, v.2.2 ++ [some ins]))
            (fun x => by simp [view]), modifyAt_modifyAt]
          congr 1
          apply modifyAt_congr
          intro x
          simp [hins]
        · rw [ihprog, hprog, hls, hlen]
        · intro k n hk
          rw [ihlab k n hk, hls, hlen]
          simp [bytecodeParser.labelEntry, hlt]
      · simp [hl] at h

/-- The state a returning `parseBytecodeSection` leaves, in terms of the
sections of its line list. -/
theorem parseBytecodeSection_returned (T : String → Option action) (p p1 : bytecodeParser)
    (iss : List Ptr) (lines : List String) (u : Unit)
    (h : parseBytecodeSection T p iss lines = (.returned u, p1)) :
    p1.filename = p.filename ∧
    p1.heap.map view = p.heap.map view ++ (sections lines).map (sectionView T p.filename) ∧
    p1.program = ((sectionPtrs (fun t => t = bytecode.Program) p.heap.length
      (sections lines)).getLast?).or p.program ∧
    ∀ k n, k ≠ bytecode.Block → p1.labelEntry k n = p.labelEntry k n ++
      sectionPtrs (fun t => labelKey t = some (k, n)) p.heap.length (sections lines) := by
  unfold parseBytecodeSection at h
  cases lines with
  | nil => simp at h
  | cons first rest =>
    simp only at h
    rcases hl : parseBytecodeLabel p.alloc.2 p.alloc.1 first with ⟨_ | v, p2⟩
    · simp only [hl] at h
      rcases hr : parseBytecodeSection.loop T p2 p.alloc.1 rest with ⟨_ | v, p3⟩
      · simp only [hr, Prod.mk.injEq] at h
        obtain ⟨-, rfl⟩ := h
        have hl1 : setLabel p.alloc.2 p.alloc.1 (labelToken first) = (.returned (), p2) := hl
        obtain ⟨hf, hprog, -, hlab⟩ := setLabel_returned _ _ _ _ _ hl1
        have hview := alloc_setLabel_view _ _ _ _ hl1
        obtain ⟨ihf, ihheap, ihprog, ihlab⟩ := loop_returned T rest _ _ _ _ hr
        have hlen : p2.heap.length = p.heap.length + 1 := by
          have := congrArg List.length hview
          simpa using this
        refine ⟨ihf.trans hf, ?_, ?_, ?_⟩
        · rw [ihheap, hview]
          have h1 := modifyAt_append_length
            (fun v : String × Option label × List (Option instruction) => (v.1, v.2.1, v.2.2 ++
              (laterSections rest).1.map fun l => instructionOfLine T (strings.TrimSpace l)))
            (p.heap.map view) (p.filename, labelOf (labelToken first), [])
          rw [List.length_map] at h1
          simp only [bytecodeParser.alloc] at h1 ⊢
          rw [h1]
          simp [sections, sectionView, hf, bytecodeParser.alloc]
        · rw [ihprog, hprog, hlen]
          simp only [sections]
          rw [sectionPtrs_cons]
          by_cases hP : labelToken first = bytecode.Program
          · simp only [hP, decide_True, if_true]
            rw [getLast?_cons_or]
            simp [bytecodeParser.alloc]
          · simp [hP, bytecodeParser.alloc]
        · intro k n hk
          rw [ihlab k n hk, hlab k n hk, hlen]
          simp only [sections]
          rw [sectionPtrs_cons]
          by_cases hK : labelKey (labelToken first) = some (k, n)
          · simp [hK, bytecodeParser.alloc, bytecodeParser.labelEntry]
          · simp [hK, bytecodeParser.alloc, bytecodeParser.labelEntry]
      · simp [hr] at h
    · simp [hl] at h

/-- A normal return of `parseBytecode` is a normal return of
`parseBytecodeSection` on the lines of the input, and the slice returned is
the empty one `parseBytecode` created. -/
theorem parseBytecode_returned (T : String → Option action) (E : PanicValue → Bool)
    (p p1 : bytecodeParser) (input : String) (iss : List Ptr)
    (h : parseBytecode T E p input = (.returned (some iss), p1)) :
    iss = [] ∧ parseBytecodeSection T p [] (inputLines input) = (.returned (), p1) := by
  unfold parseBytecode at h
  simp only at h
  rcases hs : parseBytecodeSection T p [] (inputLines input) with ⟨_ | v, p2⟩
  · have hs1 : parseBytecodeSection T p []
        (strings.Split (strings.TrimSpace input) '\n') = (.returned (), p2) := hs
    simp only [hs1, Prod.mk.injEq, Outcome.returned.injEq, Option.some.injEq] at h
    exact ⟨h.1.symm, by rw [h.2]⟩
  · have hs1 : parseBytecodeSection T p []
        (strings.Split (strings.TrimSpace input) '\n') = (.panicked v, p2) := hs
    rw [hs1] at h
    by_cases hE : E v = true
    · simp [hE] at h
    · simp [hE] at h

/-- The label table of a new decoder has no entries. -/
theorem newBytecodeParser_labelEntry (file k n : String) :
    (newBytecodeParser file).labelEntry k n = [] := by
  unfold bytecodeParser.labelEntry newBytecodeParser mapSet
  simp only
  split_ifs <;> rfl

/-! ## The structured path: store size -/

theorem setLabel_heap_length (p : bytecodeParser) (is : Ptr) (name : String) :
    (setLabel p is name).2.heap.length = p.heap.length := by
  unfold setLabel
  by_cases hP : name = bytecode.Program
  · simp [hP]
  · simp only [hP, if_false]
    rcases hs : strings.Split name ':' with _ | ⟨lt, _ | ⟨ln, more⟩⟩
    · rfl
    · rfl
    · simp only
      by_cases hB : lt = bytecode.Block
      · simp [hB, length_modifyAt]
      · simp only [hB, if_false]
        rcases hm : p.labelTable lt with _ | m <;> simp [length_modifyAt]

theorem convertInstruction_heap_length (T : String → Option action) (p : bytecodeParser)
    (is : Ptr) (i : bytecode.Instruction) :
    (convertInstruction T p is i).2.heap.length = p.heap.length := by
  unfold convertInstruction
  simp only
  split_ifs
  · rfl
  · split
    · rfl
    · split <;> simp [define, length_modifyAt]
  · split <;> simp [define, length_modifyAt]
  · simp [define, length_modifyAt]

theorem forRange_preserved {σ α β : Type} (body : σ → α → Outcome Unit × σ) (f : σ → β)
    (hb : ∀ s x, f (body s x).2 = f s) (xs : List α) :
    ∀ s, f (forRange body s xs).2 = f s := by
  induction xs with
  | nil => intro s; rfl
  | cons x xs ih =>
    intro s
    unfold forRange
    rcases hx : body s x with ⟨_ | v, s1⟩
    · simp only
      rw [ih s1]
      have := hb s x
      rw [hx] at this
      exact this
    · simp only
      have := hb s x
      rw [hx] at this
      exact this

theorem forRange_counted {σ α : Type} (body : σ → α → Outcome Unit × σ) (f : σ → Nat)
    (hb : ∀ s x, f (body s x).2 = f s + 1) (xs : List α) :
    ∀ s s1 u, forRange body s xs = (.returned u, s1) → f s1 = f s + xs.length := by
  induction xs with
  | nil =>
    intro s s1 u h
    simp only [forRange, Prod.mk.injEq] at h
    simp [← h.2]
  | cons x xs ih =>
    intro s s1 u h
    unfold forRange at h
    rcases hx : body s x with ⟨_ | v, s2⟩
    · simp only [hx] at h
      have h1 := ih _ _ _ h
      have h2 := hb s x
      rw [hx] at h2
      simp only at h2
      rw [h1, h2, List.length_cons]
      omega
    · simp [hx] at h

theorem parseInstructionSet_heap_length (T : String → Option action) (p : bytecodeParser)
    (iss : List Ptr) (set : bytecode.InstructionSet) :
    (parseInstructionSet T p iss set).2.heap.length = p.heap.length + 1 := by
  have h1 := setLabel_heap_length p.alloc.2 p.alloc.1 set.labelName
  have ha : p.alloc.2.heap.length = p.heap.length + 1 := by simp [bytecodeParser.alloc]
  unfold parseInstructionSet
  simp only
  rcases hl : setLabel p.alloc.2 p.alloc.1 set.labelName with ⟨_ | v, p1⟩
  · rw [hl] at h1
    simp only at h1
    have h2 := forRange_preserved (fun q i => convertInstruction T q p.alloc.1 i)
      (fun q => q.heap.length) (fun s x => convertInstruction_heap_length T s _ x)
      set.Instructions p1
    simp only at h2
    rcases hr : forRange (fun q i => convertInstruction T q p.alloc.1 i) p1 set.Instructions
      with ⟨_ | v, p2⟩
    · rw [hr] at h2
      simp only [hr] at h2 ⊢
      omega
    · rw [hr] at h2
      simp only [hr] at h2 ⊢
      omega
  · rw [hl] at h1
    simp only at h1 ⊢
    omega

/-! ## The collection returned by the two entry points -/

/-- C1 (defect in the code): from a new decoder, on the input
`<Program>`, `1 putstring "hi"`, `2 leave`, the decoder builds one sequence
with the two instructions (line 1, the string-literal action, parameter `hi`;
line 2, the leave action, no parameter) and makes it the program root, but
`parseBytecode` returns the empty collection instead of that sequence. -/
theorem parseBytecode_sample_program (E : PanicValue → Bool) (file : String) :
    (parseBytecode sampleActions E (newBytecodeParser file)
      "<Program>\n1 putstring \"hi\"\n2 leave").1 = .returned (some []) ∧
    (parseBytecode sampleActions E (newBytecodeParser file)
      "<Program>\n1 putstring \"hi\"\n2 leave").2.heap =
      [{ filename := file, label := none, instructions :=
          [{ Line := 1, action := some { name := "putstring" }, Params := [.str "hi"] },
           { Line := 2, action := some { name := "leave" }, Params := [] }] }] ∧
    (parseBytecode sampleActions E (newBytecodeParser file)
      "<Program>\n1 putstring \"hi\"\n2 leave").2.program = some 0 :=
  ⟨rfl, rfl, rfl⟩

/-- C2 (defect in the code): whenever `parseBytecode` returns normally the
collection it returns is empty, although the input has at least one section
and the decoder has created one sequence for each section in its store. -/
theorem parseBytecode_returns_empty (T : String → Option action) (E : PanicValue → Bool)
    (p : bytecodeParser) (input : String) (iss : List Ptr)
    (h : (parseBytecode T E p input).1 = .returned (some iss)) :
    iss = [] ∧ 0 < (sections (inputLines input)).length ∧
    (parseBytecode T E p input).2.heap.length =
      p.heap.length + (sections (inputLines input)).length := by
  have h1 : parseBytecode T E p input = (.returned (some iss), (parseBytecode T E p input).2) :=
    Prod.ext h rfl
  obtain ⟨hiss, hsec⟩ := parseBytecode_returned _ _ _ _ _ _ h1
  obtain ⟨-, hview, -, -⟩ := parseBytecodeSection_returned _ _ _ _ _ _ hsec
  refine ⟨hiss, ?_, ?_⟩
  · simp [inputLines, strings.Split, sections]
  · have := congrArg List.length hview
    simpa using this

/-- Witness for C2: an input with two sections returns the empty collection
while two sequences were created. -/
theorem parseBytecode_returns_empty_witness :
    (parseBytecode sampleActions (fun _ => false) (newBytecodeParser "f")
      "<Program>\n1 leave\n<Def:foo>\n2 leave").1 = .returned (some []) ∧
    (sections (inputLines "<Program>\n1 leave\n<Def:foo>\n2 leave")).length = 2 ∧
    (parseBytecode sampleActions (fun _ => false) (newBytecodeParser "f")
      "<Program>\n1 leave\n<Def:foo>\n2 leave").2.heap.length = 2 :=
  ⟨rfl, rfl, (parseBytecode_returns_empty sampleActions (fun _ => false)
    (newBytecodeParser "f") "<Program>\n1 leave\n<Def:foo>\n2 leave" [] rfl).2.2.trans rfl⟩

/-- C3 (defect in the code): whenever `parseInstructionSets` returns normally
the collection it returns is empty, although the decoder has created one
sequence for each input record in its store. -/
theorem parseInstructionSets_returns_empty (T : String → Option action) (p : bytecodeParser)
    (sets : List bytecode.InstructionSet) (iss : List Ptr)
    (h : (parseInstructionSets T p sets).1 = .returned iss) :
    iss = [] ∧ (parseInstructionSets T p sets).2.heap.length = p.heap.length + sets.length := by
  unfold parseInstructionSets at h ⊢
  simp only at h ⊢
  rcases hr : forRange (fun q set => parseInstructionSet T q [] set) p sets with ⟨_ | v, p1⟩
  · simp only [hr, Outcome.returned.injEq] at h ⊢
    exact ⟨h.symm, forRange_counted _ (fun q => q.heap.length)
      (fun s x => parseInstructionSet_heap_length T s [] x) sets _ _ _ hr⟩
  · simp [hr] at h

/-- Witness for C3: one record with one instruction returns the empty
collection while one sequence was created. -/
theorem parseInstructionSets_returns_empty_witness :
    (parseInstructionSets sampleActions (newBytecodeParser "f")
      [{ labelName := "Program", Instructions :=
          [{ Action := "leave", Params := [], line := 1, anchorLine := .error "" }] }]).1 =
      .returned [] ∧
    (parseInstructionSets sampleActions (newBytecodeParser "f")
      [{ labelName := "Program", Instructions :=
          [{ Action := "leave", Params := [], line := 1, anchorLine := .error "" }] }]).2.heap.length
      = 1 :=
  ⟨rfl, (parseInstructionSets_returns_empty sampleActions (newBytecodeParser "f")
      [{ labelName := "Program", Instructions :=
          [{ Action := "leave", Params := [], line := 1, anchorLine := .error "" }] }] [] rfl).2.trans
    rfl⟩

/-! ## Label table, program root and instruction lists after a textual decode -/

theorem sectionPtrs_pairwise (P : String → Bool) (base : Nat) (secs : List (String × List String)) :
    (sectionPtrs P base secs).Pairwise (· < ·) := by
  have h1 : (sectionPtrs P base secs).Sublist ((secs.enumFrom base).map Prod.fst) :=
    (List.filter_sublist _).map Prod.fst
  rw [List.enumFrom_map_fst] at h1
  exact (List.pairwise_lt_range' base secs.length).sublist h1

theorem mem_sectionPtrs (P : String → Bool) (secs : List (String × List String)) (i : Nat) :
    i ∈ sectionPtrs P 0 secs ↔ ∃ sec, secs[i]? = some sec ∧ P (labelToken sec.1) = true := by
  unfold sectionPtrs
  constructor
  · intro h
    obtain ⟨⟨a, sec⟩, hm, hi⟩ := List.mem_map.1 h
    rw [List.mem_filter, List.mk_mem_enumFrom_iff_le_and_getElem?_sub] at hm
    simp only at hi
    subst hi
    exact ⟨sec, by simpa using hm.1.2, hm.2⟩
  · rintro ⟨sec, hget, hP⟩
    refine List.mem_map.2 ⟨(i, sec), ?_, rfl⟩
    rw [List.mem_filter, List.mk_mem_enumFrom_iff_le_and_getElem?_sub]
    exact ⟨⟨Nat.zero_le _, by simpa using hget⟩, hP⟩

theorem newBytecodeParser_heap (file : String) : (newBytecodeParser file).heap = [] := rfl

theorem sectionPtrs_eq_nil (P : String → Bool) (secs : List (String × List String)) :
    ∀ base, sectionPtrs P base secs = [] ↔ ∀ sec ∈ secs, P (labelToken sec.1) = false := by
  induction secs with
  | nil => intro base; simp [sectionPtrs_nil]
  | cons sec secs ih =>
    intro base
    rw [sectionPtrs_cons]
    by_cases h : P (labelToken sec.1) = true
    · simp [h]
    · simp [h, ih (base + 1)]

/-! ## Marker lines and the token the decoder reads -/

theorem dropWhile_of_forall (f : Char → Bool) (cs : List Char)
    (h : ∀ c ∈ cs, f c = false) : cs.dropWhile f = cs := by
  cases cs with
  | nil => rfl
  | cons c t => simp [List.dropWhile, h c (List.mem_cons_self _ _)]

theorem trimChars_of_forall (f : Char → Bool) (cs : List Char)
    (h : ∀ c ∈ cs, f c = false) : strings.trimChars f cs = cs := by
  unfold strings.trimChars
  rw [dropWhile_of_forall f cs h, dropWhile_of_forall f cs.reverse (by
    intro c hc
    exact h c (List.mem_reverse.1 hc))]
  simp

/-- On a line written `<label>` the two trims of `parseBytecodeLabel` leave the
label. -/
theorem labelToken_of_markerLabel (line tok : String) (h : markerLabel line = some tok) :
    labelToken line = tok := by
  unfold markerLabel at h
  rcases hd : line.data with _ | ⟨c, rest⟩
  · simp [hd] at h
  · simp only [hd] at h
    split_ifs at h with hc
    obtain ⟨rfl, hlast, h1, h2⟩ := hc
    simp only [Option.some.injEq] at h
    have hrest : rest = rest.dropLast ++ ['>'] := by
      have hne : rest ≠ [] := by
        intro e
        rw [e] at hlast
        simp at hlast
      have := List.dropLast_append_getLast hne
      rw [List.getLast?_eq_getLast _ hne, Option.some.injEq] at hlast
      rw [hlast] at this
      exact this.symm
    generalize rest.dropLast = t at h h1 h2 hrest
    subst hrest
    subst h
    have hf1 : ∀ x ∈ t ++ ['>'], (fun c : Char => c == '<') x = false := by
      intro x hx
      rcases List.mem_append.1 hx with hx | hx
      · have : x ≠ '<' := fun e => h1 (e ▸ hx)
        simpa using this
      · simp only [List.mem_singleton] at hx
        subst hx
        decide
    have hf2 : ∀ x ∈ t, (fun c : Char => c == '>') x = false := by
      intro x hx
      have : x ≠ '>' := fun e => h2 (e ▸ hx)
      simpa using this
    have e1 : strings.trimChars (fun c => c == '<') ('<' :: (t ++ ['>'])) = t ++ ['>'] := by
      have e0 : ('<' :: (t ++ ['>'])).dropWhile (fun c => c == '<') =
          (t ++ ['>']).dropWhile (fun c => c == '<') := by
        simp [List.dropWhile]
      have := trimChars_of_forall _ _ hf1
      unfold strings.trimChars at this ⊢
      rw [e0]
      exact this
    have e2 : strings.trimChars (fun c => c == '>') (t ++ ['>']) = t := by
      unfold strings.trimChars
      cases t with
      | nil => simp [List.dropWhile]
      | cons a t1 =>
        have ha : (a == '>') = false := hf2 a (List.mem_cons_self _ _)
        have e3 : (a :: t1 ++ ['>']).dropWhile (fun c => c == '>') = a :: t1 ++ ['>'] := by
          simp [List.dropWhile, ha]
        rw [e3]
        have e4 : (a :: t1 ++ ['>']).reverse = '>' :: (a :: t1).reverse := by simp
        rw [e4]
        have e5 : ('>' :: (a :: t1).reverse).dropWhile (fun c => c == '>') =
            ((a :: t1).reverse).dropWhile (fun c => c == '>') := by
          simp [List.dropWhile]
        rw [e5, dropWhile_of_forall _ _ (by
          intro c hc
          exact hf2 c (List.mem_reverse.1 hc))]
        simp
    unfold labelToken strings.Trim
    rw [hd, e1]
    simp only
    rw [e2]

theorem labelledPtrs_cons (P : String → Bool) (base : Nat) (sec : String × List String)
    (secs : List (String × List String)) :
    labelledPtrs P base (sec :: secs) =
      if (match markerLabel sec.1 with
          | some tok => P tok
          | none => false) = true then base :: labelledPtrs P (base + 1) secs
      else labelledPtrs P (base + 1) secs := by
  by_cases h : (match markerLabel sec.1 with
      | some tok => P tok
      | none => false) = true <;>
    simp [labelledPtrs, List.enumFrom_cons, List.filter_cons, h]

/-- When every marker line is written `<label>`, selecting the sections by the
token the decoder reads and by the label the line spells out is the same. -/
theorem sectionPtrs_eq_labelledPtrs (P : String → Bool) (secs : List (String × List String)) :
    ∀ base, (∀ sec ∈ secs, (markerLabel sec.1).isSome = true) →
      sectionPtrs P base secs = labelledPtrs P base secs := by
  induction secs with
  | nil => intro base _; rfl
  | cons sec secs ih =>
    intro base h
    rw [sectionPtrs_cons, labelledPtrs_cons, ih (base + 1) (fun s hs => h s (List.mem_cons_of_mem _ hs))]
    have h0 := h sec (List.mem_cons_self _ _)
    rcases hm : markerLabel sec.1 with _ | tok
    · rw [hm] at h0
      simp at h0
    · rw [labelToken_of_markerLabel _ _ hm]

theorem sectionView_eq_markerView (T : String → Option action) (file : String)
    (sec : String × List String) (h : (markerLabel sec.1).isSome = true) :
    sectionView T file sec = markerView T file sec := by
  unfold sectionView markerView
  rcases hm : markerLabel sec.1 with _ | tok
  · rw [hm] at h
    simp at h
  · rw [labelToken_of_markerLabel _ _ hm]
    rfl

/-- A marker line with a space before it, a space after it or a carriage return
after it is not a line written `<label>`; the bare line is, with its label. -/
theorem markerLabel_outer_whitespace :
    markerLabel " <Def:foo>" = none ∧ markerLabel "<Def:foo> " = none ∧
    markerLabel "<Def:foo>\r" = none ∧ markerLabel "<Def:foo>" = some "Def:foo" := by
  decide

/-! ## The label table entry of a kind and a name -/

/-- C4 (amended): take a textual input each of whose section marker lines is
written `<label>`, with nothing before the `<`, nothing after the `>` and no
angle bracket inside the label.  After a decode from a new decoder that returns
normally, for a kind `k` among `Def` and `DefClass` and a name `n`, the label
table entry for `(k, n)` holds exactly the references of the sections whose
label, split at `:`, has `k` as its first field and `n` as its second field;
the references are in the order of the sections and without repetition, and
reference `i` is the sequence decoded from section `i`. -/
theorem labelTable_entry_sections (T : String → Option action) (E : PanicValue → Bool)
    (file input : String) (iss : List Ptr) (k n : String)
    (hm : ∀ sec ∈ sections (inputLines input), (markerLabel sec.1).isSome = true)
    (h : (parseBytecode T E (newBytecodeParser file) input).1 = .returned (some iss))
    (hk : k = bytecode.LabelDef ∨ k = bytecode.LabelDefClass) :
    (parseBytecode T E (newBytecodeParser file) input).2.labelEntry k n =
      labelledPtrs (fun t => labelKey t = some (k, n)) 0 (sections (inputLines input)) ∧
    (∀ i, i ∈ (parseBytecode T E (newBytecodeParser file) input).2.labelEntry k n ↔
      ∃ sec tok, (sections (inputLines input))[i]? = some sec ∧
        markerLabel sec.1 = some tok ∧ labelKey tok = some (k, n)) ∧
    ((parseBytecode T E (newBytecodeParser file) input).2.labelEntry k n).Pairwise (· < ·) ∧
    (parseBytecode T E (newBytecodeParser file) input).2.heap.map view =
      (sections (inputLines input)).map (markerView T file) := by
  have h1 : parseBytecode T E (newBytecodeParser file) input =
      (.returned (some iss), (parseBytecode T E (newBytecodeParser file) input).2) :=
    Prod.ext h rfl
  obtain ⟨-, hsec⟩ := parseBytecode_returned _ _ _ _ _ _ h1
  obtain ⟨-, hview, -, hlab⟩ := parseBytecodeSection_returned _ _ _ _ _ _ hsec
  have hkB : k ≠ bytecode.Block := by
    rcases hk with rfl | rfl <;> decide
  have he := hlab k n hkB
  rw [newBytecodeParser_labelEntry, List.nil_append, newBytecodeParser_heap,
    List.length_nil] at he
  refine ⟨?_, ?_, ?_, ?_⟩
  · rw [he]
    exact sectionPtrs_eq_labelledPtrs _ _ 0 hm
  · intro i
    rw [he, mem_sectionPtrs]
    constructor
    · rintro ⟨sec, hget, hP⟩
      have hmem : sec ∈ sections (inputLines input) := List.mem_iff_getElem?.2 ⟨i, hget⟩
      rcases hl : markerLabel sec.1 with _ | tok
      · have := hm sec hmem
        rw [hl] at this
        simp at this
      · rw [labelToken_of_markerLabel _ _ hl] at hP
        exact ⟨sec, tok, hget, hl, by simpa using hP⟩
    · rintro ⟨sec, tok, hget, hl, hP⟩
      refine ⟨sec, hget, ?_⟩
      rw [labelToken_of_markerLabel _ _ hl]
      simpa using hP
  · rw [he]
    exact sectionPtrs_pairwise _ _ _
  · have hv : (parseBytecode T E (newBytecodeParser file) input).2.heap.map view =
        (sections (inputLines input)).map (sectionView T file) := by
      simpa [newBytecodeParser] using hview
    rw [hv]
    exact List.map_congr_left (fun sec hs => sectionView_eq_markerView T file sec (hm sec hs))

/-- Witness for C4: two sections `<Def:foo>` leave two distinct references
under `(Def, foo)`, the first section first. -/
theorem labelTable_entry_sections_witness :
    (parseBytecode sampleActions (fun _ => false) (newBytecodeParser "f")
      "<Def:foo>\n1 leave\n<Def:foo>\n2 leave").2.labelEntry "Def" "foo" = [0, 1] :=
  (labelTable_entry_sections sampleActions (fun _ => false) "f"
    "<Def:foo>\n1 leave\n<Def:foo>\n2 leave" [] "Def" "foo" (by decide) rfl (Or.inl rfl)).1.trans rfl

/-- Counterexample for C4 as stated: the input `<Def:foo:bar>` decodes normally
and leaves a reference under `(Def, foo)`, but no section has the label
`Def:foo`. -/
theorem labelTable_entry_extra_field :
    (parseBytecode sampleActions (fun _ => false) (newBytecodeParser "f")
      "<Def:foo:bar>").1 = .returned (some []) ∧
    (parseBytecode sampleActions (fun _ => false) (newBytecodeParser "f")
      "<Def:foo:bar>").2.labelEntry "Def" "foo" = [0] ∧
    (sections (inputLines "<Def:foo:bar>")).map (fun sec => markerLabel sec.1) =
      [some "Def:foo:bar"] :=
  ⟨rfl, rfl, by decide⟩

/-- C5: after a textual decode from a new decoder that returns normally, the
program root is nil exactly when no section has the program marker as its
label token, and otherwise it is the reference of the last such section. -/
theorem program_root_sections (T : String → Option action) (E : PanicValue → Bool)
    (file input : String) (iss : List Ptr)
    (h : (parseBytecode T E (newBytecodeParser file) input).1 = .returned (some iss)) :
    ((parseBytecode T E (newBytecodeParser file) input).2.program = none ↔
      ∀ sec ∈ sections (inputLines input), labelToken sec.1 ≠ bytecode.Program) ∧
    (parseBytecode T E (newBytecodeParser file) input).2.program =
      (sectionPtrs (fun t => t = bytecode.Program) 0 (sections (inputLines input))).getLast? ∧
    (parseBytecode T E (newBytecodeParser file) input).2.heap.map view =
      (sections (inputLines input)).map (sectionView T file) := by
  have h1 : parseBytecode T E (newBytecodeParser file) input =
      (.returned (some iss), (parseBytecode T E (newBytecodeParser file) input).2) :=
    Prod.ext h rfl
  obtain ⟨-, hsec⟩ := parseBytecode_returned _ _ _ _ _ _ h1
  obtain ⟨-, hview, hprog, -⟩ := parseBytecodeSection_returned _ _ _ _ _ _ hsec
  have hp : (parseBytecode T E (newBytecodeParser file) input).2.program =
      (sectionPtrs (fun t => t = bytecode.Program) 0 (sections (inputLines input))).getLast? := by
    rw [hprog, newBytecodeParser_heap, List.length_nil]
    cases (sectionPtrs (fun t => decide (t = bytecode.Program)) 0
      (sections (inputLines input))).getLast? <;> rfl
  refine ⟨?_, hp, by simpa [newBytecodeParser] using hview⟩
  rw [hp, List.getLast?_eq_none_iff, sectionPtrs_eq_nil]
  simp

/-- Witness for C5: the program section is the second of two sections. -/
theorem program_root_sections_witness :
    (parseBytecode sampleActions (fun _ => false) (newBytecodeParser "f")
      "<Def:foo>\n1 leave\n<Program>\n2 leave").2.program = some 1 :=
  (program_root_sections sampleActions (fun _ => false) "f"
    "<Def:foo>\n1 leave\n<Program>\n2 leave" [] rfl).2.1.trans rfl

/-- C6: after a textual decode that returns normally, the sequences that were
in the store keep their instruction lists and each section has added one
sequence whose instruction list is the decoding, line by line and in input
order, of the lines strictly between its marker line and the next marker line
or the end of the input. -/
theorem instructions_of_sections (T : String → Option action) (E : PanicValue → Bool)
    (p : bytecodeParser) (input : String) (iss : List Ptr)
    (h : (parseBytecode T E p input).1 = .returned (some iss)) :
    (parseBytecode T E p input).2.heap.map (fun s => s.instructions.map some) =
      p.heap.map (fun s => s.instructions.map some) ++
      (sections (inputLines input)).map
        (fun sec => sec.2.map fun l => instructionOfLine T (strings.TrimSpace l)) := by
  have h1 : parseBytecode T E p input = (.returned (some iss), (parseBytecode T E p input).2) :=
    Prod.ext h rfl
  obtain ⟨-, hsec⟩ := parseBytecode_returned _ _ _ _ _ _ h1
  obtain ⟨-, hview, -, -⟩ := parseBytecodeSection_returned _ _ _ _ _ _ hsec
  have := congrArg (List.map fun v : String × Option label × List (Option instruction) => v.2.2)
    hview
  simpa [view, sectionView, Function.comp_def] using this

/-- Witness for C6: two sections, the first with two lines and the second with
one. -/
theorem instructions_of_sections_witness :
    (parseBytecode sampleActions (fun _ => false) (newBytecodeParser "f")
      "<Program>\n1 putstring \"a b\"\n2 leave\n<Def:foo>\n3 leave").2.heap.map
        (fun s => s.instructions.map some) =
      [[some { Line := 1, action := some { name := "putstring" }, Params := [.str "a b"] },
        some { Line := 2, action := some { name := "leave" }, Params := [] }],
       [some { Line := 3, action := some { name := "leave" }, Params := [] }]] :=
  (instructions_of_sections sampleActions (fun _ => false) (newBytecodeParser "f")
    "<Program>\n1 putstring \"a b\"\n2 leave\n<Def:foo>\n3 leave" [] rfl).trans rfl

/-! ## Unknown operations -/

/-- A panic inside `parseBytecodeSection` leaves `parseBytecode` through the
deferred function: it is recovered when the type switch selects it and raised
again otherwise. -/
theorem parseBytecode_panicked (T : String → Option action) (E : PanicValue → Bool)
    (p : bytecodeParser) (input : String) (v : PanicValue)
    (h : (parseBytecodeSection T p [] (inputLines input)).1 = .panicked v) :
    (parseBytecode T E p input).1 = if E v then .returned none else .panicked v := by
  have h1 : parseBytecodeSection T p [] (strings.Split (strings.TrimSpace input) '\n') =
      (.panicked v, (parseBytecodeSection T p [] (inputLines input)).2) := Prod.ext h rfl
  unfold parseBytecode
  simp only [h1]
  by_cases hE : E v = true <;> simp [hE]

/-- C7 (defect in the code): the textual line `1 foo 1` names an operation
that is not in the action table, yet `parseBytecode` reports no failure: it
returns normally and leaves a sequence holding an instruction with the nil
action.  Without the operand the decoder does panic, with a plain string,
and the deferred function recovers it only if its type switch selects that
value. -/
theorem parseBytecode_unknown_operation (E : PanicValue → Bool) :
    sampleActions "foo" = none ∧
    (parseBytecode sampleActions E (newBytecodeParser "f") "<Program>\n1 foo 1").1 =
      .returned (some []) ∧
    (parseBytecode sampleActions E (newBytecodeParser "f") "<Program>\n1 foo 1").2.heap =
      [{ filename := "f", label := none, instructions :=
          [{ Line := 1, action := none, Params := [.int 1] }] }] ∧
    (parseBytecode sampleActions E (newBytecodeParser "f") "<Program>\n1 foo").1 =
      if E (.unknownCommand "foo" 1) then .returned none
      else .panicked (.unknownCommand "foo" 1) :=
  ⟨rfl, rfl, rfl, parseBytecode_panicked _ _ _ _ _ rfl⟩

/-- C9 (defect in the code): for the line `1 foo 1`, whose operation is not in
the action table, `parseInstruction` does not panic: it appends an instruction
with the nil action.  The same line without the operand panics with the
unknown operation and its line, and so does `convertInstruction` on the
record of the line with its operand. -/
theorem parseInstruction_unknown_with_operand :
    sampleActions "foo" = none ∧
    (parseInstruction sampleActions (newBytecodeParser "f").alloc.2 0 "1 foo 1").1 =
      .returned () ∧
    (parseInstruction sampleActions (newBytecodeParser "f").alloc.2 0 "1 foo 1").2.heap =
      [{ filename := "f", label := none, instructions :=
          [{ Line := 1, action := none, Params := [.int 1] }] }] ∧
    (parseInstruction sampleActions (newBytecodeParser "f").alloc.2 0 "1 foo").1 =
      .panicked (.unknownCommand "foo" 1) ∧
    (convertInstruction sampleActions (newBytecodeParser "f").alloc.2 0
      { Action := "foo", Params := ["1"], line := 1, anchorLine := .error "" }).1 =
      .panicked (.unknownCommand "foo" 1) :=
  ⟨rfl, rfl, rfl, rfl, rfl⟩

/-! ## The structured path: unknown operations -/

theorem convertInstruction_unknown (T : String → Option action) (p : bytecodeParser) (is : Ptr)
    (i : bytecode.Instruction) (h : T i.Action = none) :
    convertInstruction T p is i = (.panicked (.unknownCommand i.Action i.line), p) := by
  unfold convertInstruction
  simp [h]

theorem convertInstruction_known (T : String → Option action) (p : bytecodeParser) (is : Ptr)
    (i : bytecode.Instruction) (hw : operandsWellFormed i = true) (h : T i.Action ≠ none) :
    (convertInstruction T p is i).1 = .returned () := by
  unfold convertInstruction
  unfold operandsWellFormed at hw
  simp only [h, if_false]
  by_cases h1 : i.Action = bytecode.PutString
  · simp only [h1, if_true] at hw ⊢
    rcases hp : i.Params with _ | ⟨param0, ps⟩
    · simp [hp] at hw
    · simp only [hp] at hw ⊢
      rcases hq : strings.Split param0 '"' with _ | ⟨q0, _ | ⟨text, qs⟩⟩
      · simp [hq] at hw
      · simp [hq] at hw
      · simp [define]
  · simp only [h1, if_false] at hw ⊢
    by_cases h2 : i.Action = bytecode.BranchUnless ∨ i.Action = bytecode.BranchIf ∨
        i.Action = bytecode.Jump
    · simp only [h2, if_true] at hw ⊢
      rcases ha : i.anchorLine with err | line
      · simp [ha] at hw
      · simp [define]
    · simp [h2, define]

theorem forRange_panics {σ α : Type} (body : σ → α → Outcome Unit × σ) (xs : List α)
    (h : ∃ x ∈ xs, ∀ s, ∃ v, (body s x).1 = .panicked v) :
    ∀ s, ∃ v, (forRange body s xs).1 = .panicked v := by
  induction xs with
  | nil => simp at h
  | cons y ys ih =>
    intro s
    unfold forRange
    rcases hy : body s y with ⟨_ | v, s1⟩
    · simp only
      obtain ⟨x, hx, hp⟩ := h
      rcases List.mem_cons.1 hx with rfl | hx1
      · obtain ⟨v, hv⟩ := hp s
        rw [hy] at hv
        simp at hv
      · exact ih ⟨x, hx1, hp⟩ s1
    · exact ⟨v, rfl⟩

theorem parseInstructionSet_panics (T : String → Option action) (iss : List Ptr)
    (set : bytecode.InstructionSet) (h : ∃ j ∈ set.Instructions, T j.Action = none)
    (p : bytecodeParser) : ∃ v, (parseInstructionSet T p iss set).1 = .panicked v := by
  unfold parseInstructionSet
  simp only
  rcases hl : setLabel p.alloc.2 p.alloc.1 set.labelName with ⟨_ | v, p1⟩
  · simp only
    obtain ⟨j, hj, hT⟩ := h
    obtain ⟨v, hv⟩ := forRange_panics (fun q i => convertInstruction T q p.alloc.1 i)
      set.Instructions
      ⟨j, hj, fun s => ⟨_, congrArg Prod.fst (convertInstruction_unknown T s p.alloc.1 j hT)⟩⟩ p1
    rcases hr : forRange (fun q i => convertInstruction T q p.alloc.1 i) p1 set.Instructions
      with ⟨_ | w, p2⟩
    · rw [hr] at hv
      simp at hv
    · exact ⟨w, rfl⟩
  · exact ⟨v, rfl⟩

/-- C8: in the structured path, for a record whose operands are well formed,
`convertInstruction` panics exactly when the operation name is absent from the
action table, and then with the unknown-command value naming the operation and
its line; a panicking call appends nothing; and `parseInstructionSets`, which
recovers nothing, ends in a panic whenever a record holds such an
instruction. -/
theorem convertInstruction_unknown_iff (T : String → Option action) (p : bytecodeParser)
    (is : Ptr) (i : bytecode.Instruction) (hw : operandsWellFormed i = true) :
    ((convertInstruction T p is i).1 = .panicked (.unknownCommand i.Action i.line) ↔
      T i.Action = none) ∧
    ((∃ v, (convertInstruction T p is i).1 = .panicked v) ↔ T i.Action = none) ∧
    (T i.Action = none → (convertInstruction T p is i).2 = p) ∧
    (∀ sets : List bytecode.InstructionSet,
      (∃ set ∈ sets, ∃ j ∈ set.Instructions, T j.Action = none) →
      ∃ v, (parseInstructionSets T p sets).1 = .panicked v) := by
  refine ⟨⟨?_, ?_⟩, ⟨?_, ?_⟩, ?_, ?_⟩
  · intro h
    by_contra hT
    rw [convertInstruction_known T p is i hw hT] at h
    simp at h
  · intro hT
    rw [convertInstruction_unknown T p is i hT]
  · rintro ⟨v, h⟩
    by_contra hT
    rw [convertInstruction_known T p is i hw hT] at h
    simp at h
  · intro hT
    exact ⟨_, by rw [convertInstruction_unknown T p is i hT]⟩
  · intro hT
    rw [convertInstruction_unknown T p is i hT]
  · rintro sets ⟨set, hset, hj⟩
    obtain ⟨v, hv⟩ := forRange_panics (fun q set => parseInstructionSet T q [] set) sets
      ⟨set, hset, fun s => parseInstructionSet_panics T [] set hj s⟩ p
    unfold parseInstructionSets
    simp only
    rcases hr : forRange (fun q set => parseInstructionSet T q [] set) p sets with ⟨_ | w, p1⟩
    · rw [hr] at hv
      simp at hv
    · exact ⟨w, rfl⟩

/-- Witness for C8: a record `foo` with a well-formed operand list panics with
the unknown-command value and appends nothing, and the panic leaves
`parseInstructionSets`. -/
theorem convertInstruction_unknown_iff_witness :
    operandsWellFormed { Action := "foo", Params := ["1"], line := 3, anchorLine := .error "" }
      = true ∧
    (convertInstruction sampleActions (newBytecodeParser "f").alloc.2 0
      { Action := "foo", Params := ["1"], line := 3, anchorLine := .error "" }).1 =
      .panicked (.unknownCommand "foo" 3) ∧
    (parseInstructionSets sampleActions (newBytecodeParser "f").alloc.2
      [{ labelName := "Def:bar", Instructions :=
          [{ Action := "foo", Params := ["1"], line := 3, anchorLine := .error "" }] }]).1 =
      .panicked (.unknownCommand "foo" 3) :=
  ⟨rfl, (convertInstruction_unknown_iff sampleActions (newBytecodeParser "f").alloc.2 0
      { Action := "foo", Params := ["1"], line := 3, anchorLine := .error "" } rfl).1.2 rfl,
    rfl⟩

/-! ## Integer operands -/

theorem fields_of_not_mem (sep : Char) (cs : List Char) (h : sep ∉ cs) :
    strings.fields sep cs = (cs, []) := by
  induction cs with
  | nil => rfl
  | cons c cs ih =>
    have hc : c ≠ sep := fun e => h (by simp [e])
    have hcs : sep ∉ cs := fun e => h (by simp [e])
    simp [strings.fields, hc, ih hcs]

theorem fields_append_sep (sep : Char) (a b : List Char) (h : sep ∉ a) :
    strings.fields sep (a ++ sep :: b) =
      (a, (strings.fields sep b).1 :: (strings.fields sep b).2) := by
  induction a with
  | nil => simp [strings.fields]
  | cons c cs ih =>
    have hc : c ≠ sep := fun e => h (by simp [e])
    have hcs : sep ∉ cs := fun e => h (by simp [e])
    simp [strings.fields, hc, ih hcs]

/-- A line of three fields separated by single spaces splits into its
fields. -/
theorem Split_three_fields (line n op k : String)
    (hl : line.data = n.data ++ ' ' :: (op.data ++ ' ' :: k.data))
    (hn : ' ' ∉ n.data) (hop : ' ' ∉ op.data) (hk : ' ' ∉ k.data) :
    strings.Split line ' ' = [n, op, k] := by
  unfold strings.Split
  rw [hl, fields_append_sep _ _ _ hn, fields_append_sep _ _ _ hop, fields_of_not_mem _ _ hk]
  rfl

theorem foldl_digits_ge (ds : List Char) :
    ∀ n, n ≤ ds.foldl (fun a c => 10 * a + (c.toNat - 48)) n := by
  induction ds with
  | nil => intro n; exact Nat.le_refl n
  | cons c cs ih =>
    intro n
    have := ih (10 * n + (c.toNat - 48))
    simp only [List.foldl_cons]
    omega

/-- On decimal digits whose value fits 64 bits the digit loop of `ParseUint`
in base 10 returns that value. -/
theorem ParseUint_loop_digits (ds : List Char)
    (hd : ∀ c ∈ ds, 48 ≤ c.toNat ∧ c.toNat ≤ 57) :
    ∀ n, ds.foldl (fun a c => 10 * a + (c.toNat - 48)) n < 2 ^ 64 →
      strconv.ParseUint.loop 10 ds n false =
        .ok (ds.foldl (fun a c => 10 * a + (c.toNat - 48)) n, false) := by
  induction ds with
  | nil => intro n _; rfl
  | cons c cs ih =>
    intro n hlt
    have hc := hd c (by simp)
    have hcs : ∀ d ∈ cs, 48 ≤ d.toNat ∧ d.toNat ≤ 57 := fun d hd1 => hd d (by simp [hd1])
    have hne : c ≠ '_' := by
      rintro rfl
      exact absurd hc.2 (by decide)
    simp only [List.foldl_cons] at hlt ⊢
    have hge := foldl_digits_ge cs (10 * n + (c.toNat - 48))
    have hdig : strconv.digit c = some (c.toNat - 48) := by
      unfold strconv.digit
      simp [hc.1, hc.2]
    have h64 : (2 : Nat) ^ 64 = 18446744073709551616 := by norm_num
    rw [h64] at hlt
    have hn1 : 10 * n + (c.toNat - 48) < 18446744073709551616 := by omega
    unfold strconv.ParseUint.loop
    simp only [hne, if_false, hdig]
    have h1 : ¬ (c.toNat - 48 ≥ 10) := by omega
    have h2 : ¬ (n ≥ strconv.maxUint64 / 10 + 1) := by
      unfold strconv.maxUint64
      norm_num
      omega
    have h3 : n * 10 % 2 ^ 64 = n * 10 := by
      rw [h64]
      exact Nat.mod_eq_of_lt (by omega)
    have h4 : (n * 10 + (c.toNat - 48)) % 2 ^ 64 = 10 * n + (c.toNat - 48) := by
      rw [h64, Nat.mod_eq_of_lt (by omega)]
      omega
    have h5 : ¬ (10 * n + (c.toNat - 48) < n * 10 ∨
        10 * n + (c.toNat - 48) > strconv.maxUint64) := by
      unfold strconv.maxUint64
      norm_num
      omega
    simp only [h1, if_false, h2, h3, h4, h5]
    exact ih hcs _ (by rw [h64]; exact hlt)

theorem toInt64_of_lt (n : Nat) (h : n < 9223372036854775808) :
    strconv.toInt64 (n : Int) = (n : Int) := by
  unfold strconv.toInt64
  norm_num
  omega

/-- On a decimal literal whose value fits a signed 64-bit integer `ParseInt`
returns the value and no error. -/
theorem ParseInt_decimal (k : String) (hk : isDecimalLiteral k = true)
    (hv : decimalValue k < 2 ^ 63) :
    strconv.ParseInt k = ((decimalValue k : Int), none) := by
  unfold isDecimalLiteral at hk
  unfold decimalValue at hv ⊢
  rcases hkd : k.data with _ | ⟨c, cs⟩
  · simp [hkd] at hk
  · simp only [hkd, Bool.and_eq_true, decide_eq_true_eq, List.all_eq_true] at hk hv ⊢
    obtain ⟨⟨hc1, hc2⟩, hcs⟩ := hk
    have hc0 : 48 ≤ c.toNat := by
      by_cases he : cs = []
      · simp [he] at hc1
        exact hc1
      · have : 49 ≤ c.toNat := by simpa [he] using hc1
        omega
    have hplus : c ≠ '+' := by
      rintro rfl
      exact absurd hc0 (by decide)
    have hminus : c ≠ '-' := by
      rintro rfl
      exact absurd hc0 (by decide)
    have h63 : (2 : Nat) ^ 63 = 9223372036854775808 := by norm_num
    have hU : strconv.ParseUint (String.mk (c :: cs)) =
        ((c :: cs).foldl (fun a c => 10 * a + (c.toNat - 48)) 0, none) := by
      unfold strconv.ParseUint
      simp only
      by_cases h0 : c = '0'
      · subst h0
        have he : cs = [] := by
          by_contra hne
          simp [hne] at hc1
        subst he
        rfl
      · simp only [h0, if_false]
        have hall : ∀ d ∈ c :: cs, 48 ≤ d.toNat ∧ d.toNat ≤ 57 := by
          intro d hd
          rcases List.mem_cons.1 hd with rfl | hd1
          · exact ⟨hc0, hc2⟩
          · exact hcs d hd1
        have hlt : (c :: cs).foldl (fun a c => 10 * a + (c.toNat - 48)) 0 < 2 ^ 64 := by
          have : (2 : Nat) ^ 64 = 18446744073709551616 := by norm_num
          rw [this]
          rw [h63] at hv
          omega
        rw [ParseUint_loop_digits (c :: cs) hall 0 hlt]
        simp
    unfold strconv.ParseInt
    simp only [hkd, hplus, hminus, hU, false_or, if_false, decide_False]
    rw [h63] at hv
    generalize (c :: cs).foldl (fun a c => 10 * a + (c.toNat - 48)) 0 = v at hv ⊢
    have hge : ¬ (v ≥ 2 ^ 63) := by
      rw [h63]
      omega
    simp [hge, toInt64_of_lt v hv]
    exact hv

/-- On such a literal `parseParam` gives the integer, not the string. -/
theorem parseParam_decimal (k : String) (hk : isDecimalLiteral k = true)
    (hv : decimalValue k < 2 ^ 63) : parseParam k = .int (decimalValue k) := by
  unfold parseParam
  rw [ParseInt_decimal k hk hv]
  simp

theorem space_not_mem_decimal (k : String) (hk : isDecimalLiteral k = true) :
    ' ' ∉ k.data := by
  unfold isDecimalLiteral at hk
  rcases hkd : k.data with _ | ⟨c, cs⟩
  · simp
  · simp only [hkd, Bool.and_eq_true, decide_eq_true_eq, List.all_eq_true] at hk
    obtain ⟨⟨hc1, -⟩, hcs⟩ := hk
    intro hmem
    rcases List.mem_cons.1 hmem with h1 | h1
    · subst h1
      by_cases he : cs = []
      · simp [he] at hc1
      · simp [he] at hc1
    · exact absurd (hcs _ h1).1 (by decide)

/-- C10 (amended): for every line-number token `n` (any text without a space)
and every decimal literal `k` whose value is at most `2 ^ 63 - 1`,
`parseInstruction` on the line `n branchif k` appends one instruction with the
action the table gives `branchif` and exactly one parameter, the integer
denoted by `k`. -/
theorem parseInstruction_branchif_integer (T : String → Option action) (p : bytecodeParser)
    (is : Ptr) (n k : String) (hn : ' ' ∉ n.data) (hk : isDecimalLiteral k = true)
    (hv : decimalValue k < 2 ^ 63) :
    parseInstruction T p is (n ++ " branchif " ++ k) =
      define p is (strconv.ParseInt n).1 (T bytecode.BranchIf) [.int (decimalValue k)] := by
  have hl : (n ++ " branchif " ++ k).data =
      n.data ++ ' ' :: (("branchif" : String).data ++ ' ' :: k.data) := by
    simp only [String.data_append]
    simp
  have hs := Split_three_fields (n ++ " branchif " ++ k) n "branchif" k hl hn (by decide)
    (space_not_mem_decimal k hk)
  unfold parseInstruction
  simp only [hs]
  have hne : ¬ (("branchif" : String) = bytecode.PutString) := by decide
  simp only [hne, if_false]
  simp [parseParam_decimal k hk hv, bytecode.BranchIf]

/-- Witness for C10: operand `7` gives the integer 7. -/
theorem parseInstruction_branchif_integer_witness :
    (parseInstruction sampleActions (newBytecodeParser "f").alloc.2 0
      ("1" ++ " branchif " ++ "7")).2.heap =
      [{ filename := "f", label := none, instructions :=
          [{ Line := 1, action := some { name := "branchif" }, Params := [.int 7] }] }] :=
  (congrArg (fun r : Outcome Unit × bytecodeParser => r.2.heap)
    (parseInstruction_branchif_integer sampleActions (newBytecodeParser "f").alloc.2 0
      "1" "7" (by decide) rfl (by decide))).trans rfl

/-- Counterexample for C10 as stated: the decimal literal
`9223372036854775808` does not fit a signed 64-bit integer, and the line
`1 branchif 9223372036854775808` gets the string, not an integer, as its
parameter. -/
theorem parseInstruction_branchif_out_of_range :
    isDecimalLiteral "9223372036854775808" = true ∧
    (parseInstruction sampleActions (newBytecodeParser "f").alloc.2 0
      "1 branchif 9223372036854775808").2.heap =
      [{ filename := "f", label := none, instructions :=
          [{ Line := 1, action := some { name := "branchif" },
             Params := [.str "9223372036854775808"] }] }] :=
  ⟨rfl, rfl⟩

/-! ## `strconv.ParseInt` against the literal notation -/

theorem lt_of_or_lt (n : Nat) (h : n ||| 32 < 128) : n < 128 := by
  have h7 : (128 : Nat) = 2 ^ 7 := by norm_num
  rw [h7] at h ⊢
  apply Nat.lt_pow_two_of_testBit
  intro i hi
  have h1 : (n ||| 32).testBit i = false :=
    Nat.testBit_lt_two_pow (lt_of_lt_of_le h (Nat.pow_le_pow_right (by norm_num) hi))
  rw [Nat.testBit_or] at h1
  simp only [Bool.or_eq_false_iff] at h1
  exact h1.1

set_option maxRecDepth 1000000 in
theorem loopDigit_small : ∀ n, n < 128 →
    ∀ base ∈ [2, 8, 10, 16],
    (match (if 48 ≤ n ∧ n ≤ 57 then some (n - 48)
      else if 97 ≤ n ||| 32 ∧ n ||| 32 ≤ 122 then some ((n ||| 32) - 97 + 10) else none) with
      | none => none
      | some d => if d ≥ base then none else some d) =
    (if 48 ≤ n ∧ n ≤ 57 then
      if n - 48 < base then some (n - 48) else none
    else if base = 16 ∧ 97 ≤ n ∧ n ≤ 102 then some (n - 87)
    else if base = 16 ∧ 65 ≤ n ∧ n ≤ 70 then some (n - 55)
    else none) := by
  decide

theorem loopDigit_eq (base : Nat) (hb : base ∈ [2, 8, 10, 16]) (c : Char) :
    loopDigit base c = literalDigit base c := by
  unfold loopDigit strconv.digit strconv.lower literalDigit
  generalize c.toNat = n
  by_cases hn : n < 128
  · exact loopDigit_small n hn base hb
  · have h1 : ¬ (n ||| 32 < 128) := fun h => hn (lt_of_or_lt n h)
    have h2 : ¬ (48 ≤ n ∧ n ≤ 57) := by omega
    have h3 : ¬ (97 ≤ n ||| 32 ∧ n ||| 32 ≤ 122) := by omega
    have h4 : ¬ (base = 16 ∧ 97 ≤ n ∧ n ≤ 102) := by omega
    have h5 : ¬ (base = 16 ∧ 65 ≤ n ∧ n ≤ 70) := by omega
    simp only [h2, h3, h4, h5, if_false]


theorem literalDigit_lt (base : Nat) (c : Char) (d : Nat) (h : literalDigit base c = some d) :
    d < base := by
  unfold literalDigit at h
  split_ifs at h with h1 h2 h3 h4
  · simp only [Option.some.injEq] at h
    omega
  · simp only [Option.some.injEq] at h
    omega
  · simp only [Option.some.injEq] at h
    omega

theorem digitsValue_ge (base : Nat) (ds : List Char) :
    ∀ n v, digitsValue base ds n = some v → 1 ≤ base → n ≤ v := by
  induction ds with
  | nil =>
    intro n v h _
    simp only [digitsValue, Option.some.injEq] at h
    omega
  | cons c cs ih =>
    intro n v h hb
    unfold digitsValue at h
    by_cases hc : c = '_'
    · simp only [hc, if_true] at h
      exact ih n v h hb
    · simp only [hc, if_false] at h
      cases hd : literalDigit base c with
      | none => simp [hd] at h
      | some d =>
        simp only [hd] at h
        have := ih _ v h hb
        have h2 : n ≤ n * base := Nat.le_mul_of_pos_right n hb
        omega

/-- One step of the digit loop on a character that is no underscore. -/
theorem loop_cons (base : Nat) (c : Char) (cs : List Char) (n : Nat) (us : Bool)
    (hc : c ≠ '_') :
    strconv.ParseUint.loop base (c :: cs) n us =
      match loopDigit base c with
      | none => .error (0, .ErrSyntax)
      | some d =>
        if n ≥ strconv.maxUint64 / base + 1 then .error (strconv.maxUint64, .ErrRange)
        else if (n * base % 2 ^ 64 + d) % 2 ^ 64 < n * base % 2 ^ 64 ∨
            (n * base % 2 ^ 64 + d) % 2 ^ 64 > strconv.maxUint64 then
          .error (strconv.maxUint64, .ErrRange)
        else strconv.ParseUint.loop base cs ((n * base % 2 ^ 64 + d) % 2 ^ 64) us := by
  rw [strconv.ParseUint.loop]
  unfold loopDigit
  simp only [hc, if_false]
  cases strconv.digit c with
  | none => rfl
  | some d =>
    simp only
    by_cases hd : d ≥ base
    · simp [hd]
    · simp [hd]

/-- The arithmetic of one step: the checks of the loop pass exactly when the
new value fits 64 bits, and then the new value is exact. -/
theorem loop_step_arith (base : Nat) (hb : base ∈ [2, 8, 10, 16]) (n d : Nat)
    (hn : n ≤ strconv.maxUint64) (hd : d < base) :
    (n * base + d ≤ strconv.maxUint64 →
      ¬ (n ≥ strconv.maxUint64 / base + 1) ∧
      ¬ ((n * base % 2 ^ 64 + d) % 2 ^ 64 < n * base % 2 ^ 64 ∨
        (n * base % 2 ^ 64 + d) % 2 ^ 64 > strconv.maxUint64) ∧
      (n * base % 2 ^ 64 + d) % 2 ^ 64 = n * base + d) ∧
    (strconv.maxUint64 < n * base + d →
      (n ≥ strconv.maxUint64 / base + 1) ∨
      ((n * base % 2 ^ 64 + d) % 2 ^ 64 < n * base % 2 ^ 64 ∨
        (n * base % 2 ^ 64 + d) % 2 ^ 64 > strconv.maxUint64)) := by
  unfold strconv.maxUint64 at *
  simp only [List.mem_cons, List.mem_singleton, List.not_mem_nil, or_false] at hb
  norm_num at hn ⊢
  rcases hb with rfl | rfl | rfl | rfl
  · constructor
    · intro h; omega
    · intro h; omega
  · constructor
    · intro h; omega
    · intro h; omega
  · constructor
    · intro h; omega
    · intro h; omega
  · constructor
    · intro h; omega
    · intro h; omega


/-- The digit loop of `ParseUint` against the value of the digits: it returns
the value when every character is a digit of the base or an underscore and the
value fits 64 bits, and a syntax or range error otherwise. -/
theorem loop_spec (base : Nat) (hb : base ∈ [2, 8, 10, 16]) (ds : List Char) :
    ∀ n us, n ≤ strconv.maxUint64 →
      (∀ v, digitsValue base ds n = some v → v ≤ strconv.maxUint64 →
        strconv.ParseUint.loop base ds n us = .ok (v, us || ds.contains '_')) ∧
      ((digitsValue base ds n = none ∨
          ∃ v, digitsValue base ds n = some v ∧ strconv.maxUint64 < v) →
        strconv.ParseUint.loop base ds n us = .error (0, .ErrSyntax) ∨
        strconv.ParseUint.loop base ds n us = .error (strconv.maxUint64, .ErrRange)) := by
  have hb1 : 1 ≤ base := by
    simp only [List.mem_cons, List.mem_singleton, List.not_mem_nil, or_false] at hb
    omega
  induction ds with
  | nil =>
    intro n us hn
    constructor
    · intro v hv _
      simp only [digitsValue, Option.some.injEq] at hv
      subst hv
      simp [strconv.ParseUint.loop]
    · rintro (h | ⟨v, hv, hlt⟩)
      · simp [digitsValue] at h
      · simp only [digitsValue, Option.some.injEq] at hv
        omega
  | cons c cs ih =>
    intro n us hn
    by_cases hc : c = '_'
    · subst hc
      have h1 : strconv.ParseUint.loop base ('_' :: cs) n us =
          strconv.ParseUint.loop base cs n true := by
        rw [strconv.ParseUint.loop]
        simp
      have h2 : digitsValue base ('_' :: cs) n = digitsValue base cs n := by
        rw [digitsValue]
        simp
      rw [h1, h2]
      obtain ⟨ih1, ih2⟩ := ih n true hn
      constructor
      · intro v hv hle
        rw [ih1 v hv hle]
        simp
      · exact ih2
    · have h2 : digitsValue base (c :: cs) n =
          match literalDigit base c with
          | none => none
          | some d => digitsValue base cs (n * base + d) := by
        rw [digitsValue, if_neg hc]
      rw [loop_cons base c cs n us hc, loopDigit_eq base hb c, h2]
      cases hd : literalDigit base c with
      | none =>
        simp
      | some d =>
        simp only
        have hdlt := literalDigit_lt base c d hd
        obtain ⟨ha1, ha2⟩ := loop_step_arith base hb n d hn hdlt
        by_cases hfit : n * base + d ≤ strconv.maxUint64
        · obtain ⟨hx1, hx2, hx3⟩ := ha1 hfit
          rw [if_neg hx1, if_neg hx2, hx3]
          obtain ⟨ih1, ih2⟩ := ih (n * base + d) us hfit
          constructor
          · intro v hv hle
            rw [ih1 v hv hle]
            have : (c :: cs).contains '_' = cs.contains '_' := by
              have hne : ('_' == c) = false := by
                simp only [beq_eq_false_iff_ne, ne_eq]
                exact fun e => hc e.symm
              rw [List.contains_cons, hne, Bool.false_or]
            rw [this]
          · exact ih2
        · have hover : strconv.maxUint64 < n * base + d := by omega
          have herr : (if n ≥ strconv.maxUint64 / base + 1 then
                (Except.error (strconv.maxUint64, strconv.NumError.ErrRange) :
                  Except (Nat × strconv.NumError) (Nat × Bool))
              else if (n * base % 2 ^ 64 + d) % 2 ^ 64 < n * base % 2 ^ 64 ∨
                  (n * base % 2 ^ 64 + d) % 2 ^ 64 > strconv.maxUint64 then
                .error (strconv.maxUint64, .ErrRange)
              else strconv.ParseUint.loop base cs ((n * base % 2 ^ 64 + d) % 2 ^ 64) us) =
              .error (strconv.maxUint64, .ErrRange) := by
            rcases ha2 hover with h | h
            · simp only [h, if_true]
            · by_cases h0 : n ≥ strconv.maxUint64 / base + 1
              · simp only [h0, if_true]
              · simp only [h0, if_false, h, if_true]
          rw [herr]
          constructor
          · intro v hv hle
            have := digitsValue_ge base cs _ v hv hb1
            omega
          · intro _
            exact Or.inr rfl


theorem scan_digit (hex : Bool) (c : Char) (cs : List Char) (saw : Char)
    (h : scanDigit hex c = true) :
    strconv.underscoreOK.scan hex (c :: cs) saw = strconv.underscoreOK.scan hex cs '0' := by
  unfold scanDigit at h
  rw [strconv.underscoreOK.scan]
  simp only [h, if_true]

theorem scan_underscore (hex : Bool) (cs : List Char) (saw : Char) :
    strconv.underscoreOK.scan hex ('_' :: cs) saw =
      if saw != '0' then false else strconv.underscoreOK.scan hex cs '_' := by
  have h0 : ((decide (48 ≤ ('_' : Char).toNat) && decide (('_' : Char).toNat ≤ 57)) ||
      (hex && decide (97 ≤ strconv.lower '_') && decide (strconv.lower '_' ≤ 102))) = false := by
    cases hex <;> decide
  rw [strconv.underscoreOK.scan]
  simp only [h0, if_true]
  rfl

/-- On digits and underscores the scan of `underscoreOK` accepts exactly the
texts whose underscores are followed by a digit and do not end the text. -/
theorem scan_groups (hex : Bool) (ds : List Char)
    (h : ∀ c ∈ ds, c = '_' ∨ scanDigit hex c = true) :
    strconv.underscoreOK.scan hex ds '0' =
      (strings.fields '_' ds).2.all (fun g => !g.isEmpty) ∧
    strconv.underscoreOK.scan hex ds '_' =
      (!(strings.fields '_' ds).1.isEmpty && (strings.fields '_' ds).2.all (fun g => !g.isEmpty)) := by
  induction ds with
  | nil => exact ⟨rfl, rfl⟩
  | cons c cs ih =>
    obtain ⟨ih1, ih2⟩ := ih (fun d hd => h d (by simp [hd]))
    by_cases hc : c = '_'
    · subst hc
      rw [scan_underscore, scan_underscore]
      simp only [strings.fields, if_true]
      constructor
      · simp [ih2]
      · simp
    · have hd : scanDigit hex c = true := by
        rcases h c (by simp) with h1 | h1
        · exact absurd h1 hc
        · exact h1
      rw [scan_digit hex c cs _ hd, scan_digit hex c cs _ hd]
      simp only [strings.fields, hc, if_false]
      constructor
      · exact ih1
      · simp [ih1]

set_option maxRecDepth 1000000 in
theorem hexLetter_small : ∀ n, n < 128 →
    (97 ≤ n ∧ n ≤ 102 ∨ 65 ≤ n ∧ n ≤ 70) → 97 ≤ n ||| 32 ∧ n ||| 32 ≤ 102 := by
  decide

theorem scanDigit_of_literalDigit (base : Nat) (c : Char) (d : Nat)
    (h : literalDigit base c = some d) :
    scanDigit (decide (base = 16)) c = true := by
  unfold literalDigit at h
  unfold scanDigit strconv.lower
  split_ifs at h with h1 h2 h3 h4
  · simp [h1.1, h1.2]
  · have := hexLetter_small c.toNat (by omega) (Or.inl h3.2)
    simp [h3.1, this.1, this.2]
  · have := hexLetter_small c.toNat (by omega) (Or.inr h4.2)
    simp [h4.1, this.1, this.2]

theorem digitsValue_chars (base : Nat) (ds : List Char) :
    ∀ n v, digitsValue base ds n = some v →
      ∀ c ∈ ds, c = '_' ∨ scanDigit (decide (base = 16)) c = true := by
  induction ds with
  | nil => intro n v _ c hc; simp at hc
  | cons a as ih =>
    intro n v h c hc
    rw [digitsValue] at h
    by_cases ha : a = '_'
    · rw [if_pos ha] at h
      rcases List.mem_cons.1 hc with rfl | h1
      · exact Or.inl ha
      · exact ih n v h c h1
    · rw [if_neg ha] at h
      cases hd : literalDigit base a with
      | none => simp [hd] at h
      | some d =>
        simp only [hd] at h
        rcases List.mem_cons.1 hc with rfl | h1
        · exact Or.inr (scanDigit_of_literalDigit base c d hd)
        · exact ih _ v h c h1


theorem groupsOk_of_not_mem (lead : Bool) (ds : List Char) (h : '_' ∉ ds)
    (hl : lead = true ∨ ds ≠ []) (sep : Bool) : groupsOk sep lead ds = true := by
  unfold groupsOk
  rw [fields_of_not_mem _ _ h]
  rcases hl with rfl | hne
  · cases sep <;> simp
  · cases ds with
    | nil => exact absurd rfl hne
    | cons c cs => cases sep <;> simp

/-- The tail of `ParseUint` against the literal notation, given that
`underscoreOK` agrees with the grouping of the digits. -/
theorem tail_spec (body : List Char) (base : Nat) (hb : base ∈ [2, 8, 10, 16]) (lead : Bool)
    (ds : List Char) (hl : lead = true ∨ ds ≠ [])
    (hu : ∀ v, digitsValue base ds 0 = some v → '_' ∈ ds →
      strconv.underscoreOK body = groupsOk true lead ds) :
    (∀ v, (if groupsOk true lead ds then digitsValue base ds 0 else none) = some v →
      v ≤ strconv.maxUint64 → parseUintTail body base ds = (v, none)) ∧
    (((if groupsOk true lead ds then digitsValue base ds 0 else none) = none ∨
        ∃ v, (if groupsOk true lead ds then digitsValue base ds 0 else none) = some v ∧
          strconv.maxUint64 < v) →
      parseUintTail body base ds = (0, some .ErrSyntax) ∨
      parseUintTail body base ds = (strconv.maxUint64, some .ErrRange)) := by
  obtain ⟨l1, l2⟩ := loop_spec base hb ds 0 false (Nat.zero_le _)
  unfold parseUintTail
  cases hdv : digitsValue base ds 0 with
  | none =>
    have herr := l2 (Or.inl hdv)
    constructor
    · intro v hv
      simp at hv
    · intro _
      rcases herr with h | h <;> rw [h]
      · exact Or.inl rfl
      · exact Or.inr rfl
  | some v =>
    by_cases hmax : v ≤ strconv.maxUint64
    · rw [l1 v hdv hmax]
      simp only [Bool.false_or]
      by_cases hcont : '_' ∈ ds
      · have hc1 : ds.contains '_' = true := by simpa using hcont
        rw [hc1, hu v hdv hcont]
        by_cases hg : groupsOk true lead ds = true
        · simp [hg]
          omega
        · simp [hg]
      · have hc1 : ds.contains '_' = false := by simpa using hcont
        rw [hc1, groupsOk_of_not_mem lead ds hcont hl true]
        simp
        omega
    · have hlt : strconv.maxUint64 < v := by omega
      have herr := l2 (Or.inr ⟨v, hdv, hlt⟩)
      constructor
      · intro w hw hle
        by_cases hg : groupsOk true lead ds = true
        · simp only [hg, if_true, Option.some.injEq] at hw
          omega
        · simp [hg] at hw
      · intro _
        rcases herr with h | h <;> rw [h]
        · exact Or.inl rfl
        · exact Or.inr rfl


set_option maxRecDepth 1000000 in
theorem lower_small : ∀ n, n < 128 →
    ((n ||| 32 = 98 ↔ n = 98 ∨ n = 66) ∧ (n ||| 32 = 111 ↔ n = 111 ∨ n = 79) ∧
      (n ||| 32 = 120 ↔ n = 120 ∨ n = 88)) := by
  decide

theorem char_eq_of_toNat (c : Char) (n : Nat) (h : c.toNat = n) : c = Char.ofNat n := by
  rw [← h, Char.ofNat_toNat]

/-- The base markers as `ParseUint` tests them and as the notation spells
them. -/
theorem lower_marker (c : Char) :
    (strconv.lower c = 98 ↔ c = 'b' ∨ c = 'B') ∧ (strconv.lower c = 111 ↔ c = 'o' ∨ c = 'O') ∧
      (strconv.lower c = 120 ↔ c = 'x' ∨ c = 'X') := by
  unfold strconv.lower
  have key : ∀ k, k < 128 → c.toNat ||| 32 = k → c.toNat < 128 := by
    intro k hk h
    exact lt_of_or_lt _ (by omega)
  refine ⟨⟨?_, ?_⟩, ⟨?_, ?_⟩, ⟨?_, ?_⟩⟩
  · intro h
    rcases ((lower_small _ (key 98 (by norm_num) h)).1).1 h with h1 | h1
    · exact Or.inl (char_eq_of_toNat c 98 h1)
    · exact Or.inr (char_eq_of_toNat c 66 h1)
  · rintro (rfl | rfl) <;> decide
  · intro h
    rcases ((lower_small _ (key 111 (by norm_num) h)).2.1).1 h with h1 | h1
    · exact Or.inl (char_eq_of_toNat c 111 h1)
    · exact Or.inr (char_eq_of_toNat c 79 h1)
  · rintro (rfl | rfl) <;> decide
  · intro h
    rcases ((lower_small _ (key 120 (by norm_num) h)).2.2).1 h with h1 | h1
    · exact Or.inl (char_eq_of_toNat c 120 h1)
    · exact Or.inr (char_eq_of_toNat c 88 h1)
  · rintro (rfl | rfl) <;> decide

theorem underscoreOK_marked (c1 : Char) (t : List Char)
    (h : strconv.lower c1 = 98 ∨ strconv.lower c1 = 111 ∨ strconv.lower c1 = 120) :
    strconv.underscoreOK ('0' :: c1 :: t) =
      strconv.underscoreOK.scan (decide (strconv.lower c1 = 120)) t '0' := by
  unfold strconv.underscoreOK
  have h0 : ¬ (('0' : Char) = '-' ∨ ('0' : Char) = '+') := by decide
  simp only [h0, if_false, h, and_true, if_true]

theorem underscoreOK_plain (c0 : Char) (rest : List Char) (h1 : c0 ≠ '-') (h2 : c0 ≠ '+')
    (h3 : c0 = '0' → ∀ c1 t, rest = c1 :: t →
      ¬ (strconv.lower c1 = 98 ∨ strconv.lower c1 = 111 ∨ strconv.lower c1 = 120)) :
    strconv.underscoreOK (c0 :: rest) = strconv.underscoreOK.scan false (c0 :: rest) '^' := by
  unfold strconv.underscoreOK
  have h0 : ¬ (c0 = '-' ∨ c0 = '+') := by
    rintro (h | h)
    · exact h1 h
    · exact h2 h
  simp only [h0, if_false]
  cases rest with
  | nil => rfl
  | cons c1 t =>
    simp only
    by_cases hz : c0 = '0'
    · have := h3 hz c1 t rfl
      simp [this]
    · simp [hz]


theorem groupsOk_lead (ds : List Char) :
    groupsOk true true ds = (strings.fields '_' ds).2.all (fun g => !g.isEmpty) := by
  simp [groupsOk]

theorem hu_octal (rest : List Char)
    (h3 : ∀ c1 t, rest = c1 :: t →
      ¬ (strconv.lower c1 = 98 ∨ strconv.lower c1 = 111 ∨ strconv.lower c1 = 120)) :
    ∀ v, digitsValue 8 rest 0 = some v → '_' ∈ rest →
      strconv.underscoreOK ('0' :: rest) = groupsOk true true rest := by
  intro v hv _
  have hch := digitsValue_chars 8 rest 0 v hv
  rw [underscoreOK_plain '0' rest (by decide) (by decide) (fun _ => h3),
    scan_digit false '0' rest '^' (by decide), groupsOk_lead]
  exact (scan_groups false rest hch).1

theorem hu_marked (c1 : Char) (t : List Char) (base : Nat)
    (hlet : strconv.lower c1 = 98 ∨ strconv.lower c1 = 111 ∨ strconv.lower c1 = 120)
    (hhex : decide (strconv.lower c1 = 120) = decide (base = 16)) :
    ∀ v, digitsValue base t 0 = some v → '_' ∈ t →
      strconv.underscoreOK ('0' :: c1 :: t) = groupsOk true true t := by
  intro v hv _
  have hch := digitsValue_chars base t 0 v hv
  rw [underscoreOK_marked c1 t hlet, groupsOk_lead, hhex]
  exact (scan_groups _ t hch).1

theorem hu_decimal (c0 : Char) (rest : List Char) (h0 : c0 ≠ '0') :
    ∀ v, digitsValue 10 (c0 :: rest) 0 = some v → '_' ∈ c0 :: rest →
      strconv.underscoreOK (c0 :: rest) = groupsOk true false (c0 :: rest) := by
  intro v hv _
  have hch := digitsValue_chars 10 (c0 :: rest) 0 v hv
  have hrest : ∀ c ∈ rest, c = '_' ∨ scanDigit false c = true :=
    fun c hc => hch c (by simp [hc])
  rcases hch c0 (by simp) with hc | hc
  · subst hc
    rw [underscoreOK_plain '_' rest (by decide) (by decide) (fun h => absurd h (by decide)),
      scan_underscore]
    simp [groupsOk, strings.fields]
  · have hd : 48 ≤ c0.toNat := by
      unfold scanDigit at hc
      simp at hc
      exact hc.1
    have hm : c0 ≠ '-' := by
      rintro rfl
      exact absurd hd (by decide)
    have hp : c0 ≠ '+' := by
      rintro rfl
      exact absurd hd (by decide)
    have hu : c0 ≠ '_' := by
      rintro rfl
      exact absurd hc (by decide)
    rw [underscoreOK_plain c0 rest hm hp (fun h => absurd h h0), scan_digit false c0 rest '^' hc]
    rw [(scan_groups false rest hrest).1]
    simp [groupsOk, strings.fields, hu]

/-- `ParseUint` against the notation of unsigned literals: the value when the
text is a literal that fits 64 bits, a syntax or range error otherwise. -/
theorem ParseUint_spec (body : List Char) :
    (∀ v, unsignedLiteral true body = some v → v ≤ strconv.maxUint64 →
      strconv.ParseUint (String.mk body) = (v, none)) ∧
    ((unsignedLiteral true body = none ∨
        ∃ v, unsignedLiteral true body = some v ∧ strconv.maxUint64 < v) →
      strconv.ParseUint (String.mk body) = (0, some .ErrSyntax) ∨
      strconv.ParseUint (String.mk body) = (strconv.maxUint64, some .ErrRange)) := by
  cases body with
  | nil =>
    constructor
    · intro v hv
      simp [unsignedLiteral, literalParts] at hv
    · intro _
      exact Or.inl rfl
  | cons c0 rest =>
    by_cases h0 : c0 = '0'
    · subst h0
      cases rest with
      | nil =>
        have hP : strconv.ParseUint (String.mk ['0']) = parseUintTail ['0'] 8 [] := rfl
        have hL : unsignedLiteral true ['0'] =
            if groupsOk true true [] then digitsValue 8 [] 0 else none := rfl
        rw [hP, hL]
        exact tail_spec _ 8 (by simp) true [] (Or.inl rfl) (fun v _ h => by simp at h)
      | cons c1 r =>
        obtain ⟨hb, ho, hx⟩ := lower_marker c1
        by_cases hlet : strconv.lower c1 = 98 ∨ strconv.lower c1 = 111 ∨ strconv.lower c1 = 120
        · cases r with
          | nil =>
            have hP : strconv.ParseUint (String.mk ['0', c1]) = parseUintTail ['0', c1] 8 [c1] :=
              rfl
            have hL : unsignedLiteral true ['0', c1] = none := by
              rcases hlet with h | h | h
              · rcases hb.1 h with rfl | rfl <;> rfl
              · rcases ho.1 h with rfl | rfl <;> rfl
              · rcases hx.1 h with rfl | rfl <;> rfl
            have hD : digitsValue 8 [c1] 0 = none := by
              rcases hlet with h | h | h
              · rcases hb.1 h with rfl | rfl <;> rfl
              · rcases ho.1 h with rfl | rfl <;> rfl
              · rcases hx.1 h with rfl | rfl <;> rfl
            rw [hP, hL]
            have := tail_spec ['0', c1] 8 (by simp) true [c1] (Or.inl rfl)
              (fun v h _ => by rw [hD] at h; simp at h)
            rw [hD] at this
            simpa using this
          | cons c2 r2 =>
            rcases hlet with h | h | h
            · have hP : strconv.ParseUint (String.mk ('0' :: c1 :: c2 :: r2)) =
                  parseUintTail ('0' :: c1 :: c2 :: r2) 2 (c2 :: r2) := by
                simp [strconv.ParseUint, parseUintTail, h]
              have hL : unsignedLiteral true ('0' :: c1 :: c2 :: r2) =
                  if groupsOk true true (c2 :: r2) then digitsValue 2 (c2 :: r2) 0 else none := by
                rcases hb.1 h with rfl | rfl <;> rfl
              rw [hP, hL]
              exact tail_spec _ 2 (by simp) true _ (Or.inl rfl)
                (hu_marked c1 _ 2 (Or.inl h) (by simp [h]))
            · have hP : strconv.ParseUint (String.mk ('0' :: c1 :: c2 :: r2)) =
                  parseUintTail ('0' :: c1 :: c2 :: r2) 8 (c2 :: r2) := by
                simp [strconv.ParseUint, parseUintTail, h]
              have hL : unsignedLiteral true ('0' :: c1 :: c2 :: r2) =
                  if groupsOk true true (c2 :: r2) then digitsValue 8 (c2 :: r2) 0 else none := by
                rcases ho.1 h with rfl | rfl <;> rfl
              rw [hP, hL]
              exact tail_spec _ 8 (by simp) true _ (Or.inl rfl)
                (hu_marked c1 _ 8 (Or.inr (Or.inl h)) (by simp [h]))
            · have hP : strconv.ParseUint (String.mk ('0' :: c1 :: c2 :: r2)) =
                  parseUintTail ('0' :: c1 :: c2 :: r2) 16 (c2 :: r2) := by
                simp [strconv.ParseUint, parseUintTail, h]
              have hL : unsignedLiteral true ('0' :: c1 :: c2 :: r2) =
                  if groupsOk true true (c2 :: r2) then digitsValue 16 (c2 :: r2) 0 else none := by
                rcases hx.1 h with rfl | rfl <;> rfl
              rw [hP, hL]
              exact tail_spec _ 16 (by simp) true _ (Or.inl rfl)
                (hu_marked c1 _ 16 (Or.inr (Or.inr h)) (by simp [h]))
        · have hn1 : ¬ strconv.lower c1 = 98 := fun h => hlet (Or.inl h)
          have hn2 : ¬ strconv.lower c1 = 111 := fun h => hlet (Or.inr (Or.inl h))
          have hn3 : ¬ strconv.lower c1 = 120 := fun h => hlet (Or.inr (Or.inr h))
          have hP : strconv.ParseUint (String.mk ('0' :: c1 :: r)) =
              parseUintTail ('0' :: c1 :: r) 8 (c1 :: r) := by
            cases r with
            | nil => rfl
            | cons c2 r2 =>
              simp [strconv.ParseUint, parseUintTail, hn1, hn2, hn3]
          have hL : unsignedLiteral true ('0' :: c1 :: r) =
              if groupsOk true true (c1 :: r) then digitsValue 8 (c1 :: r) 0 else none := by
            have e1 : ¬ (c1 = 'x' ∨ c1 = 'X') := fun h => hn3 (hx.2 h)
            have e2 : ¬ (c1 = 'o' ∨ c1 = 'O') := fun h => hn2 (ho.2 h)
            have e3 : ¬ (c1 = 'b' ∨ c1 = 'B') := fun h => hn1 (hb.2 h)
            simp [unsignedLiteral, literalParts, e1, e2, e3]
          rw [hP, hL]
          exact tail_spec _ 8 (by simp) true _ (Or.inl rfl)
            (hu_octal (c1 :: r) (fun d t e => by
              simp only [List.cons.injEq] at e
              rw [← e.1]
              exact hlet))
    · have hP : strconv.ParseUint (String.mk (c0 :: rest)) =
          parseUintTail (c0 :: rest) 10 (c0 :: rest) := by
        simp [strconv.ParseUint, parseUintTail, h0]
      have hL : unsignedLiteral true (c0 :: rest) =
          if groupsOk true false (c0 :: rest) then digitsValue 10 (c0 :: rest) 0 else none := by
        simp [unsignedLiteral, literalParts, h0]
      rw [hP, hL]
      exact tail_spec _ 10 (by simp) false _ (Or.inr (by simp)) (hu_decimal c0 rest h0)


theorem toInt64_neg_of_le (n : Nat) (h : n ≤ 9223372036854775808) :
    strconv.toInt64 (-(strconv.toInt64 (n : Int))) = -(n : Int) := by
  unfold strconv.toInt64
  norm_num
  omega

theorem parseIntPost_ok (neg : Bool) (v : Nat) :
    parseIntPost neg (v, none) =
      if neg then
        (if v ≤ 2 ^ 63 then (-(v : Int), none) else (-(2 ^ 63), some strconv.NumError.ErrRange))
      else (if v < 2 ^ 63 then ((v : Int), none) else (2 ^ 63 - 1, some strconv.NumError.ErrRange)) := by
  have h63 : (2 : Nat) ^ 63 = 9223372036854775808 := by norm_num
  unfold parseIntPost
  rw [h63]
  cases neg
  · by_cases h : v < 9223372036854775808
    · have h1 : ¬ (v ≥ 9223372036854775808) := by omega
      simp only [h, h1, if_true, if_false, Bool.not_false, Bool.false_eq_true, false_and,
        and_false, reduceCtorEq]
      rw [toInt64_of_lt v h]
    · have h1 : v ≥ 9223372036854775808 := by omega
      simp only [h, h1, if_true, if_false, Bool.not_false, and_self, reduceCtorEq]
  · by_cases h : v ≤ 9223372036854775808
    · have h1 : ¬ (v > 9223372036854775808) := by omega
      simp only [h, h1, if_true, if_false, Bool.not_true, Bool.false_eq_true, false_and,
        and_false, reduceCtorEq]
      rw [toInt64_neg_of_le v h]
    · have h1 : v > 9223372036854775808 := by omega
      simp only [h, h1, if_true, if_false, Bool.not_true, Bool.false_eq_true, false_and,
        and_self, reduceCtorEq]

theorem parseIntPost_syntax (neg : Bool) :
    (parseIntPost neg (0, some .ErrSyntax)).2 ≠ none := by
  unfold parseIntPost
  simp

theorem parseIntPost_range (neg : Bool) :
    (parseIntPost neg (strconv.maxUint64, some .ErrRange)).2 ≠ none := by
  cases neg <;> decide

theorem ParseInt_cons (s : String) (c0 : Char) (rest : List Char) (hs : s.data = c0 :: rest) :
    strconv.ParseInt s = parseIntPost (decide (c0 = '-'))
      (strconv.ParseUint (String.mk (if c0 = '+' ∨ c0 = '-' then rest else c0 :: rest))) := by
  unfold strconv.ParseInt parseIntPost
  simp only [hs]

/-- `ParseInt` against the literal notation: it returns the integer and no
error when the token is an integer literal that fits a signed 64-bit integer,
and an error otherwise. -/
theorem ParseInt_spec (s : String) :
    (∀ z, integerLiteral true s = some z → strconv.ParseInt s = (z, none)) ∧
    (integerLiteral true s = none → (strconv.ParseInt s).2 ≠ none) := by
  cases hs : s.data with
  | nil =>
    have h1 : integerLiteral true s = none := by
      simp [integerLiteral, hs, unsignedLiteral, literalParts]
    have h2 : strconv.ParseInt s = (0, some .ErrSyntax) := by
      simp [strconv.ParseInt, hs]
    rw [h1, h2]
    simp
  | cons c0 rest =>
    have hL : integerLiteral true s =
        match unsignedLiteral true (if c0 = '+' ∨ c0 = '-' then rest else c0 :: rest) with
        | none => none
        | some v =>
          if decide (c0 = '-') then (if v ≤ 2 ^ 63 then some (-(v : Int)) else none)
          else if v < 2 ^ 63 then some (v : Int) else none := by
      unfold integerLiteral
      simp only [hs, List.head?_cons, Option.some.injEq, List.tail_cons]
      have hbody : (if c0 = '-' ∨ c0 = '+' then rest else c0 :: rest) =
          (if c0 = '+' ∨ c0 = '-' then rest else c0 :: rest) := by
        by_cases h1 : c0 = '-' <;> by_cases h2 : c0 = '+' <;> simp [h1, h2]
      rw [hbody]
    rw [hL, ParseInt_cons s c0 rest hs]
    generalize (if c0 = '+' ∨ c0 = '-' then rest else c0 :: rest) = body
    generalize decide (c0 = '-') = neg
    obtain ⟨u1, u2⟩ := ParseUint_spec body
    have hmax : strconv.maxUint64 = 18446744073709551615 := by
      unfold strconv.maxUint64
      norm_num
    have h63 : (2 : Nat) ^ 63 = 9223372036854775808 := by norm_num
    cases hl : unsignedLiteral true body with
    | none =>
      simp only
      refine ⟨fun z hz => by simp at hz, fun _ => ?_⟩
      rcases u2 (Or.inl hl) with h | h <;> rw [h]
      · exact parseIntPost_syntax neg
      · exact parseIntPost_range neg
    | some v =>
      simp only
      by_cases hv : v ≤ strconv.maxUint64
      · rw [u1 v hl hv, parseIntPost_ok, h63]
        cases neg
        · by_cases hr : v < 9223372036854775808
          · simp [hr]
          · simp [hr]
        · by_cases hr : v ≤ 9223372036854775808
          · simp [hr]
          · simp [hr]
      · have hlt : strconv.maxUint64 < v := by omega
        have e1 : ¬ (v ≤ 9223372036854775808) := by rw [hmax] at hlt; omega
        have e2 : ¬ (v < 9223372036854775808) := by rw [hmax] at hlt; omega
        refine ⟨fun z hz => ?_, fun _ => ?_⟩
        · cases neg
          · simp at hz
            exact absurd hz.1 e2
          · simp at hz
            exact absurd hz.1 e1
        · rcases u2 (Or.inr ⟨v, hl, hlt⟩) with h | h <;> rw [h]
          · exact parseIntPost_syntax neg
          · exact parseIntPost_range neg

/-- `parseParam` gives the integer of a literal that fits a signed 64-bit
integer and the token itself for every other token. -/
theorem parseParam_spec (s : String) :
    parseParam s = match integerLiteral true s with
      | some z => .int z
      | none => .str s := by
  obtain ⟨h1, h2⟩ := ParseInt_spec s
  unfold parseParam
  cases hl : integerLiteral true s with
  | none =>
    have := h2 hl
    simp [this]
  | some z =>
    rw [h1 z hl]
    simp


theorem literalParts_subset (body : List Char) (base : Nat) (lead : Bool) (ds : List Char)
    (h : literalParts body = some (base, lead, ds)) : ∀ c ∈ ds, c ∈ body := by
  unfold literalParts at h
  cases body with
  | nil => simp at h
  | cons c0 rest =>
    simp only at h
    by_cases h0 : c0 = '0'
    · simp only [h0, if_true] at h
      cases rest with
      | nil =>
        simp only [Option.some.injEq, Prod.mk.injEq] at h
        intro c hc
        rw [← h.2.2] at hc
        simp at hc
      | cons c1 r =>
        simp only at h
        intro c hc
        split_ifs at h <;>
          simp only [Option.some.injEq, Prod.mk.injEq, reduceCtorEq] at h <;>
          (rw [← h.2.2] at hc; simp at hc ⊢; tauto)
    · simp only [h0, if_false, Option.some.injEq, Prod.mk.injEq] at h
      intro c hc
      rw [← h.2.2] at hc
      exact hc

theorem groupsOk_sep_irrelevant (lead : Bool) (ds : List Char) (h : '_' ∉ ds) :
    groupsOk false lead ds = groupsOk true lead ds := by
  unfold groupsOk
  rw [fields_of_not_mem _ _ h]
  simp

/-- Without underscores the notation with separators and the notation without
them denote the same. -/
theorem integerLiteral_sep_irrelevant (s : String) (h : '_' ∉ s.data) :
    integerLiteral false s = integerLiteral true s := by
  unfold integerLiteral
  have hb : '_' ∉ (if s.data.head? = some '-' ∨ s.data.head? = some '+' then s.data.tail
      else s.data) := by
    split_ifs
    · exact fun hm => h (List.mem_of_mem_tail hm)
    · exact h
  generalize (if s.data.head? = some '-' ∨ s.data.head? = some '+' then s.data.tail
      else s.data) = body at hb
  have hu : unsignedLiteral false body = unsignedLiteral true body := by
    unfold unsignedLiteral
    cases hp : literalParts body with
    | none => rfl
    | some t =>
      obtain ⟨base, lead, ds⟩ := t
      have hds : '_' ∉ ds := fun hm => hb (literalParts_subset body base lead ds hp _ hm)
      simp only [groupsOk_sep_irrelevant lead ds hds]
  simp only [hu]

/-- C11 (amended): for every operand token `s`, `parseParam` returns the integer
`n` when `s` is an integer literal denoting `n` in base-flexible notation
(optional sign; decimal, `0x` hexadecimal, `0o` or leading-zero octal, `0b`
binary; the digits may be separated by single underscores as in Go source
text) whose value fits a signed 64-bit integer, and returns `s` itself as a
string in every other case.  For a token without an underscore this is the
notation as the spec words it. -/
theorem parseParam_integer_literal (s : String) :
    (parseParam s = match integerLiteral true s with
      | some z => .int z
      | none => .str s) ∧
    ('_' ∉ s.data → integerLiteral true s = integerLiteral false s) :=
  ⟨parseParam_spec s, fun h => (integerLiteral_sep_irrelevant s h).symm⟩

/-- Witness for C11: the token `0x1F` is the integer 31. -/
theorem parseParam_integer_literal_witness :
    parseParam "0x1F" = .int 31 ∧ integerLiteral false "0x1F" = some 31 :=
  ⟨(parseParam_integer_literal "0x1F").1.trans rfl,
    ((parseParam_integer_literal "0x1F").2 (by decide)).symm.trans rfl⟩

/-- Counterexample for C11 as stated: the token `1_000` is no literal in the
notation the claim spells out (sign, base markers and digits), yet
`parseParam` returns the integer 1000 for it, not the string. -/
theorem parseParam_underscore_literal :
    integerLiteral false "1_000" = none ∧ parseParam "1_000" = .int 1000 :=
  ⟨rfl, rfl⟩

/-! ## String operands and the registration of blocks and of the program -/

/-- C12: for every textual line whose operation is the string-literal
operation and which holds at least two double quotes, `parseInstruction`
appends one instruction with exactly one parameter: the text strictly between
the first and the second double quote, kept verbatim as a string. -/
theorem parseInstruction_putstring (T : String → Option action) (p : bytecodeParser) (is : Ptr)
    (line lineNum : String) (rest : List String) (a b c : List Char)
    (htok : strings.Split line ' ' = lineNum :: bytecode.PutString :: rest)
    (hq : line.data = a ++ '"' :: (b ++ '"' :: c)) (ha : '"' ∉ a) (hb : '"' ∉ b) :
    parseInstruction T p is line =
      define p is (strconv.ParseInt lineNum).1 (T bytecode.PutString) [.str (String.mk b)] := by
  have hs : strings.Split line '"' =
      String.mk a :: String.mk b ::
        ((strings.fields '"' c).1 :: (strings.fields '"' c).2).map String.mk := by
    unfold strings.Split
    rw [hq, fields_append_sep _ _ _ ha, fields_append_sep _ _ _ hb]
    rfl
  unfold parseInstruction
  simp only [htok, hs, if_true]

/-- Witness for C12: the text between the first two double quotes is kept with
its inner space and is not read as a number. -/
theorem parseInstruction_putstring_witness :
    (parseInstruction sampleActions (newBytecodeParser "f").alloc.2 0
      "7 putstring \"12 34\" \"x\"").2.heap =
      [{ filename := "f", label := none, instructions :=
          [{ Line := 7, action := some { name := "putstring" }, Params := [.str "12 34"] }] }] :=
  (congrArg (fun r : Outcome Unit × bytecodeParser => r.2.heap)
    (parseInstruction_putstring sampleActions (newBytecodeParser "f").alloc.2 0
      "7 putstring \"12 34\" \"x\"" "7" ["\"12", "34\"", "\"x\""]
      "7 putstring ".data "12 34".data " \"x\"".data rfl rfl (by decide) (by decide))).trans rfl

/-- C14: `setLabel` with the program marker sets the program root to the
sequence and changes nothing else: the label table, the block table and the
store, and with it the label of the sequence, stay as they were. -/
theorem setLabel_program (p : bytecodeParser) (is : Ptr) :
    (setLabel p is bytecode.Program).1 = .returned () ∧
    (setLabel p is bytecode.Program).2.program = some is ∧
    (setLabel p is bytecode.Program).2.labelTable = p.labelTable ∧
    (setLabel p is bytecode.Program).2.blockTable = p.blockTable ∧
    (setLabel p is bytecode.Program).2.heap = p.heap ∧
    (setLabel p is bytecode.Program).2.filename = p.filename := by
  simp [setLabel]

theorem fields_snd_ne_nil (sep : Char) (cs : List Char) :
    (strings.fields sep cs).2 ≠ [] ↔ sep ∈ cs := by
  induction cs with
  | nil => simp [strings.fields]
  | cons c cs ih =>
    by_cases hc : c = sep
    · simp [strings.fields, hc]
    · have : ¬ (sep = c) := fun e => hc e.symm
      simp [strings.fields, hc, ih, this]

theorem Split_block (n : String) (hn : ':' ∉ n.data) :
    strings.Split (bytecode.Block ++ ":" ++ n) ':' = [bytecode.Block, n] := by
  unfold strings.Split
  have hd : (bytecode.Block ++ ":" ++ n).data = "Block".data ++ ':' :: n.data := by
    simp [String.data_append, bytecode.Block]
  rw [hd, fields_append_sep _ _ _ (by decide), fields_of_not_mem _ _ hn]
  rfl

theorem block_ne_program (n : String) : bytecode.Block ++ ":" ++ n ≠ bytecode.Program := by
  intro h
  have := congrArg String.data h
  simp [String.data_append, bytecode.Block, bytecode.Program] at this

/-- C13 (amended): for every decoder state, sequence and block name without a
`:`, `setLabel` with the token `Block:` followed by the name makes the block
table entry of the name the sequence, whatever it held before, so that a
second registration under the same name replaces the first; every other
block table entry, the whole label table and the program root stay as they
were. -/
theorem setLabel_block (p : bytecodeParser) (is is2 : Ptr) (n : String) (hn : ':' ∉ n.data) :
    (setLabel p is (bytecode.Block ++ ":" ++ n)).1 = .returned () ∧
    (setLabel p is (bytecode.Block ++ ":" ++ n)).2.blockTable n = some is ∧
    (∀ m, m ≠ n → (setLabel p is (bytecode.Block ++ ":" ++ n)).2.blockTable m = p.blockTable m) ∧
    (setLabel p is (bytecode.Block ++ ":" ++ n)).2.labelTable = p.labelTable ∧
    (setLabel p is (bytecode.Block ++ ":" ++ n)).2.program = p.program ∧
    (setLabel (setLabel p is (bytecode.Block ++ ":" ++ n)).2 is2
      (bytecode.Block ++ ":" ++ n)).2.blockTable n = some is2 := by
  have key : ∀ (q : bytecodeParser) (s : Ptr),
      setLabel q s (bytecode.Block ++ ":" ++ n) =
        (.returned (), { q with
          heap := modifyAt (fun x => { x with label := some ⟨bytecode.Block ++ ":" ++ n, bytecode.Block⟩ }) q.heap s
          blockTable := mapSet q.blockTable n (some s) }) := by
    intro q s
    unfold setLabel
    simp only [block_ne_program n, if_false, Split_block n hn, if_true]
  rw [key, key]
  refine ⟨rfl, by simp [mapSet], ?_, rfl, rfl, by simp [mapSet]⟩
  intro m hm
  simp [mapSet, hm]

/-- Witness for C13: two registrations under `Block:0` leave the later
sequence in the block table. -/
theorem setLabel_block_witness :
    (setLabel (setLabel (newBytecodeParser "f") 0 "Block:0").2 1 "Block:0").2.blockTable "0"
      = some 1 :=
  (setLabel_block (newBytecodeParser "f") 0 1 "0" (by decide)).2.2.2.2.2

/-- Counterexample for C13 as stated: for the block name `a:b` the token
`Block:a:b` fills the entry of `a` and leaves the entry of `a:b` empty. -/
theorem setLabel_block_colon_name :
    (setLabel (newBytecodeParser "f") 0 "Block:a:b").1 = .returned () ∧
    (setLabel (newBytecodeParser "f") 0 "Block:a:b").2.blockTable "a:b" = none ∧
    (setLabel (newBytecodeParser "f") 0 "Block:a:b").2.blockTable "a" = some 0 :=
  ⟨rfl, rfl, rfl⟩

/-! ## Malformed label tokens -/

/-- C16: on a decoder whose label table has the kinds `Def` and `DefClass` and
no other, as `newBytecodeParser` creates it, `setLabel` with a token other
than the program marker panics exactly when the token has no `:` or the text
before its first `:` is none of `Def`, `DefClass` and `Block`; for every other
token it returns and registers the sequence, in the block table for a block
and in the label table under its kind otherwise. -/
theorem setLabel_fails_iff (p : bytecodeParser) (is : Ptr) (name : String)
    (hk : ∀ k, p.labelTable k ≠ none ↔ (k = bytecode.LabelDef ∨ k = bytecode.LabelDefClass))
    (hname : name ≠ bytecode.Program) :
    ((∃ v, (setLabel p is name).1 = .panicked v) ↔
      (':' ∉ name.data ∨ ¬ (kindOf name = bytecode.LabelDef ∨
        kindOf name = bytecode.LabelDefClass ∨ kindOf name = bytecode.Block))) ∧
    ((':' ∈ name.data ∧ (kindOf name = bytecode.LabelDef ∨
        kindOf name = bytecode.LabelDefClass ∨ kindOf name = bytecode.Block)) →
      (setLabel p is name).1 = .returned () ∧
      ∃ n, labelKey name = some (kindOf name, n) ∧
        if kindOf name = bytecode.Block then (setLabel p is name).2.blockTable n = some is
        else is ∈ (setLabel p is name).2.labelEntry (kindOf name) n) := by
  have hsplit : strings.Split name ':' =
      kindOf name :: (strings.fields ':' name.data).2.map String.mk := rfl
  cases hr : (strings.fields ':' name.data).2 with
  | nil =>
    have hno : ':' ∉ name.data := by
      intro hm
      exact (fields_snd_ne_nil ':' name.data).2 hm hr
    have hp : setLabel p is name = (.panicked .indexOutOfRange, p) := by
      unfold setLabel
      simp [hname, hsplit, hr]
    rw [hp]
    refine ⟨⟨fun _ => Or.inl hno, fun _ => ⟨_, rfl⟩⟩, fun h => absurd h.1 hno⟩
  | cons g gs =>
    have hyes : ':' ∈ name.data := (fields_snd_ne_nil ':' name.data).1 (by rw [hr]; simp)
    have hkey : labelKey name = some (kindOf name, String.mk g) := by
      unfold labelKey
      simp [hname, hsplit, hr]
    by_cases hB : kindOf name = bytecode.Block
    · have hp : setLabel p is name = (.returned (),
          { p with
            heap := modifyAt (fun s => { s with label := some ⟨name, kindOf name⟩ }) p.heap is
            blockTable := mapSet p.blockTable (String.mk g) (some is) }) := by
        unfold setLabel
        simp [hname, hsplit, hr, hB]
      rw [hp]
      refine ⟨⟨fun h => ?_, fun h => ?_⟩, fun _ => ⟨rfl, String.mk g, hkey, ?_⟩⟩
      · obtain ⟨v, hv⟩ := h
        simp at hv
      · rcases h with h | h
        · exact absurd hyes h
        · exact absurd (Or.inr (Or.inr hB)) h
      · simp [hB, mapSet]
    · cases hm : p.labelTable (kindOf name) with
      | none =>
        have hp : (setLabel p is name).1 = .panicked .nilMapAssignment := by
          unfold setLabel
          simp [hname, hsplit, hr, hB, hm]
        have hbad : ¬ (kindOf name = bytecode.LabelDef ∨ kindOf name = bytecode.LabelDefClass) := by
          intro h
          exact (hk _).2 h hm
        refine ⟨⟨fun _ => Or.inr ?_, fun _ => ⟨_, hp⟩⟩, fun h => ?_⟩
        · rintro (h | h | h)
          · exact hbad (Or.inl h)
          · exact hbad (Or.inr h)
          · exact hB h
        · rcases h.2 with h | h | h
          · exact absurd (Or.inl h) hbad
          · exact absurd (Or.inr h) hbad
          · exact absurd h hB
      | some m =>
        have hgood : kindOf name = bytecode.LabelDef ∨ kindOf name = bytecode.LabelDefClass :=
          (hk _).1 (by rw [hm]; simp)
        have hret : setLabel p is name = (.returned (), (setLabel p is name).2) := by
          unfold setLabel
          simp [hname, hsplit, hr, hB, hm]
        have hent := (setLabel_returned p _ is name () hret).2.2.2 (kindOf name) (String.mk g) hB
        rw [hkey] at hent
        simp only [if_true] at hent
        refine ⟨⟨fun h => ?_, fun h => ?_⟩, fun _ => ⟨by rw [hret], String.mk g, hkey, ?_⟩⟩
        · obtain ⟨v, hv⟩ := h
          rw [hret] at hv
          simp at hv
        · rcases h with h | h
          · exact absurd hyes h
          · rcases hgood with h1 | h1
            · exact absurd (Or.inl h1) h
            · exact absurd (Or.inr (Or.inl h1)) h
        · simp only [hB, if_false]
          rw [hent]
          simp

theorem newBytecodeParser_keys (file : String) (k : String) :
    (newBytecodeParser file).labelTable k ≠ none ↔
      (k = bytecode.LabelDef ∨ k = bytecode.LabelDefClass) := by
  unfold newBytecodeParser mapSet
  simp only
  by_cases h1 : k = bytecode.LabelDefClass
  · simp [h1]
  · by_cases h2 : k = bytecode.LabelDef
    · simp [h1, h2]
    · simp [h1, h2]

/-- Witness for C16: on a new decoder the token `Def:foo` is registered, while
the token `Foo:bar` of an unknown kind panics. -/
theorem setLabel_fails_iff_witness :
    (0 ∈ (setLabel (newBytecodeParser "f") 0 "Def:foo").2.labelEntry "Def" "foo") ∧
    (∃ v, (setLabel (newBytecodeParser "f") 0 "Foo:bar").1 = .panicked v) :=
  ⟨by
    have h := (setLabel_fails_iff (newBytecodeParser "f") 0 "Def:foo"
      (newBytecodeParser_keys "f") (by decide)).2 ⟨by decide, Or.inl rfl⟩
    obtain ⟨n, hn, hreg⟩ := h.2
    have hn2 : n = "foo" := by
      have : labelKey "Def:foo" = some ("Def", "foo") := rfl
      rw [this] at hn
      simp only [Option.some.injEq, Prod.mk.injEq] at hn
      exact hn.2.symm
    subst hn2
    have hB : ¬ (kindOf "Def:foo" = bytecode.Block) := by decide
    simp only [hB, if_false] at hreg
    exact hreg,
   (setLabel_fails_iff (newBytecodeParser "f") 0 "Foo:bar"
      (newBytecodeParser_keys "f") (by decide)).1.2 (Or.inr (by decide))⟩

/-! ## Termination of the section decoder -/

/-- With a recursive call that ends on every shorter list, the loop of the
source ends and does what the section loop of the model does. -/
theorem sectionLoop_eq (T : String → Option action)
    (recur : bytecodeParser → List String → Option (Outcome Unit × bytecodeParser))
    (iss : List Ptr) (lines : List String) (is : Ptr)
    (hrec : ∀ q ls, ls.length < lines.length → recur q ls = some (parseBytecodeSection T q iss ls))
    (rem : List String) :
    ∀ (q : bytecodeParser) (count : Nat), lines.drop (count + 1) = rem →
      sectionLoop T recur lines is q count rem = some (parseBytecodeSection.loop T q is rem) := by
  induction rem with
  | nil => intro q count _; rfl
  | cons text more ih =>
    intro q count hdrop
    have hlen : (text :: more).length < lines.length := by
      have := congrArg List.length hdrop
      simp only [List.length_drop, List.length_cons] at this
      simp only [List.length_cons]
      omega
    rw [sectionLoop]
    by_cases hm : isMarker text = true
    · have hm1 : strings.HasPrefix (strings.TrimSpace text) "<" = true := hm
      simp only [hm1, if_true]
      rw [hdrop, hrec q (text :: more) hlen, loop_marker T q is iss text more hm]
      rcases parseBytecodeSection T q iss (text :: more) with ⟨_ | v, p1⟩ <;> rfl
    · have hm0 : isMarker text = false := by simpa using hm
      have hm1 : strings.HasPrefix (strings.TrimSpace text) "<" = false := hm0
      simp only [hm1]
      rw [loop_plain T q is text more hm0]
      have hnext : lines.drop (count + 1 + 1) = more := by
        rw [← List.drop_drop, hdrop]
        rfl
      rcases parseInstruction T q is (strings.TrimSpace text) with ⟨_ | v, p1⟩
      · simp only [Bool.false_eq_true, if_false]
        exact ih p1 (count + 1) hnext
      · simp

/-- C17: for every list of lines `parseBytecodeSection` ends, by returning or
by a panic: written with its recursive call as in the source and run with a
bound on the depth of the recursion, it ends for every bound above the number
of lines, with the outcome and state of the model.  The recursive call on a
marker line receives the lines from the marker line on, a list strictly
shorter than the one the caller received. -/
theorem parseBytecodeSection_terminates (T : String → Option action) :
    ∀ (fuel : Nat) (lines : List String) (p : bytecodeParser) (iss : List Ptr),
      lines.length < fuel →
      parseBytecodeSectionFuel T fuel p iss lines = some (parseBytecodeSection T p iss lines) ∧
      ∀ first pre text more, lines = first :: (pre ++ text :: more) →
        lines.drop (pre.length + 1) = text :: more ∧ (text :: more).length < lines.length := by
  intro fuel
  induction fuel with
  | zero => intro lines p iss h; omega
  | succ fuel ih =>
    intro lines p iss hlen
    constructor
    · unfold parseBytecodeSectionFuel parseBytecodeSection
      cases lines with
      | nil => rfl
      | cons first rest =>
        simp only
        rcases parseBytecodeLabel p.alloc.2 p.alloc.1 first with ⟨_ | v, p1⟩
        · simp only
          have hrec : ∀ q ls, ls.length < (first :: rest).length →
              parseBytecodeSectionFuel T fuel q iss ls = some (parseBytecodeSection T q iss ls) := by
            intro q ls hls
            exact (ih ls q iss (by omega)).1
          rw [sectionLoop_eq T (fun q ls => parseBytecodeSectionFuel T fuel q iss ls) iss
            (first :: rest) p.alloc.1 hrec rest p1 0 rfl]
          rcases parseBytecodeSection.loop T p1 p.alloc.1 rest with ⟨_ | v, p2⟩ <;> rfl
        · rfl
    · intro first pre text more hl
      subst hl
      constructor
      · simp
      · simp
        omega

/-- Witness for C17: three lines with a nested marker end within four levels
of the recursion. -/
theorem parseBytecodeSection_terminates_witness :
    parseBytecodeSectionFuel sampleActions 4 (newBytecodeParser "f") []
        ["<Program>", "1 leave", "<Def:foo>"] =
      some (parseBytecodeSection sampleActions (newBytecodeParser "f") []
        ["<Program>", "1 leave", "<Def:foo>"]) :=
  (parseBytecodeSection_terminates sampleActions 4 ["<Program>", "1 leave", "<Def:foo>"]
    (newBytecodeParser "f") [] (by decide)).1

/-! ## Agreement of the two decode paths -/

theorem joinWith_data_cons (sep : Char) (t u : String) (ts : List String) :
    (joinWith sep (t :: u :: ts)).data = t.data ++ sep :: (joinWith sep (u :: ts)).data := by
  rw [joinWith]
  simp [String.data_append]

/-- Splitting a joined list at the separator gives the list back, when no text
of the list holds the separator. -/
theorem Split_joinWith (sep : Char) (ts : List String) (hne : ts ≠ [])
    (h : ∀ t ∈ ts, sep ∉ t.data) : strings.Split (joinWith sep ts) sep = ts := by
  induction ts with
  | nil => exact absurd rfl hne
  | cons t ts ih =>
    cases ts with
    | nil =>
      unfold strings.Split
      rw [joinWith, fields_of_not_mem _ _ (h t (by simp))]
      rfl
    | cons u us =>
      have ih1 := ih (by simp) (fun x hx => h x (by simp [hx]))
      unfold strings.Split at ih1 ⊢
      rw [joinWith_data_cons, fields_append_sep _ _ _ (h t (by simp))]
      simp only [List.map_cons] at ih1 ⊢
      rw [ih1]

/-- C18: the two decode paths agree on ordinary instructions.  For a line
number written as a decimal literal that fits the 64-bit `int` of the record,
an operation of the action table other than the string-literal operation and
the three control transfers, and operand tokens that are not empty and hold
no space, `parseInstruction` on the tokens joined by single spaces does what
`convertInstruction` does on the record with that line, operation and
operands.  Operation names are taken to hold no space, as the space-delimited
line format presupposes. -/
theorem paths_agree (T : String → Option action) (p : bytecodeParser) (is : Ptr)
    (n op : String) (ps : List String) (anchor : Except String Int)
    (hn : isDecimalLiteral n = true) (hv : decimalValue n < 2 ^ 63)
    (hop : ' ' ∉ op.data) (hT : T op ≠ none)
    (h1 : op ≠ bytecode.PutString) (h2 : op ≠ bytecode.BranchIf)
    (h3 : op ≠ bytecode.BranchUnless) (h4 : op ≠ bytecode.Jump)
    (hps : ∀ t ∈ ps, t ≠ "" ∧ ' ' ∉ t.data) :
    parseInstruction T p is (joinWith ' ' (n :: op :: ps)) =
      convertInstruction T p is
        { Action := op, Params := ps, line := decimalValue n, anchorLine := anchor } := by
  have hs : strings.Split (joinWith ' ' (n :: op :: ps)) ' ' = n :: op :: ps := by
    apply Split_joinWith _ _ (by simp)
    intro t ht
    rcases List.mem_cons.1 ht with rfl | ht1
    · exact space_not_mem_decimal _ hn
    · rcases List.mem_cons.1 ht1 with rfl | ht2
      · exact hop
      · exact (hps t ht2).2
  have hline : (strconv.ParseInt n).1 = (decimalValue n : Int) := by
    rw [ParseInt_decimal n hn hv]
  have hc : convertInstruction T p is
      { Action := op, Params := ps, line := decimalValue n, anchorLine := anchor } =
      define p is (decimalValue n) (T op) (ps.map parseParam) := by
    unfold convertInstruction
    simp [hT, h1, h2, h3, h4]
  rw [hc]
  unfold parseInstruction
  simp only [hs, h1, if_false, hline]
  cases ps with
  | nil => simp [hT]
  | cons t ts => simp

/-- Witness for C18: the line `3 leave foo 1` and its record give the same
instruction. -/
theorem paths_agree_witness :
    parseInstruction sampleActions (newBytecodeParser "f").alloc.2 0
        (joinWith ' ' ["3", "leave", "foo", "1"]) =
      convertInstruction sampleActions (newBytecodeParser "f").alloc.2 0
        { Action := "leave", Params := ["foo", "1"], line := decimalValue "3",
          anchorLine := .error "" } :=
  paths_agree sampleActions _ 0 "3" "leave" ["foo", "1"] (.error "") rfl (by decide) (by decide)
    (by decide) (by decide) (by decide) (by decide) (by decide) (by decide)

/-! ## No panic on well-formed textual input -/

theorem dropWhile_of_head (f : Char → Bool) (cs : List Char)
    (h : ∀ c, cs.head? = some c → f c = false) : cs.dropWhile f = cs := by
  cases cs with
  | nil => rfl
  | cons c t => simp [List.dropWhile, h c rfl]

theorem trimChars_eq_self (f : Char → Bool) (cs : List Char)
    (h1 : ∀ c, cs.head? = some c → f c = false)
    (h2 : ∀ c, cs.getLast? = some c → f c = false) : strings.trimChars f cs = cs := by
  unfold strings.trimChars
  rw [dropWhile_of_head f cs h1, dropWhile_of_head f cs.reverse (by
    intro c hc
    rw [List.head?_reverse] at hc
    exact h2 c hc)]
  simp

theorem TrimSpace_eq_self (l : String) (h : noOuterSpace l = true) : strings.TrimSpace l = l := by
  unfold noOuterSpace at h
  simp only [Bool.and_eq_true] at h
  unfold strings.TrimSpace
  rw [trimChars_eq_self]
  · intro c hc
    have := h.1
    rw [hc] at this
    simpa using this
  · intro c hc
    have := h.2
    rw [hc] at this
    simpa using this

theorem dropWhile_append_stop (f : Char → Bool) (x : List Char) (c : Char) (y : List Char)
    (hc : f c = false) : (x ++ c :: y).dropWhile f = x.dropWhile f ++ c :: y := by
  induction x with
  | nil => simp [List.dropWhile, hc]
  | cons a t ih =>
    by_cases ha : f a = true
    · simp [List.dropWhile, ha, ih]
    · simp [List.dropWhile, ha]

/-- Trimming a cutset from a text that starts with a character outside the
cutset keeps everything up to any later character outside the cutset. -/
theorem trimChars_keep (f : Char → Bool) (a0 : Char) (a : List Char) (c : Char) (b : List Char)
    (h0 : f a0 = false) (hc : f c = false) :
    ∃ b1, strings.trimChars f (a0 :: a ++ c :: b) = a0 :: a ++ c :: b1 := by
  unfold strings.trimChars
  have h1 : (a0 :: a ++ c :: b).dropWhile f = a0 :: a ++ c :: b := by
    simp [List.dropWhile, h0]
  rw [h1]
  have h2 : (a0 :: a ++ c :: b).reverse = b.reverse ++ c :: (a0 :: a).reverse := by simp
  rw [h2, dropWhile_append_stop f _ c _ hc]
  exact ⟨(b.reverse.dropWhile f).reverse, by simp⟩

/-- The label token of a line `<kind:name>` starts with the kind and a `:`. -/
theorem labelToken_kind (k0 : Char) (k : List Char) (name : String)
    (hk1 : k0 ≠ '<') (hk2 : k0 ≠ '>') :
    ∃ nm, (labelToken ("<" ++ String.mk (k0 :: k) ++ ":" ++ name ++ ">")).data =
      k0 :: k ++ ':' :: nm := by
  have hd : ("<" ++ String.mk (k0 :: k) ++ ":" ++ name ++ ">").data =
      '<' :: (k0 :: k ++ ':' :: (name.data ++ ['>'])) := by
    simp [String.data_append]
  unfold labelToken strings.Trim
  have h1 : strings.trimChars (fun c => c == '<') ('<' :: (k0 :: k ++ ':' :: (name.data ++ ['>'])))
      = k0 :: k ++ ':' :: (name.data ++ ['>']) := by
    unfold strings.trimChars
    have e1 : ('<' :: (k0 :: k ++ ':' :: (name.data ++ ['>']))).dropWhile (fun c => c == '<') =
        k0 :: k ++ ':' :: (name.data ++ ['>']) := by
      have hb : (k0 == '<') = false := by simpa using hk1
      simp [List.dropWhile, hb]
    rw [e1]
    have e2 : (k0 :: k ++ ':' :: (name.data ++ ['>'])).reverse =
        [] ++ '>' :: (k0 :: k ++ ':' :: name.data).reverse := by simp
    rw [e2, dropWhile_append_stop _ _ '>' _ (by decide)]
    simp
  rw [hd, h1]
  simp only
  exact trimChars_keep (fun c => c == '>') k0 k ':' _ (by simpa using hk2) (by decide)


theorem setLabel_keys (p : bytecodeParser) (is : Ptr) (name k : String) :
    (setLabel p is name).2.labelTable k ≠ none ↔ p.labelTable k ≠ none := by
  unfold setLabel
  by_cases hP : name = bytecode.Program
  · simp [hP]
  · simp only [hP, if_false]
    rcases strings.Split name ':' with _ | ⟨lt, _ | ⟨ln, more⟩⟩
    · simp
    · simp
    · simp only
      by_cases hB : lt = bytecode.Block
      · simp [hB]
      · simp only [hB, if_false]
        cases hm : p.labelTable lt with
        | none => simp
        | some m =>
          simp only [mapSet]
          by_cases hk : k = lt
          · simp [hk, hm]
          · simp [hk]

/-- On a decoder whose label table has the kinds `Def` and `DefClass` and no
other, `setLabel` returns for a token with a `:` whose kind is one of `Def`,
`DefClass` and `Block`. -/
theorem setLabel_returns_of_kind (p : bytecodeParser) (is : Ptr) (name : String)
    (hk : ∀ k, p.labelTable k ≠ none ↔ (k = bytecode.LabelDef ∨ k = bytecode.LabelDefClass))
    (hname : name ≠ bytecode.Program) (hc : ':' ∈ name.data)
    (hkind : kindOf name = bytecode.LabelDef ∨ kindOf name = bytecode.LabelDefClass ∨
      kindOf name = bytecode.Block) :
    (setLabel p is name).1 = .returned () := by
  have hsplit : strings.Split name ':' =
      kindOf name :: (strings.fields ':' name.data).2.map String.mk := rfl
  cases hr : (strings.fields ':' name.data).2 with
  | nil => exact absurd hr ((fields_snd_ne_nil ':' name.data).2 hc)
  | cons g gs =>
    by_cases hB : kindOf name = bytecode.Block
    · unfold setLabel
      simp [hname, hsplit, hr, hB]
    · cases hm : p.labelTable (kindOf name) with
      | none =>
        exfalso
        have hgood : kindOf name = bytecode.LabelDef ∨ kindOf name = bytecode.LabelDefClass := by
          rcases hkind with h | h | h
          · exact Or.inl h
          · exact Or.inr h
          · exact absurd h hB
        exact (hk _).2 hgood hm
      | some m =>
        unfold setLabel
        simp [hname, hsplit, hr, hB, hm]

/-- A well-formed marker line is registered without a panic. -/
theorem marker_ok (p : bytecodeParser) (is : Ptr) (l : String) (hl : wellFormedMarker l)
    (hk : ∀ k, p.labelTable k ≠ none ↔ (k = bytecode.LabelDef ∨ k = bytecode.LabelDefClass)) :
    (parseBytecodeLabel p is l).1 = .returned () := by
  unfold parseBytecodeLabel
  rcases hl with rfl | ⟨kind, name, hkind, rfl⟩
  · show (setLabel p is bytecode.Program).1 = .returned ()
    simp [setLabel]
  · have key : ∀ (k0 : Char) (ks : List Char), k0 ≠ '<' → k0 ≠ '>' → k0 ≠ 'P' → ':' ∉ k0 :: ks →
        (String.mk (k0 :: ks) = bytecode.LabelDef ∨ String.mk (k0 :: ks) = bytecode.LabelDefClass ∨
          String.mk (k0 :: ks) = bytecode.Block) →
        (setLabel p is (strings.Trim (strings.Trim
          ("<" ++ String.mk (k0 :: ks) ++ ":" ++ name ++ ">") '<') '>')).1 = .returned () := by
      intro k0 ks h1 h2 h3 h4 h5
      obtain ⟨nm, hnm⟩ := labelToken_kind k0 ks name h1 h2
      have hnm1 : (strings.Trim (strings.Trim
          ("<" ++ String.mk (k0 :: ks) ++ ":" ++ name ++ ">") '<') '>').data =
          k0 :: ks ++ ':' :: nm := hnm
      generalize strings.Trim (strings.Trim
          ("<" ++ String.mk (k0 :: ks) ++ ":" ++ name ++ ">") '<') '>' = t at hnm1
      have hne : t ≠ bytecode.Program := by
        intro e
        rw [e] at hnm1
        have : ('P' : Char) = k0 := by
          have h := congrArg List.head? hnm1
          simpa [bytecode.Program] using h
        exact h3 this.symm
      have hkind1 : kindOf t = String.mk (k0 :: ks) := by
        unfold kindOf
        rw [hnm1, fields_append_sep _ _ _ h4]
      have hcolon : ':' ∈ t.data := by
        rw [hnm1]
        simp
      refine setLabel_returns_of_kind p is t hk hne hcolon ?_
      rw [hkind1]
      exact h5
    rcases hkind with rfl | rfl | rfl
    · exact key 'D' ['e', 'f'] (by decide) (by decide) (by decide) (by decide) (Or.inl rfl)
    · exact key 'D' ['e', 'f', 'C', 'l', 'a', 's', 's'] (by decide) (by decide) (by decide)
        (by decide) (Or.inr (Or.inl rfl))
    · exact key 'B' ['l', 'o', 'c', 'k'] (by decide) (by decide) (by decide) (by decide)
        (Or.inr (Or.inr rfl))

/-- A well-formed instruction line is decoded without a panic. -/
theorem instruction_ok (T : String → Option action) (p : bytecodeParser) (is : Ptr) (l : String)
    (hl : wellFormedInstruction T l) : (parseInstruction T p is l).1 = .returned () := by
  obtain ⟨lineNum, act, rest, hs, hT, hq⟩ := hl
  unfold parseInstruction
  simp only [hs]
  by_cases hact : act = bytecode.PutString
  · simp only [hact, if_true]
    have hne := (fields_snd_ne_nil '"' l.data).2 (hq hact)
    have hsplit : strings.Split l '"' =
        String.mk (strings.fields '"' l.data).1 :: (strings.fields '"' l.data).2.map String.mk := rfl
    rw [hsplit]
    cases hr : (strings.fields '"' l.data).2 with
    | nil => exact absurd hr hne
    | cons g gs => simp [define]
  · simp only [hact, if_false]
    by_cases hlen : (lineNum :: act :: rest).length > 2
    · simp only [hlen, if_true, define]
    · simp only [hlen, if_false, hT, define]


/-- The section loop does not panic on well-formed lines. -/
theorem loop_ok (T : String → Option action) (rest : List String) :
    ∀ (p : bytecodeParser) (is : Ptr),
      (∀ k, p.labelTable k ≠ none ↔ (k = bytecode.LabelDef ∨ k = bytecode.LabelDefClass)) →
      (∀ l ∈ rest, noOuterSpace l = true ∧
        (strings.HasPrefix l "<" = true → wellFormedMarker l) ∧
        (strings.HasPrefix l "<" = false → wellFormedInstruction T l)) →
      (parseBytecodeSection.loop T p is rest).1 = .returned () := by
  induction rest with
  | nil => intro p is _ _; rfl
  | cons text more ih =>
    intro p is hk hl
    obtain ⟨hsp, hmk, hin⟩ := hl text (by simp)
    have hmore : ∀ l ∈ more, noOuterSpace l = true ∧
        (strings.HasPrefix l "<" = true → wellFormedMarker l) ∧
        (strings.HasPrefix l "<" = false → wellFormedInstruction T l) :=
      fun l h => hl l (by simp [h])
    have htrim := TrimSpace_eq_self text hsp
    by_cases hm : strings.HasPrefix text "<" = true
    · have hmark : isMarker text = true := by
        unfold isMarker
        rw [htrim]
        exact hm
      rw [loop_marker T p is [] text more hmark]
      unfold parseBytecodeSection
      simp only
      have hka : ∀ k, p.alloc.2.labelTable k ≠ none ↔
          (k = bytecode.LabelDef ∨ k = bytecode.LabelDefClass) := hk
      have h1 := marker_ok p.alloc.2 p.alloc.1 text (hmk hm) hka
      have hk1 : ∀ k, (parseBytecodeLabel p.alloc.2 p.alloc.1 text).2.labelTable k ≠ none ↔
          (k = bytecode.LabelDef ∨ k = bytecode.LabelDefClass) := by
        intro k
        unfold parseBytecodeLabel
        rw [setLabel_keys]
        exact hka k
      rcases hr : parseBytecodeLabel p.alloc.2 p.alloc.1 text with ⟨_ | v, p1⟩
      · rw [hr] at hk1
        have h2 := ih p1 p.alloc.1 hk1 hmore
        simp only
        rcases hr2 : parseBytecodeSection.loop T p1 p.alloc.1 more with ⟨_ | v, p2⟩
        · rfl
        · rw [hr2] at h2
          simp at h2
      · rw [hr] at h1
        simp at h1
    · have hm0 : strings.HasPrefix text "<" = false := by simpa using hm
      have hplain : isMarker text = false := by
        unfold isMarker
        rw [htrim]
        exact hm0
      rw [loop_plain T p is text more hplain, htrim]
      have h1 := instruction_ok T p is text (hin hm0)
      rcases hr : parseInstruction T p is text with ⟨_ | v, p1⟩
      · simp only
        obtain ⟨_, _, hlt, _⟩ := parseInstruction_returned T p p1 is text _ hr
        exact ih p1 is (by rw [hlt]; exact hk) hmore
      · rw [hr] at h1
        simp at h1

theorem head?_joinWith (sep : Char) (t : String) (ts : List String) (ht : t.data ≠ []) :
    (joinWith sep (t :: ts)).data.head? = t.data.head? := by
  cases ts with
  | nil => rfl
  | cons u us =>
    rw [joinWith_data_cons]
    cases hd : t.data with
    | nil => exact absurd hd ht
    | cons c cs => rfl

theorem getLast?_joinWith (sep : Char) (ts : List String) (hne : ts ≠ [])
    (h : ∀ t ∈ ts, t.data ≠ []) :
    (joinWith sep ts).data ≠ [] ∧
    (joinWith sep ts).data.getLast? = (ts.getLast hne).data.getLast? := by
  induction ts with
  | nil => exact absurd rfl hne
  | cons t ts ih =>
    cases ts with
    | nil => exact ⟨h t (by simp), rfl⟩
    | cons u us =>
      obtain ⟨ih1, ih2⟩ := ih (by simp) (fun x hx => h x (by simp [hx]))
      rw [joinWith_data_cons]
      constructor
      · simp
      · rw [List.getLast?_append_of_ne_nil _ (by simp)]
        have hJ : (sep :: (joinWith sep (u :: us)).data).getLast? =
            (joinWith sep (u :: us)).data.getLast? := by
          cases hd : (joinWith sep (u :: us)).data with
          | nil => exact absurd hd ih1
          | cons c cs => rw [List.getLast?_cons_cons]
        rw [hJ, ih2]
        simp [List.getLast_cons]

theorem noOuterSpace_joinWith (sep : Char) (ts : List String) (hne : ts ≠ [])
    (h : ∀ t ∈ ts, noOuterSpace t = true ∧ t.data ≠ []) :
    noOuterSpace (joinWith sep ts) = true := by
  cases ts with
  | nil => exact absurd rfl hne
  | cons t rest =>
    obtain ⟨_, hlast⟩ := getLast?_joinWith sep (t :: rest) hne (fun x hx => (h x hx).2)
    have hfirst := head?_joinWith sep t rest (h t (by simp)).2
    have h1 := (h t (by simp)).1
    have h2 := (h ((t :: rest).getLast hne) (List.getLast_mem hne)).1
    unfold noOuterSpace at h1 h2 ⊢
    simp only [Bool.and_eq_true] at h1 h2 ⊢
    rw [hfirst, hlast]
    exact ⟨h1.1, h2.2⟩

theorem wellFormedMarker_ne_empty (l : String) (h : wellFormedMarker l) : l.data ≠ [] := by
  rcases h with rfl | ⟨kind, name, _, rfl⟩
  · decide
  · simp [String.data_append]

theorem wellFormedInstruction_ne_empty (T : String → Option action) (l : String)
    (h : wellFormedInstruction T l) : l.data ≠ [] := by
  obtain ⟨lineNum, act, rest, hs, _, _⟩ := h
  intro he
  unfold strings.Split at hs
  rw [he] at hs
  simp [strings.fields] at hs

/-- C19: `parseBytecode` never panics on well-formed input.  The input is a
list of lines joined by line feeds; no line has whitespace at either end; the
first line is a well-formed marker line; every later line that starts with
`<` is a well-formed marker line and every other later line is a well-formed
instruction line.  Then `parseBytecode` on a new decoder returns normally. -/
theorem parseBytecode_well_formed (T : String → Option action) (E : PanicValue → Bool)
    (file first : String) (rest : List String)
    (hnl : ∀ l ∈ first :: rest, '\n' ∉ l.data)
    (hsp : ∀ l ∈ first :: rest, noOuterSpace l = true)
    (hfirst : wellFormedMarker first)
    (hrest : ∀ l ∈ rest, (strings.HasPrefix l "<" = true → wellFormedMarker l) ∧
      (strings.HasPrefix l "<" = false → wellFormedInstruction T l)) :
    (parseBytecode T E (newBytecodeParser file) (joinWith '\n' (first :: rest))).1 =
      .returned (some []) := by
  have hne : ∀ l ∈ first :: rest, l.data ≠ [] := by
    intro l hl
    rcases List.mem_cons.1 hl with rfl | h1
    · exact wellFormedMarker_ne_empty _ hfirst
    · by_cases hm : strings.HasPrefix l "<" = true
      · exact wellFormedMarker_ne_empty _ ((hrest l h1).1 hm)
      · exact wellFormedInstruction_ne_empty T _ ((hrest l h1).2 (by simpa using hm))
  have htrim : strings.TrimSpace (joinWith '\n' (first :: rest)) = joinWith '\n' (first :: rest) :=
    TrimSpace_eq_self _ (noOuterSpace_joinWith '\n' _ (by simp)
      (fun t ht => ⟨hsp t ht, hne t ht⟩))
  have hlines : strings.Split (strings.TrimSpace (joinWith '\n' (first :: rest))) '\n' =
      first :: rest := by
    rw [htrim]
    exact Split_joinWith '\n' _ (by simp) hnl
  have hk0 : ∀ k, (newBytecodeParser file).alloc.2.labelTable k ≠ none ↔
      (k = bytecode.LabelDef ∨ k = bytecode.LabelDefClass) := newBytecodeParser_keys file
  have h1 := marker_ok (newBytecodeParser file).alloc.2 (newBytecodeParser file).alloc.1 first
    hfirst hk0
  have hk1 : ∀ k, (parseBytecodeLabel (newBytecodeParser file).alloc.2
      (newBytecodeParser file).alloc.1 first).2.labelTable k ≠ none ↔
      (k = bytecode.LabelDef ∨ k = bytecode.LabelDefClass) := by
    intro k
    unfold parseBytecodeLabel
    rw [setLabel_keys]
    exact hk0 k
  unfold parseBytecode
  simp only [hlines]
  unfold parseBytecodeSection
  simp only
  rcases hr : parseBytecodeLabel (newBytecodeParser file).alloc.2
      (newBytecodeParser file).alloc.1 first with ⟨_ | v, p1⟩
  · rw [hr] at hk1
    have h2 := loop_ok T rest p1 (newBytecodeParser file).alloc.1 hk1
      (fun l hl => ⟨hsp l (by simp [hl]), hrest l hl⟩)
    simp only
    rcases hr2 : parseBytecodeSection.loop T p1 (newBytecodeParser file).alloc.1 rest
      with ⟨_ | v, p2⟩
    · rfl
    · rw [hr2] at h2
      simp at h2
  · rw [hr] at h1
    simp at h1


/-- Witness for C19: a program section with a string literal and a method
section. -/
theorem parseBytecode_well_formed_witness :
    (parseBytecode sampleActions (fun _ => false) (newBytecodeParser "f")
      (joinWith '\n' ["<Program>", "1 putstring \"hi\"", "<Def:foo>", "2 leave"])).1 =
      .returned (some []) :=
  parseBytecode_well_formed sampleActions (fun _ => false) "f" "<Program>"
    ["1 putstring \"hi\"", "<Def:foo>", "2 leave"] (by decide) (by decide) (Or.inl rfl)
    (by
      intro l hl
      simp only [List.mem_cons, List.mem_singleton, List.not_mem_nil, or_false] at hl
      rcases hl with rfl | rfl | rfl
      · exact ⟨fun h => absurd h (by decide),
          fun _ => ⟨"1", "putstring", ["\"hi\""], rfl, by decide, fun _ => by decide⟩⟩
      · exact ⟨fun _ => Or.inr ⟨"Def", "foo", Or.inl rfl, rfl⟩, fun h => absurd h (by decide)⟩
      · exact ⟨fun h => absurd h (by decide),
          fun _ => ⟨"2", "leave", [], rfl, by decide, fun h => absurd h (by decide)⟩⟩)

/-! ## Labels of the stored sequences -/

/-- What a returning `setLabel` does to the two tables, for every key. -/
theorem setLabel_tables (p p1 : bytecodeParser) (is : Ptr) (name : String) (u : Unit)
    (h : setLabel p is name = (.returned u, p1)) :
    (∀ k n, p1.labelEntry k n =
      if labelKey name = some (k, n) ∧ k ≠ bytecode.Block then p.labelEntry k n ++ [is]
      else p.labelEntry k n) ∧
    (∀ n, p1.blockTable n =
      if labelKey name = some (bytecode.Block, n) then some is else p.blockTable n) ∧
    (name = bytecode.Program ∨ labelKey name ≠ none) := by
  have hold := (setLabel_returned p p1 is name u h).2.2.2
  unfold setLabel at h
  by_cases hP : name = bytecode.Program
  · simp only [hP, if_true, Prod.mk.injEq] at h
    obtain ⟨-, rfl⟩ := h
    have hk : labelKey bytecode.Program = none := by simp [labelKey]
    refine ⟨?_, ?_, Or.inl hP⟩
    · intro k n
      simp [hP, hk, bytecodeParser.labelEntry]
    · intro n
      simp [hP, hk]
  · simp only [hP, if_false] at h
    rcases hs : strings.Split name ':' with _ | ⟨lt, _ | ⟨ln, more⟩⟩
    · simp [hs] at h
    · simp [hs] at h
    · simp only [hs] at h
      have hk : labelKey name = some (lt, ln) := by simp [labelKey, hP, hs]
      refine ⟨?_, ?_, Or.inr (by rw [hk]; simp)⟩
      · intro k n
        by_cases hkB : k = bytecode.Block
        · subst hkB
          simp only [ne_eq, not_true_eq_false, and_false, if_false]
          by_cases hB : lt = bytecode.Block
          · simp only [hB, if_true, Prod.mk.injEq] at h
            obtain ⟨-, rfl⟩ := h
            rfl
          · simp only [hB, if_false] at h
            rcases hm : p.labelTable lt with _ | m
            · simp [hm] at h
            · simp only [hm, Prod.mk.injEq] at h
              obtain ⟨-, rfl⟩ := h
              have : ¬ (bytecode.Block = lt) := fun e => hB e.symm
              simp [bytecodeParser.labelEntry, mapSet, this]
        · rw [hold k n hkB]
          simp [hkB]
      · intro n
        by_cases hB : lt = bytecode.Block
        · simp only [hB, if_true, Prod.mk.injEq] at h
          obtain ⟨-, rfl⟩ := h
          rw [hk, hB]
          by_cases hn : n = ln
          · simp [mapSet, hn]
          · have : ¬ (ln = n) := fun e => hn e.symm
            simp [mapSet, hn, this]
        · simp only [hB, if_false] at h
          rcases hm : p.labelTable lt with _ | m
          · simp [hm] at h
          · simp only [hm, Prod.mk.injEq] at h
            obtain ⟨-, rfl⟩ := h
            rw [hk]
            have : ¬ (lt = bytecode.Block ∧ ln = n) := fun e => hB e.1
            simp [this]

theorem Registered_new (file : String) : Registered (newBytecodeParser file) [] := by
  refine ⟨rfl, ?_, ?_, ?_⟩
  · intro k n i hi
    rw [newBytecodeParser_labelEntry] at hi
    simp at hi
  · intro n i hi
    simp [newBytecodeParser] at hi
  · intro t ht
    simp at ht

/-- Creating a sequence and registering its token keeps the state
registered, with the token added. -/
theorem Registered_setLabel (p p1 : bytecodeParser) (toks : List String) (tok : String)
    (u : Unit) (hreg : Registered p toks)
    (h : setLabel p.alloc.2 p.alloc.1 tok = (.returned u, p1)) :
    Registered p1 (toks ++ [tok]) := by
  obtain ⟨hlab, hent, hblk, hval⟩ := hreg
  obtain ⟨tent, tblk, tval⟩ := setLabel_tables _ _ _ _ _ h
  have hview := alloc_setLabel_view p p1 tok u h
  have hlen : p.heap.length = toks.length := by
    have := congrArg List.length hlab
    simpa using this
  have hold : ∀ (i : Nat) (t : String), toks[i]? = some t → (toks ++ [tok])[i]? = some t := by
    intro i t hi
    obtain ⟨hlt, -⟩ := List.getElem?_eq_some.1 hi
    rw [List.getElem?_append_left hlt]
    exact hi
  have hnew : (toks ++ [tok])[p.alloc.1]? = some tok := by
    have : p.alloc.1 = toks.length := hlen
    rw [this]
    simp
  refine ⟨?_, ?_, ?_, ?_⟩
  · have := congrArg (List.map fun v : String × Option label × List (Option instruction) => v.2.1)
      hview
    simp only [List.map_map, List.map_append, List.map_cons, List.map_nil] at this ⊢
    rw [← hlab]
    exact this
  · intro k n i hi
    rw [tent k n] at hi
    by_cases hc : labelKey tok = some (k, n) ∧ k ≠ bytecode.Block
    · rw [if_pos hc] at hi
      simp only [List.mem_append, List.mem_singleton] at hi
      rcases hi with hi | hi
      · obtain ⟨h1, t, h2, h3⟩ := hent k n i hi
        exact ⟨h1, t, hold i t h2, h3⟩
      · subst hi
        exact ⟨hc.2, tok, hnew, hc.1⟩
    · rw [if_neg hc] at hi
      obtain ⟨h1, t, h2, h3⟩ := hent k n i hi
      exact ⟨h1, t, hold i t h2, h3⟩
  · intro n i hi
    rw [tblk n] at hi
    by_cases hc : labelKey tok = some (bytecode.Block, n)
    · rw [if_pos hc] at hi
      simp only [Option.some.injEq] at hi
      subst hi
      exact ⟨tok, hnew, hc⟩
    · rw [if_neg hc] at hi
      obtain ⟨t, h2, h3⟩ := hblk n i hi
      exact ⟨t, hold i t h2, h3⟩
  · intro t ht
    rcases List.mem_append.1 ht with h1 | h1
    · exact hval t h1
    · simp only [List.mem_singleton] at h1
      subst h1
      exact tval

/-- A step that leaves the tables and the labels alone keeps the state
registered. -/
theorem Registered_frame (p p1 : bytecodeParser) (toks : List String)
    (hreg : Registered p toks) (h1 : p1.labelTable = p.labelTable)
    (h2 : p1.blockTable = p.blockTable)
    (h3 : p1.heap.map (fun s => s.label) = p.heap.map (fun s => s.label)) :
    Registered p1 toks := by
  obtain ⟨hlab, hent, hblk, hval⟩ := hreg
  refine ⟨by rw [h3, hlab], ?_, ?_, hval⟩
  · intro k n i hi
    have : p1.labelEntry k n = p.labelEntry k n := by
      unfold bytecodeParser.labelEntry
      rw [h1]
    rw [this] at hi
    exact hent k n i hi
  · intro n i hi
    rw [h2] at hi
    exact hblk n i hi


theorem define_frame (p : bytecodeParser) (is : Ptr) (line : Int) (a : Option action)
    (params : List Param) :
    (define p is line a params).2.labelTable = p.labelTable ∧
    (define p is line a params).2.blockTable = p.blockTable ∧
    (define p is line a params).2.heap.map (fun s => s.label) = p.heap.map (fun s => s.label) := by
  refine ⟨rfl, rfl, ?_⟩
  simp only [define]
  exact (map_modifyAt (fun s : instructionSet => s.label)
    (fun s => { s with instructions :=
      s.instructions ++ [{ Line := line, action := a, Params := params }] })
    (fun x => x) (fun x => rfl) p.heap is).trans (modifyAt_eq_self _ (fun _ => rfl) _ _)

theorem parseInstruction_frame (T : String → Option action) (p : bytecodeParser) (is : Ptr)
    (l : String) :
    (parseInstruction T p is l).2.labelTable = p.labelTable ∧
    (parseInstruction T p is l).2.blockTable = p.blockTable ∧
    (parseInstruction T p is l).2.heap.map (fun s => s.label) =
      p.heap.map (fun s => s.label) := by
  unfold parseInstruction
  rcases strings.Split l ' ' with _ | ⟨lineNum, _ | ⟨act, rawParams⟩⟩
  · exact ⟨rfl, rfl, rfl⟩
  · exact ⟨rfl, rfl, rfl⟩
  · simp only
    split_ifs
    · rcases strings.Split l '"' with _ | ⟨q0, _ | ⟨text, qs⟩⟩
      · exact ⟨rfl, rfl, rfl⟩
      · exact ⟨rfl, rfl, rfl⟩
      · exact define_frame _ _ _ _ _
    · exact define_frame _ _ _ _ _
    · exact ⟨rfl, rfl, rfl⟩
    · exact define_frame _ _ _ _ _

theorem convertInstruction_frame (T : String → Option action) (p : bytecodeParser) (is : Ptr)
    (i : bytecode.Instruction) :
    (convertInstruction T p is i).2.labelTable = p.labelTable ∧
    (convertInstruction T p is i).2.blockTable = p.blockTable ∧
    (convertInstruction T p is i).2.heap.map (fun s => s.label) =
      p.heap.map (fun s => s.label) := by
  unfold convertInstruction
  simp only
  split_ifs
  · exact ⟨rfl, rfl, rfl⟩
  · rcases i.Params with _ | ⟨param0, ps⟩
    · exact ⟨rfl, rfl, rfl⟩
    · simp only
      rcases strings.Split param0 '"' with _ | ⟨q0, _ | ⟨text, qs⟩⟩
      · exact ⟨rfl, rfl, rfl⟩
      · exact ⟨rfl, rfl, rfl⟩
      · exact define_frame _ _ _ _ _
  · rcases i.anchorLine with err | line
    · exact ⟨rfl, rfl, rfl⟩
    · exact define_frame _ _ _ _ _
  · exact define_frame _ _ _ _ _

/-- The section loop keeps the state registered, adding the tokens of the later
sections. -/
theorem loop_registered (T : String → Option action) (rest : List String) :
    ∀ (p p1 : bytecodeParser) (is : Ptr) (u : Unit) (toks : List String),
      Registered p toks → parseBytecodeSection.loop T p is rest = (.returned u, p1) →
      Registered p1 (toks ++ (laterSections rest).2.map (fun sec => labelToken sec.1)) := by
  induction rest with
  | nil =>
    intro p p1 is u toks hreg h
    simp only [parseBytecodeSection.loop, Prod.mk.injEq] at h
    obtain ⟨-, rfl⟩ := h
    simpa [laterSections] using hreg
  | cons text more ih =>
    intro p p1 is u toks hreg h
    by_cases hm : isMarker text = true
    · rw [loop_marker T p is [] text more hm] at h
      unfold parseBytecodeSection at h
      simp only at h
      rcases hl : parseBytecodeLabel p.alloc.2 p.alloc.1 text with ⟨_ | v, p2⟩
      · simp only [hl] at h
        have hl1 : setLabel p.alloc.2 p.alloc.1 (labelToken text) = (.returned (), p2) := hl
        have hreg2 := Registered_setLabel p p2 toks (labelToken text) () hreg hl1
        rcases hr : parseBytecodeSection.loop T p2 p.alloc.1 more with ⟨_ | v, p3⟩
        · simp only [hr, Prod.mk.injEq] at h
          obtain ⟨-, rfl⟩ := h
          have := ih p2 p3 p.alloc.1 _ _ hreg2 hr
          simpa [laterSections, hm] using this
        · simp [hr] at h
      · simp [hl] at h
    · have hm0 : isMarker text = false := by simpa using hm
      rw [loop_plain T p is text more hm0] at h
      obtain ⟨f1, f2, f3⟩ := parseInstruction_frame T p is (strings.TrimSpace text)
      rcases hl : parseInstruction T p is (strings.TrimSpace text) with ⟨_ | v, p2⟩
      · simp only [hl] at h f1 f2 f3
        have hreg2 := Registered_frame p p2 toks hreg f1 f2 f3
        have := ih p2 p1 is u toks hreg2 h
        simpa [laterSections, hm0] using this
      · simp [hl] at h

theorem parseBytecodeSection_registered (T : String → Option action) (p p1 : bytecodeParser)
    (iss : List Ptr) (lines : List String) (u : Unit) (toks : List String)
    (hreg : Registered p toks) (h : parseBytecodeSection T p iss lines = (.returned u, p1)) :
    Registered p1 (toks ++ (sections lines).map (fun sec => labelToken sec.1)) := by
  unfold parseBytecodeSection at h
  cases lines with
  | nil => simp at h
  | cons first rest =>
    simp only at h
    rcases hl : parseBytecodeLabel p.alloc.2 p.alloc.1 first with ⟨_ | v, p2⟩
    · simp only [hl] at h
      have hl1 : setLabel p.alloc.2 p.alloc.1 (labelToken first) = (.returned (), p2) := hl
      have hreg2 := Registered_setLabel p p2 toks (labelToken first) () hreg hl1
      rcases hr : parseBytecodeSection.loop T p2 p.alloc.1 rest with ⟨_ | v, p3⟩
      · simp only [hr, Prod.mk.injEq] at h
        obtain ⟨-, rfl⟩ := h
        have := loop_registered T rest p2 p3 p.alloc.1 _ _ hreg2 hr
        simpa [sections] using this
      · simp [hr] at h
    · simp [hl] at h

theorem parseInstructionSet_registered (T : String → Option action) (p p1 : bytecodeParser)
    (iss : List Ptr) (set : bytecode.InstructionSet) (u : Unit) (toks : List String)
    (hreg : Registered p toks) (h : parseInstructionSet T p iss set = (.returned u, p1)) :
    Registered p1 (toks ++ [set.labelName]) := by
  unfold parseInstructionSet at h
  simp only at h
  rcases hl : setLabel p.alloc.2 p.alloc.1 set.labelName with ⟨_ | v, p2⟩
  · simp only [hl] at h
    have hreg2 := Registered_setLabel p p2 toks set.labelName _ hreg hl
    have g1 := forRange_preserved (fun q i => convertInstruction T q p.alloc.1 i)
      (fun q => q.labelTable) (fun s x => (convertInstruction_frame T s _ x).1)
      set.Instructions p2
    have g2 := forRange_preserved (fun q i => convertInstruction T q p.alloc.1 i)
      (fun q => q.blockTable) (fun s x => (convertInstruction_frame T s _ x).2.1)
      set.Instructions p2
    have g3 := forRange_preserved (fun q i => convertInstruction T q p.alloc.1 i)
      (fun q => q.heap.map (fun s => s.label)) (fun s x => (convertInstruction_frame T s _ x).2.2)
      set.Instructions p2
    rcases hr : forRange (fun q i => convertInstruction T q p.alloc.1 i) p2 set.Instructions
      with ⟨_ | v, p3⟩
    · simp only [hr, Prod.mk.injEq] at h g1 g2 g3
      obtain ⟨-, rfl⟩ := h
      exact Registered_frame p2 p3 _ hreg2 g1 g2 g3
    · simp [hr] at h
  · simp [hl] at h

theorem forRange_registered (T : String → Option action) (sets : List bytecode.InstructionSet) :
    ∀ (p p1 : bytecodeParser) (u : Unit) (toks : List String), Registered p toks →
      forRange (fun q set => parseInstructionSet T q [] set) p sets = (.returned u, p1) →
      Registered p1 (toks ++ sets.map (fun set => set.labelName)) := by
  induction sets with
  | nil =>
    intro p p1 u toks hreg h
    simp only [forRange, Prod.mk.injEq] at h
    obtain ⟨-, rfl⟩ := h
    simpa using hreg
  | cons set sets ih =>
    intro p p1 u toks hreg h
    unfold forRange at h
    rcases hs : parseInstructionSet T p [] set with ⟨_ | v, p2⟩
    · simp only [hs] at h
      have hreg2 := parseInstructionSet_registered T p p2 [] set _ toks hreg hs
      have := ih p2 p1 u _ hreg2 h
      simpa using this
    · simp [hs] at h

/-- The sequences of a registered state carry the labels of their tokens. -/
theorem Labelled_of_Registered (p : bytecodeParser) (toks : List String)
    (hreg : Registered p toks) : Labelled p toks := by
  obtain ⟨hlab, hent, hblk, hval⟩ := hreg
  have hget : ∀ (i : Nat) (t : String), toks[i]? = some t →
      ∃ s, p.heap[i]? = some s ∧ s.label = labelOf t := by
    intro i t hi
    have h1 := congrArg (fun l : List (Option label) => l[i]?) hlab
    simp only [List.getElem?_map, hi, Option.map_some'] at h1
    cases hs : p.heap[i]? with
    | none => simp [hs] at h1
    | some s =>
      simp only [hs, Option.map_some', Option.some.injEq] at h1
      exact ⟨s, rfl, h1⟩
  have hkey : ∀ (t k n : String), labelKey t = some (k, n) →
      labelOf t = some { name := t, type := k } := by
    intro t k n h
    simp [labelOf, h]
  refine ⟨?_, ?_, ?_⟩
  · intro k n i hi
    obtain ⟨-, t, ht, hk⟩ := hent k n i hi
    obtain ⟨s, hs, hl⟩ := hget i t ht
    exact ⟨s, t, hs, ht, by rw [hl, hkey t k n hk], hk⟩
  · intro n i hi
    obtain ⟨t, ht, hk⟩ := hblk n i hi
    obtain ⟨s, hs, hl⟩ := hget i t ht
    exact ⟨s, t, hs, ht, by rw [hl, hkey t _ n hk], hk⟩
  · intro i s hs
    have h1 := congrArg (fun l : List (Option label) => l[i]?) hlab
    simp only [List.getElem?_map, hs, Option.map_some'] at h1
    cases ht : toks[i]? with
    | none => simp [ht] at h1
    | some t =>
      simp only [ht, Option.map_some', Option.some.injEq] at h1
      have hmem : t ∈ toks := List.mem_iff_getElem?.2 ⟨i, ht⟩
      rw [h1]
      constructor
      · intro hnone
        rcases hval t hmem with h2 | h2
        · rw [h2]
        · exfalso
          apply h2
          simpa [labelOf] using hnone
      · intro ht2
        simp only [Option.some.injEq] at ht2
        rw [ht2]
        simp [labelOf, labelKey]

/-- C15: after a decode from a new decoder that returns normally, by the
textual path or by the structured path, every sequence stored in the label
table or in the block table carries a label whose kind is the kind of its
label token and the key it is filed under, and the sequences without a label
are exactly those whose label token is the program marker. -/
theorem labels_after_decode (T : String → Option action) (E : PanicValue → Bool)
    (file input : String) (iss : List Ptr) (sets : List bytecode.InstructionSet)
    (iss2 : List Ptr) :
    ((parseBytecode T E (newBytecodeParser file) input).1 = .returned (some iss) →
      Labelled (parseBytecode T E (newBytecodeParser file) input).2
        ((sections (inputLines input)).map (fun sec => labelToken sec.1))) ∧
    ((parseInstructionSets T (newBytecodeParser file) sets).1 = .returned iss2 →
      Labelled (parseInstructionSets T (newBytecodeParser file) sets).2
        (sets.map (fun set => set.labelName))) := by
  constructor
  · intro h
    have h1 : parseBytecode T E (newBytecodeParser file) input =
        (.returned (some iss), (parseBytecode T E (newBytecodeParser file) input).2) :=
      Prod.ext h rfl
    obtain ⟨-, hsec⟩ := parseBytecode_returned _ _ _ _ _ _ h1
    have := parseBytecodeSection_registered T _ _ _ _ _ [] (Registered_new file) hsec
    exact Labelled_of_Registered _ _ (by simpa using this)
  · intro h
    unfold parseInstructionSets at h ⊢
    simp only at h ⊢
    rcases hr : forRange (fun q set => parseInstructionSet T q [] set) (newBytecodeParser file)
      sets with ⟨_ | v, p1⟩
    · simp only [hr]
      have := forRange_registered T sets _ _ _ [] (Registered_new file) hr
      exact Labelled_of_Registered _ _ (by simpa using this)
    · simp [hr] at h

/-- Witness for C15: a program section and a method section by the textual
path, and the same two sections as records by the structured path. -/
theorem labels_after_decode_witness :
    Labelled (parseBytecode sampleActions (fun _ => false) (newBytecodeParser "f")
        "<Program>\n1 leave\n<Def:foo>\n2 leave").2
      ((sections (inputLines "<Program>\n1 leave\n<Def:foo>\n2 leave")).map
        (fun sec => labelToken sec.1)) ∧
    Labelled (parseInstructionSets sampleActions (newBytecodeParser "f")
        [{ labelName := "Program", Instructions :=
            [{ Action := "leave", Params := [], line := 1, anchorLine := .error "" }] },
         { labelName := "Def:foo", Instructions :=
            [{ Action := "leave", Params := [], line := 2, anchorLine := .error "" }] }]).2
      (([{ labelName := "Program", Instructions :=
            [{ Action := "leave", Params := [], line := 1, anchorLine := .error "" }] },
         { labelName := "Def:foo", Instructions :=
            [{ Action := "leave", Params := [], line := 2, anchorLine := .error "" }] }] :
          List bytecode.InstructionSet).map (fun set => set.labelName)) :=
  ⟨(labels_after_decode sampleActions (fun _ => false) "f"
      "<Program>\n1 leave\n<Def:foo>\n2 leave" []
      [{ labelName := "Program", Instructions :=
          [{ Action := "leave", Params := [], line := 1, anchorLine := .error "" }] },
       { labelName := "Def:foo", Instructions :=
          [{ Action := "leave", Params := [], line := 2, anchorLine := .error "" }] }] []).1 rfl,
   (labels_after_decode sampleActions (fun _ => false) "f"
      "<Program>\n1 leave\n<Def:foo>\n2 leave" []
      [{ labelName := "Program", Instructions :=
          [{ Action := "leave", Params := [], line := 1, anchorLine := .error "" }] },
       { labelName := "Def:foo", Instructions :=
          [{ Action := "leave", Params := [], line := 2, anchorLine := .error "" }] }] []).2 rfl⟩

/-! ## Whitespace next to a section marker -/

/-- C20 (defect in the code): a space next to a nested section marker changes
the decode.  The input with the marker line `<Def:foo>` returns and files the
second sequence under kind `Def`, name `foo`.  With a space before that marker
the line is still taken for a marker, since the test is made on the trimmed
text, but the label is read from the untrimmed line: the kind is ` <Def`, which
the label table lacks, and the run panics with the assignment to a nil map (or
returns the nil slice if the deferred function recovers it), with nothing filed
under `Def`, `foo`.  With a space after the marker the run returns, but the
sequence is filed under the name `foo> ` and carries the label `Def:foo> `. -/
theorem parseBytecode_marker_whitespace (E : PanicValue → Bool) :
    (parseBytecode sampleActions E (newBytecodeParser "f")
      "<Program>\n1 leave\n<Def:foo>\n2 leave").1 = .returned (some []) ∧
    (parseBytecode sampleActions E (newBytecodeParser "f")
      "<Program>\n1 leave\n<Def:foo>\n2 leave").2.labelEntry "Def" "foo" = [1] ∧
    (parseBytecode sampleActions E (newBytecodeParser "f")
      "<Program>\n1 leave\n <Def:foo>\n2 leave").1 =
      (if E .nilMapAssignment then .returned none else .panicked .nilMapAssignment) ∧
    (parseBytecode sampleActions E (newBytecodeParser "f")
      "<Program>\n1 leave\n <Def:foo>\n2 leave").2.labelEntry "Def" "foo" = [] ∧
    (parseBytecode sampleActions E (newBytecodeParser "f")
      "<Program>\n1 leave\n<Def:foo> \n2 leave").1 = .returned (some []) ∧
    (parseBytecode sampleActions E (newBytecodeParser "f")
      "<Program>\n1 leave\n<Def:foo> \n2 leave").2.labelEntry "Def" "foo" = [] ∧
    (parseBytecode sampleActions E (newBytecodeParser "f")
      "<Program>\n1 leave\n<Def:foo> \n2 leave").2.labelEntry "Def" "foo> " = [1] ∧
    (parseBytecode sampleActions E (newBytecodeParser "f")
      "<Program>\n1 leave\n<Def:foo> \n2 leave").2.heap.map (fun s => s.label) =
      [none, some { name := "Def:foo> ", type := "Def" }] := by
  have hp : parseBytecodeSection sampleActions (newBytecodeParser "f") []
      (strings.Split (strings.TrimSpace "<Program>\n1 leave\n <Def:foo>\n2 leave") '\n') =
      (.panicked .nilMapAssignment,
        (parseBytecodeSection sampleActions (newBytecodeParser "f") []
          (strings.Split (strings.TrimSpace "<Program>\n1 leave\n <Def:foo>\n2 leave") '\n')).2) :=
    Prod.ext rfl rfl
  have hq : (parseBytecodeSection sampleActions (newBytecodeParser "f") []
      (strings.Split (strings.TrimSpace "<Program>\n1 leave\n <Def:foo>\n2 leave")
        '\n')).2.labelEntry "Def" "foo" = [] := rfl
  refine ⟨rfl, rfl, ?_, ?_, rfl, rfl, rfl, rfl⟩
  · unfold parseBytecode
    simp only
    rw [hp]
    simp only
    cases E .nilMapAssignment <;> rfl
  · unfold parseBytecode
    simp only
    rw [hp]
    simp only
    cases E .nilMapAssignment <;> exact hq

end vm
